import Mathlib

/-!
# CipherLab: AES-128 encryption (`src/ciphers/aes/encrypt.cpp`)

A shallow embedding of the AES-128 ECB encryption tool and proofs about it.

Conventions of the embedding.

* A buffer of `unsigned char` is a `List Nat`; a well-formed buffer holds values below 256.
* A pointer `p + k` into a buffer is the view `List.drop k` of that buffer.
* A read `buf[i]` is `load buf i` and a write `buf[i] = v` is `store buf i v`; both yield
  `none` when `i` is outside the buffer, so every function returns an `Option`, and `none`
  stands for an out-of-bounds access.  A write truncates the value to 8 bits.
* A function that mutates a buffer in place returns the new contents of that buffer.
* `for (int i = 0; i < n; i++) body` is `forLoop body n 0`.
* A run of assignments `tmp[0] = e0; tmp[1] = e1; ...` is `assignAll 0 [e0, e1, ...] tmp`.
* A local array and a `new` array start as zero bytes; the program writes every entry before it
  reads it.
* The diagnostic printing (`cout`, `printState`, `printRoundKey`) is left out.
* `structures.h` is not part of the sources.  The functions take its lookup tables `s`, `mul2`,
  `mul3` and the key schedule as parameters; namespace `structures` holds the standard values.
-/

namespace CipherLab

/-! ## Memory -/

/-- The read `buf[i]`. -/
def load (buf : List Nat) (i : Nat) : Option Nat := buf[i]?

/-- The write `buf[i] = v` into an `unsigned char` buffer. -/
def store (buf : List Nat) (i v : Nat) : Option (List Nat) :=
  if i < buf.length then some (buf.set i (v % 256)) else none

/-- The loop `for (int i = start; i < start + count; i++) body`, threading the state. -/
def forLoop {σ : Type} (body : Nat → σ → Option σ) : Nat → Nat → σ → Option σ
  | 0, _, st => some st
  | count + 1, i, st => (body i st).bind (forLoop body count (i + 1))

/-! ## The round transformations (lines 17-111) -/

/-- The function `AddRoundKey(state, roundKey)`: `state[i] ^= roundKey[i]` for `i` in `0..16`. -/
def AddRoundKey (state roundKey : List Nat) : Option (List Nat) :=
  forLoop (fun i st => do
    let a ← load st i
    let k ← load roundKey i
    store st i (a ^^^ k)) 16 0 state

/-- The function `SubBytes(state)`: `state[i] = s[state[i]]` for `i` in `0..16`. -/
def SubBytes (s : List Nat) (state : List Nat) : Option (List Nat) :=
  forLoop (fun i st => do
    let a ← load st i
    let v ← load s a
    store st i v) 16 0 state

/-- The closing loop of `ShiftRows` and `MixColumns`: `state[i] = tmp[i]` for `i` in `0..16`. -/
def copyBack (tmp state : List Nat) : Option (List Nat) :=
  forLoop (fun i st => do
    let v ← load tmp i
    store st i v) 16 0 state

/-- The assignments `tmp[d] = e0; tmp[d+1] = e1; ...` in this order, `e0, e1, ...` being the
values of the right-hand sides (`none` for one that reads out of bounds). -/
def assignAll : Nat → List (Option Nat) → List Nat → Option (List Nat)
  | _, [], tmp => some tmp
  | d, e :: es, tmp => (e.bind (store tmp d)).bind (assignAll (d + 1) es)

/-- The function `ShiftRows(state)`: the sixteen assignments `tmp[0] = state[0];
tmp[1] = state[5]; ...`, then the copy back. -/
def ShiftRows (state : List Nat) : Option (List Nat) := do
  let tmp ← assignAll 0 [
    /- Column 1 -/
    load state 0, load state 5, load state 10, load state 15,
    /- Column 2 -/
    load state 4, load state 9, load state 14, load state 3,
    /- Column 3 -/
    load state 8, load state 13, load state 2, load state 7,
    /- Column 4 -/
    load state 12, load state 1, load state 6, load state 11] (List.replicate 16 0)
  copyBack tmp state

/-- The right-hand side `(unsigned char) mul2[state[a]] ^ mul3[state[b]] ^ state[c] ^ state[e]`
of `MixColumns`; the cast binds to the first operand only. -/
def mixExpr0 (mul2 mul3 state : List Nat) (a b c e : Nat) : Option Nat := do
  let x ← load mul2 (← load state a)
  let y ← load mul3 (← load state b)
  let z ← load state c
  let w ← load state e
  pure (x % 256 ^^^ y ^^^ z ^^^ w)

/-- The right-hand side `(unsigned char) state[a] ^ mul2[state[b]] ^ mul3[state[c]] ^ state[e]`
of `MixColumns`. -/
def mixExpr1 (mul2 mul3 state : List Nat) (a b c e : Nat) : Option Nat := do
  let x ← load state a
  let y ← load mul2 (← load state b)
  let z ← load mul3 (← load state c)
  let w ← load state e
  pure (x % 256 ^^^ y ^^^ z ^^^ w)

/-- The right-hand side `(unsigned char) state[a] ^ state[b] ^ mul2[state[c]] ^ mul3[state[e]]`
of `MixColumns`. -/
def mixExpr2 (mul2 mul3 state : List Nat) (a b c e : Nat) : Option Nat := do
  let x ← load state a
  let y ← load state b
  let z ← load mul2 (← load state c)
  let w ← load mul3 (← load state e)
  pure (x % 256 ^^^ y ^^^ z ^^^ w)

/-- The right-hand side `(unsigned char) mul3[state[a]] ^ state[b] ^ state[c] ^ mul2[state[e]]`
of `MixColumns`. -/
def mixExpr3 (mul2 mul3 state : List Nat) (a b c e : Nat) : Option Nat := do
  let x ← load mul3 (← load state a)
  let y ← load state b
  let z ← load state c
  let w ← load mul2 (← load state e)
  pure (x % 256 ^^^ y ^^^ z ^^^ w)

/-- The function `MixColumns(state)`: the sixteen assignments `tmp[0] = ...; tmp[1] = ...; ...`,
then the copy back. -/
def MixColumns (mul2 mul3 : List Nat) (state : List Nat) : Option (List Nat) := do
  let tmp ← assignAll 0 [
    mixExpr0 mul2 mul3 state 0 1 2 3,
    mixExpr1 mul2 mul3 state 0 1 2 3,
    mixExpr2 mul2 mul3 state 0 1 2 3,
    mixExpr3 mul2 mul3 state 0 1 2 3,

    mixExpr0 mul2 mul3 state 4 5 6 7,
    mixExpr1 mul2 mul3 state 4 5 6 7,
    mixExpr2 mul2 mul3 state 4 5 6 7,
    mixExpr3 mul2 mul3 state 4 5 6 7,

    mixExpr0 mul2 mul3 state 8 9 10 11,
    mixExpr1 mul2 mul3 state 8 9 10 11,
    mixExpr2 mul2 mul3 state 8 9 10 11,
    mixExpr3 mul2 mul3 state 8 9 10 11,

    mixExpr0 mul2 mul3 state 12 13 14 15,
    mixExpr1 mul2 mul3 state 12 13 14 15,
    mixExpr2 mul2 mul3 state 12 13 14 15,
    mixExpr3 mul2 mul3 state 12 13 14 15] (List.replicate 16 0)
  copyBack tmp state

/-- The function `Round(state, key)`. -/
def Round (s mul2 mul3 : List Nat) (state key : List Nat) : Option (List Nat) := do
  let state ← SubBytes s state
  let state ← ShiftRows state
  let state ← MixColumns mul2 mul3 state
  AddRoundKey state key

/-- The function `FinalRound(state, key)`: same as `Round` except it does not mix columns. -/
def FinalRound (s : List Nat) (state key : List Nat) : Option (List Nat) := do
  let state ← SubBytes s state
  let state ← ShiftRows state
  AddRoundKey state key

/-! ## The block cipher driver (lines 116-182) -/

/-- The function `AESEncrypt(message, expandedKey, encryptedMessage)`; the result is the new
contents of `encryptedMessage`. -/
def AESEncrypt (s mul2 mul3 : List Nat) (message expandedKey encryptedMessage : List Nat) :
    Option (List Nat) := do
  let state := List.replicate 16 0
  let state ← forLoop (fun i st => do
    let v ← load message i
    store st i v) 16 0 state
  let numberOfRounds := 9
  let state ← AddRoundKey state expandedKey
  let state ← forLoop (fun i st => do
    let st ← SubBytes s st
    let st ← ShiftRows st
    let st ← MixColumns mul2 mul3 st
    AddRoundKey st (expandedKey.drop (16 * (i + 1)))) numberOfRounds 0 state
  let state ← SubBytes s state
  let state ← ShiftRows state
  let state ← AddRoundKey state (expandedKey.drop 160)
  forLoop (fun i enc => do
    let v ← load state i
    store enc i v) 16 0 encryptedMessage

/-! ## The message driver (`main`, lines 184-288) -/

/-- The function `strlen(message)`: the number of bytes before the first zero byte; `none` when
the buffer holds no zero byte. -/
def strlen : List Nat → Option Nat
  | [] => none
  | c :: cs => if c = 0 then some 0 else (strlen cs).map (fun n => n + 1)

/-- Lines 198-202: `paddedMessageLen` as computed from `originalLen`. -/
def paddedLength (originalLen : Nat) : Nat :=
  let paddedMessageLen := originalLen
  if paddedMessageLen % 16 ≠ 0 then (paddedMessageLen / 16 + 1) * 16 else paddedMessageLen

/-- Lines 204-212: the buffer `paddedMessage` after the padding loop. -/
def padMessage (message : List Nat) (originalLen paddedMessageLen : Nat) : Option (List Nat) :=
  forLoop (fun i paddedMessage =>
    if i ≥ originalLen then store paddedMessage i 0
    else do
      let c ← load message i
      store paddedMessage i c) paddedMessageLen 0 (List.replicate paddedMessageLen 0)

/-- Lines 234-242: the loop `while (hex_chars_stream >> hex >> c)` over the values the stream
yields, from the state `(key, i)`. -/
def readKey : List Nat → List Nat → Nat → Option (List Nat × Nat)
  | [], key, i => some (key, i)
  | c :: cs, key, i =>
    if i < 16 then (store key i c).bind (fun key => readKey cs key (i + 1))
    else readKey cs key i

/-- Lines 254-259: the loop `for (int i = 0; i < paddedMessageLen; i += 16)` from offset `i`,
with the contents of `encryptedMessage` as state.  The first argument bounds the number of
iterations; `none` also stands for an exhausted bound. -/
def encryptBlocks (s mul2 mul3 : List Nat) (paddedMessage expandedKey : List Nat)
    (paddedMessageLen : Nat) : Nat → Nat → List Nat → Option (List Nat)
  | 0, _, _ => none
  | fuel + 1, i, encryptedMessage =>
    if i < paddedMessageLen then
      (AESEncrypt s mul2 mul3 (paddedMessage.drop i) expandedKey (encryptedMessage.drop i)).bind
        (fun out => encryptBlocks s mul2 mul3 paddedMessage expandedKey paddedMessageLen
          fuel (i + 16) (encryptedMessage.take i ++ out))
    else some encryptedMessage

/-- The two ways `main` ends: `return 1` after the key error message, which names the number
of bytes entered and comes before any block is encrypted or written, or `return 0` after the
first `paddedMessageLen` bytes of `encryptedMessage` were handed to `outfile.write` (when the
file opens). -/
inductive Outcome where
  | keyError (entered : Nat)
  | written (bytes : List Nat)
  deriving DecidableEq

/-- The function `main`.  `message` is the buffer `char message[1024]` as `cin.getline` left
it, `keyValues` the values `hex_chars_stream >> hex >> c` yields from the key line, and
`KeyExpansion key` the contents of `expandedKey` after the call `KeyExpansion(key, expandedKey)`. -/
def main (s mul2 mul3 : List Nat) (KeyExpansion : List Nat → List Nat)
    (message keyValues : List Nat) : Option Outcome := do
  let originalLen ← strlen message
  let paddedMessageLen := paddedLength originalLen
  let paddedMessage ← padMessage message originalLen paddedMessageLen
  let encryptedMessage := List.replicate paddedMessageLen 0
  let (key, i) ← readKey keyValues (List.replicate 16 0) 0
  if i ≠ 16 then
    return Outcome.keyError i
  else
    let expandedKey := KeyExpansion key
    let encryptedMessage ← encryptBlocks s mul2 mul3 paddedMessage expandedKey paddedMessageLen
      (paddedMessageLen + 1) 0 encryptedMessage
    return Outcome.written (encryptedMessage.take paddedMessageLen)

/-! ## The contents of `structures.h` -/

namespace structures

/-- Modelled from the spec: the S-box `s` of the absent header `structures.h`, the fixed
256-entry AES substitution table of FIPS-197 (entry `x` is the affine image of the inverse of
`x` in GF(2^8)). -/
def s : List Nat :=
  [0x63, 0x7c, 0x77, 0x7b, 0xf2, 0x6b, 0x6f, 0xc5, 0x30, 0x01, 0x67, 0x2b, 0xfe, 0xd7, 0xab, 0x76,
   0xca, 0x82, 0xc9, 0x7d, 0xfa, 0x59, 0x47, 0xf0, 0xad, 0xd4, 0xa2, 0xaf, 0x9c, 0xa4, 0x72, 0xc0,
   0xb7, 0xfd, 0x93, 0x26, 0x36, 0x3f, 0xf7, 0xcc, 0x34, 0xa5, 0xe5, 0xf1, 0x71, 0xd8, 0x31, 0x15,
   0x04, 0xc7, 0x23, 0xc3, 0x18, 0x96, 0x05, 0x9a, 0x07, 0x12, 0x80, 0xe2, 0xeb, 0x27, 0xb2, 0x75,
   0x09, 0x83, 0x2c, 0x1a, 0x1b, 0x6e, 0x5a, 0xa0, 0x52, 0x3b, 0xd6, 0xb3, 0x29, 0xe3, 0x2f, 0x84,
   0x53, 0xd1, 0x00, 0xed, 0x20, 0xfc, 0xb1, 0x5b, 0x6a, 0xcb, 0xbe, 0x39, 0x4a, 0x4c, 0x58, 0xcf,
   0xd0, 0xef, 0xaa, 0xfb, 0x43, 0x4d, 0x33, 0x85, 0x45, 0xf9, 0x02, 0x7f, 0x50, 0x3c, 0x9f, 0xa8,
   0x51, 0xa3, 0x40, 0x8f, 0x92, 0x9d, 0x38, 0xf5, 0xbc, 0xb6, 0xda, 0x21, 0x10, 0xff, 0xf3, 0xd2,
   0xcd, 0x0c, 0x13, 0xec, 0x5f, 0x97, 0x44, 0x17, 0xc4, 0xa7, 0x7e, 0x3d, 0x64, 0x5d, 0x19, 0x73,
   0x60, 0x81, 0x4f, 0xdc, 0x22, 0x2a, 0x90, 0x88, 0x46, 0xee, 0xb8, 0x14, 0xde, 0x5e, 0x0b, 0xdb,
   0xe0, 0x32, 0x3a, 0x0a, 0x49, 0x06, 0x24, 0x5c, 0xc2, 0xd3, 0xac, 0x62, 0x91, 0x95, 0xe4, 0x79,
   0xe7, 0xc8, 0x37, 0x6d, 0x8d, 0xd5, 0x4e, 0xa9, 0x6c, 0x56, 0xf4, 0xea, 0x65, 0x7a, 0xae, 0x08,
   0xba, 0x78, 0x25, 0x2e, 0x1c, 0xa6, 0xb4, 0xc6, 0xe8, 0xdd, 0x74, 0x1f, 0x4b, 0xbd, 0x8b, 0x8a,
   0x70, 0x3e, 0xb5, 0x66, 0x48, 0x03, 0xf6, 0x0e, 0x61, 0x35, 0x57, 0xb9, 0x86, 0xc1, 0x1d, 0x9e,
   0xe1, 0xf8, 0x98, 0x11, 0x69, 0xd9, 0x8e, 0x94, 0x9b, 0x1e, 0x87, 0xe9, 0xce, 0x55, 0x28, 0xdf,
   0x8c, 0xa1, 0x89, 0x0d, 0xbf, 0xe6, 0x42, 0x68, 0x41, 0x99, 0x2d, 0x0f, 0xb0, 0x54, 0xbb, 0x16]

/-- Modelled from the spec: the table `mul2` of the absent header `structures.h`, multiplication
by 2 in GF(2^8) modulo `x^8 + x^4 + x^3 + x + 1`. -/
def mul2 : List Nat :=
  [0x00, 0x02, 0x04, 0x06, 0x08, 0x0a, 0x0c, 0x0e, 0x10, 0x12, 0x14, 0x16, 0x18, 0x1a, 0x1c, 0x1e,
   0x20, 0x22, 0x24, 0x26, 0x28, 0x2a, 0x2c, 0x2e, 0x30, 0x32, 0x34, 0x36, 0x38, 0x3a, 0x3c, 0x3e,
   0x40, 0x42, 0x44, 0x46, 0x48, 0x4a, 0x4c, 0x4e, 0x50, 0x52, 0x54, 0x56, 0x58, 0x5a, 0x5c, 0x5e,
   0x60, 0x62, 0x64, 0x66, 0x68, 0x6a, 0x6c, 0x6e, 0x70, 0x72, 0x74, 0x76, 0x78, 0x7a, 0x7c, 0x7e,
   0x80, 0x82, 0x84, 0x86, 0x88, 0x8a, 0x8c, 0x8e, 0x90, 0x92, 0x94, 0x96, 0x98, 0x9a, 0x9c, 0x9e,
   0xa0, 0xa2, 0xa4, 0xa6, 0xa8, 0xaa, 0xac, 0xae, 0xb0, 0xb2, 0xb4, 0xb6, 0xb8, 0xba, 0xbc, 0xbe,
   0xc0, 0xc2, 0xc4, 0xc6, 0xc8, 0xca, 0xcc, 0xce, 0xd0, 0xd2, 0xd4, 0xd6, 0xd8, 0xda, 0xdc, 0xde,
   0xe0, 0xe2, 0xe4, 0xe6, 0xe8, 0xea, 0xec, 0xee, 0xf0, 0xf2, 0xf4, 0xf6, 0xf8, 0xfa, 0xfc, 0xfe,
   0x1b, 0x19, 0x1f, 0x1d, 0x13, 0x11, 0x17, 0x15, 0x0b, 0x09, 0x0f, 0x0d, 0x03, 0x01, 0x07, 0x05,
   0x3b, 0x39, 0x3f, 0x3d, 0x33, 0x31, 0x37, 0x35, 0x2b, 0x29, 0x2f, 0x2d, 0x23, 0x21, 0x27, 0x25,
   0x5b, 0x59, 0x5f, 0x5d, 0x53, 0x51, 0x57, 0x55, 0x4b, 0x49, 0x4f, 0x4d, 0x43, 0x41, 0x47, 0x45,
   0x7b, 0x79, 0x7f, 0x7d, 0x73, 0x71, 0x77, 0x75, 0x6b, 0x69, 0x6f, 0x6d, 0x63, 0x61, 0x67, 0x65,
   0x9b, 0x99, 0x9f, 0x9d, 0x93, 0x91, 0x97, 0x95, 0x8b, 0x89, 0x8f, 0x8d, 0x83, 0x81, 0x87, 0x85,
   0xbb, 0xb9, 0xbf, 0xbd, 0xb3, 0xb1, 0xb7, 0xb5, 0xab, 0xa9, 0xaf, 0xad, 0xa3, 0xa1, 0xa7, 0xa5,
   0xdb, 0xd9, 0xdf, 0xdd, 0xd3, 0xd1, 0xd7, 0xd5, 0xcb, 0xc9, 0xcf, 0xcd, 0xc3, 0xc1, 0xc7, 0xc5,
   0xfb, 0xf9, 0xff, 0xfd, 0xf3, 0xf1, 0xf7, 0xf5, 0xeb, 0xe9, 0xef, 0xed, 0xe3, 0xe1, 0xe7, 0xe5]

/-- Modelled from the spec: the table `mul3` of the absent header `structures.h`, multiplication
by 3 in GF(2^8) modulo `x^8 + x^4 + x^3 + x + 1`. -/
def mul3 : List Nat :=
  [0x00, 0x03, 0x06, 0x05, 0x0c, 0x0f, 0x0a, 0x09, 0x18, 0x1b, 0x1e, 0x1d, 0x14, 0x17, 0x12, 0x11,
   0x30, 0x33, 0x36, 0x35, 0x3c, 0x3f, 0x3a, 0x39, 0x28, 0x2b, 0x2e, 0x2d, 0x24, 0x27, 0x22, 0x21,
   0x60, 0x63, 0x66, 0x65, 0x6c, 0x6f, 0x6a, 0x69, 0x78, 0x7b, 0x7e, 0x7d, 0x74, 0x77, 0x72, 0x71,
   0x50, 0x53, 0x56, 0x55, 0x5c, 0x5f, 0x5a, 0x59, 0x48, 0x4b, 0x4e, 0x4d, 0x44, 0x47, 0x42, 0x41,
   0xc0, 0xc3, 0xc6, 0xc5, 0xcc, 0xcf, 0xca, 0xc9, 0xd8, 0xdb, 0xde, 0xdd, 0xd4, 0xd7, 0xd2, 0xd1,
   0xf0, 0xf3, 0xf6, 0xf5, 0xfc, 0xff, 0xfa, 0xf9, 0xe8, 0xeb, 0xee, 0xed, 0xe4, 0xe7, 0xe2, 0xe1,
   0xa0, 0xa3, 0xa6, 0xa5, 0xac, 0xaf, 0xaa, 0xa9, 0xb8, 0xbb, 0xbe, 0xbd, 0xb4, 0xb7, 0xb2, 0xb1,
   0x90, 0x93, 0x96, 0x95, 0x9c, 0x9f, 0x9a, 0x99, 0x88, 0x8b, 0x8e, 0x8d, 0x84, 0x87, 0x82, 0x81,
   0x9b, 0x98, 0x9d, 0x9e, 0x97, 0x94, 0x91, 0x92, 0x83, 0x80, 0x85, 0x86, 0x8f, 0x8c, 0x89, 0x8a,
   0xab, 0xa8, 0xad, 0xae, 0xa7, 0xa4, 0xa1, 0xa2, 0xb3, 0xb0, 0xb5, 0xb6, 0xbf, 0xbc, 0xb9, 0xba,
   0xfb, 0xf8, 0xfd, 0xfe, 0xf7, 0xf4, 0xf1, 0xf2, 0xe3, 0xe0, 0xe5, 0xe6, 0xef, 0xec, 0xe9, 0xea,
   0xcb, 0xc8, 0xcd, 0xce, 0xc7, 0xc4, 0xc1, 0xc2, 0xd3, 0xd0, 0xd5, 0xd6, 0xdf, 0xdc, 0xd9, 0xda,
   0x5b, 0x58, 0x5d, 0x5e, 0x57, 0x54, 0x51, 0x52, 0x43, 0x40, 0x45, 0x46, 0x4f, 0x4c, 0x49, 0x4a,
   0x6b, 0x68, 0x6d, 0x6e, 0x67, 0x64, 0x61, 0x62, 0x73, 0x70, 0x75, 0x76, 0x7f, 0x7c, 0x79, 0x7a,
   0x3b, 0x38, 0x3d, 0x3e, 0x37, 0x34, 0x31, 0x32, 0x23, 0x20, 0x25, 0x26, 0x2f, 0x2c, 0x29, 0x2a,
   0x0b, 0x08, 0x0d, 0x0e, 0x07, 0x04, 0x01, 0x02, 0x13, 0x10, 0x15, 0x16, 0x1f, 0x1c, 0x19, 0x1a]

/-- Modelled from the spec: the round constants of the AES-128 key schedule, the powers
`x^0 .. x^9` in GF(2^8). -/
def rcon : List Nat := [0x01, 0x02, 0x04, 0x08, 0x10, 0x20, 0x40, 0x80, 0x1b, 0x36]

/-- Modelled from the spec: the word loop of the AES-128 key schedule.  Word `j` (bytes
`4j .. 4j+3`) is word `j-4` XOR a temporary; the temporary is word `j-1`, and when `j` is a
multiple of 4 it is rotated by one byte, substituted through the S-box and XORed with the round
constant. -/
def expandWords : Nat → Nat → List Nat → List Nat
  | 0, _, w => w
  | count + 1, j, w =>
    let t0 := w.getD (4 * j - 4) 0
    let t1 := w.getD (4 * j - 3) 0
    let t2 := w.getD (4 * j - 2) 0
    let t3 := w.getD (4 * j - 1) 0
    let t :=
      if j % 4 = 0 then
        [s.getD t1 0 ^^^ rcon.getD (j / 4 - 1) 0, s.getD t2 0, s.getD t3 0, s.getD t0 0]
      else [t0, t1, t2, t3]
    expandWords count (j + 1)
      (w ++ [w.getD (4 * j - 16) 0 ^^^ t.getD 0 0, w.getD (4 * j - 15) 0 ^^^ t.getD 1 0,
             w.getD (4 * j - 14) 0 ^^^ t.getD 2 0, w.getD (4 * j - 13) 0 ^^^ t.getD 3 0])

/-- Modelled from the spec: `KeyExpansion(key, expandedKey)` of the absent header
`structures.h`, the standard AES-128 key expansion of a 16-byte key into 176 bytes, 11 round
keys of which round key 0 is the key itself.  The result is the contents of `expandedKey`. -/
def KeyExpansion (key : List Nat) : List Nat :=
  expandWords 40 4 (key.take 16)

end structures

/-! ## The block cipher driver as the specification words it -/

/-- The slice `l[a : b]` of a byte sequence. -/
def slice (l : List Nat) (a b : Nat) : List Nat := (l.take b).drop a

/-- The specification of the block cipher driver, following its wording and not the code: copy
the plaintext into the state; initial round `AddRoundKey(state, expandedKey[0:16])`; for round
index `r` in 1 to 9 inclusive `Round(state, expandedKey[16*r : 16*r+16])`; final round
`FinalRound(state, expandedKey[160:176])`; return the state as the ciphertext block. -/
def EncryptBlock_spec (s mul2 mul3 : List Nat) (plaintextBlock expandedKey : List Nat) :
    Option (List Nat) := do
  let state := plaintextBlock
  let state ← AddRoundKey state (slice expandedKey 0 16)
  let state ← [1, 2, 3, 4, 5, 6, 7, 8, 9].foldlM
    (fun state r => Round s mul2 mul3 state (slice expandedKey (16 * r) (16 * r + 16))) state
  let state ← FinalRound s state (slice expandedKey 160 176)
  pure state

/-! ## Closed forms used in the proofs -/

/-- The elementwise loop over `xs`, starting at index `i`: entry `a` at index `j` becomes the
byte `g j a`.  It is the closed form of the `for` loops that update a buffer entry by entry. -/
def updAll (g : Nat → Nat → Option Nat) : Nat → List Nat → Option (List Nat)
  | _, [] => some []
  | i, a :: as => (g i a).bind fun v => (updAll g (i + 1) as).map (fun vs => v % 256 :: vs)

/-- A state: exactly 16 bytes. -/
def IsState (st : List Nat) : Prop := st.length = 16 ∧ ∀ x ∈ st, x < 256

/-- The value `ShiftRows` leaves in the state: entry `i` is the old entry at the position the
source assigns to `tmp[i]`. -/
def shiftRowsVal (st : List Nat) : List Nat :=
  [0, 5, 10, 15, 4, 9, 14, 3, 8, 13, 2, 7, 12, 1, 6, 11].map (fun j => st.getD j 0 % 256)

/-- The value of one column of `MixColumns`, from the four bytes `a b c d` of the column. -/
def mixColumnVal (mul2 mul3 : List Nat) (a b c d : Nat) : List Nat :=
  [(mul2.getD a 0 % 256 ^^^ mul3.getD b 0 ^^^ c ^^^ d) % 256,
   (a % 256 ^^^ mul2.getD b 0 ^^^ mul3.getD c 0 ^^^ d) % 256,
   (a % 256 ^^^ b ^^^ mul2.getD c 0 ^^^ mul3.getD d 0) % 256,
   (mul3.getD a 0 % 256 ^^^ b ^^^ c ^^^ mul2.getD d 0) % 256]

/-- The value `MixColumns` leaves in the state. -/
def mixColumnsVal (mul2 mul3 : List Nat) (st : List Nat) : List Nat :=
  mixColumnVal mul2 mul3 (st.getD 0 0) (st.getD 1 0) (st.getD 2 0) (st.getD 3 0)
    ++ mixColumnVal mul2 mul3 (st.getD 4 0) (st.getD 5 0) (st.getD 6 0) (st.getD 7 0)
    ++ mixColumnVal mul2 mul3 (st.getD 8 0) (st.getD 9 0) (st.getD 10 0) (st.getD 11 0)
    ++ mixColumnVal mul2 mul3 (st.getD 12 0) (st.getD 13 0) (st.getD 14 0) (st.getD 15 0)

/-- The values of a list of right-hand sides, when every one of them has a value. -/
def collect : List (Option Nat) → Option (List Nat)
  | [] => some []
  | e :: es => e.bind fun v => (collect es).map (fun vs => v :: vs)

/-- The state transformation of `AESEncrypt` between the two copy loops, with the round loop
body and the final round written as calls of `Round` and `FinalRound`. -/
def encryptState (s mul2 mul3 expandedKey : List Nat) (state : List Nat) : Option (List Nat) :=
  (AddRoundKey state expandedKey).bind fun state =>
    (forLoop (fun i st => Round s mul2 mul3 st (expandedKey.drop (16 * (i + 1)))) 9 0 state).bind
      fun state => FinalRound s state (expandedKey.drop 160)

/-- The ciphertext of the first `n` blocks of a padded message: block after block, the state
reached from the 16 bytes of the block. -/
def encryptAll (s mul2 mul3 expandedKey : List Nat) : Nat → List Nat → Option (List Nat)
  | 0, _ => some []
  | n + 1, padded =>
    (encryptState s mul2 mul3 expandedKey ((padded.take 16).map (fun v => v % 256))).bind
      fun c => (encryptAll s mul2 mul3 expandedKey n (padded.drop 16)).map (fun cs => c ++ cs)

/-! ## Reference values of FIPS-197 for the lookup tables -/

namespace reference

/-- Multiplication by `x` in GF(2^8) modulo `x^8 + x^4 + x^3 + x + 1`. -/
def xtime (a : Nat) : Nat := if a < 128 then 2 * a else (2 * a - 256) ^^^ 0x1b

/-- The product in GF(2^8), bit by bit over the `n` low bits of `b`. -/
def gmulAux : Nat → Nat → Nat → Nat → Nat
  | 0, _, _, acc => acc
  | n + 1, a, b, acc => gmulAux n (xtime a) (b / 2) (if b % 2 = 1 then acc ^^^ a else acc)

/-- The product of two bytes in GF(2^8). -/
def gmul (a b : Nat) : Nat := gmulAux 8 a b 0

/-- The multiplicative inverse in GF(2^8) as the power `a^254`; the inverse of 0 is 0. -/
def ginv (a : Nat) : Nat :=
  let a2 := gmul a a
  let a4 := gmul a2 a2
  let a8 := gmul a4 a4
  let a16 := gmul a8 a8
  let a32 := gmul a16 a16
  let a64 := gmul a32 a32
  let a128 := gmul a64 a64
  gmul a128 (gmul a64 (gmul a32 (gmul a16 (gmul a8 (gmul a4 a2)))))

/-- Rotation of a byte to the left by `n` bits. -/
def rotl8 (b n : Nat) : Nat := (b * 2 ^ n % 256) ||| (b / 2 ^ (8 - n))

/-- The affine transformation of the S-box. -/
def affine (b : Nat) : Nat := b ^^^ rotl8 b 1 ^^^ rotl8 b 2 ^^^ rotl8 b 3 ^^^ rotl8 b 4 ^^^ 0x63

end reference

/-! ## The rounds with ShiftRows before SubBytes -/

/-- The function `Round` with its first two steps in the other order: `ShiftRows`, then
`SubBytes`. -/
def RoundSwapped (s mul2 mul3 : List Nat) (state key : List Nat) : Option (List Nat) := do
  let state ← ShiftRows state
  let state ← SubBytes s state
  let state ← MixColumns mul2 mul3 state
  AddRoundKey state key

/-- The function `FinalRound` with its first two steps in the other order. -/
def FinalRoundSwapped (s : List Nat) (state key : List Nat) : Option (List Nat) := do
  let state ← ShiftRows state
  let state ← SubBytes s state
  AddRoundKey state key

/-! ## The run of `main` after `strlen`, and the offsets of its block loop -/

/-- Lines 198-288 of `main`: the run of `main` from the value `originalLen` of
`strlen(message)` on. -/
def mainFrom (s mul2 mul3 : List Nat) (KeyExpansion : List Nat → List Nat)
    (message : List Nat) (originalLen : Nat) (keyValues : List Nat) : Option Outcome := do
  let paddedMessageLen := paddedLength originalLen
  let paddedMessage ← padMessage message originalLen paddedMessageLen
  let encryptedMessage := List.replicate paddedMessageLen 0
  let (key, i) ← readKey keyValues (List.replicate 16 0) 0
  if i ≠ 16 then
    return Outcome.keyError i
  else
    let expandedKey := KeyExpansion key
    let encryptedMessage ← encryptBlocks s mul2 mul3 paddedMessage expandedKey paddedMessageLen
      (paddedMessageLen + 1) 0 encryptedMessage
    return Outcome.written (encryptedMessage.take paddedMessageLen)

/-- The offsets `i` at which the loop `for (int i = 0; i < paddedMessageLen; i += 16)` of
lines 254-259 runs its body, from offset `i` on, in the order of the run.  The first argument
bounds the number of iterations, as in `encryptBlocks`. -/
def blockOffsets (paddedMessageLen : Nat) : Nat → Nat → List Nat
  | 0, _ => []
  | fuel + 1, i =>
    if i < paddedMessageLen then i :: blockOffsets paddedMessageLen fuel (i + 16) else []

/-! ## The inverse of MixColumns on one column -/

namespace reference

/-- Multiplication by 9 in GF(2^8). -/
def mul9 (a : Nat) : Nat := xtime (xtime (xtime a)) ^^^ a

/-- Multiplication by 11 in GF(2^8). -/
def mul11 (a : Nat) : Nat := xtime (xtime (xtime a)) ^^^ xtime a ^^^ a

/-- Multiplication by 13 in GF(2^8). -/
def mul13 (a : Nat) : Nat := xtime (xtime (xtime a)) ^^^ xtime (xtime a) ^^^ a

/-- Multiplication by 14 in GF(2^8). -/
def mul14 (a : Nat) : Nat := xtime (xtime (xtime a)) ^^^ xtime (xtime a) ^^^ xtime a

/-- First byte of the inverse of MixColumns on the column `u0 u1 u2 u3`: the row
`0e 0b 0d 09` of the inverse matrix. -/
def invMixByte (u0 u1 u2 u3 : Nat) : Nat := mul14 u0 ^^^ mul11 u1 ^^^ mul13 u2 ^^^ mul9 u3

end reference

/-- A map of bytes to bytes that respects XOR. -/
def ByteLinear (g : Nat → Nat) : Prop :=
  (∀ u, u < 256 → g u < 256) ∧ ∀ u v, u < 256 → v < 256 → g (u ^^^ v) = g u ^^^ g v
/-! ## General facts about the memory operations and loops -/

theorem store_eq_some {buf : List Nat} {i v : Nat} (h : i < buf.length) :
    store buf i v = some (buf.set i (v % 256)) := by
  simp [store, h]

theorem store_length {buf b : List Nat} {i v : Nat} (h : store buf i v = some b) :
    b.length = buf.length := by
  unfold store at h
  split at h
  · cases h; simp
  · cases h

theorem forLoop_congr {σ : Type} {f g : Nat → σ → Option σ} :
    ∀ (count start : Nat) (st : σ),
      (∀ i st, start ≤ i → i < start + count → f i st = g i st) →
      forLoop f count start st = forLoop g count start st
  | 0, _, _, _ => rfl
  | count + 1, start, st, h => by
    simp only [forLoop]
    rw [h start st (Nat.le_refl _) (by omega)]
    congr 1
    funext st1
    exact forLoop_congr count (start + 1) st1 (fun i st hi hlt => h i st (by omega) (by omega))

theorem forLoop_total {σ : Type} {body : Nat → σ → Option σ} (Inv : σ → Prop) :
    ∀ (count start : Nat) (st : σ),
      (∀ i st, start ≤ i → i < start + count → Inv st →
        ∃ st1, body i st = some st1 ∧ Inv st1) →
      Inv st → ∃ st1, forLoop body count start st = some st1 ∧ Inv st1
  | 0, _, st, _, h0 => ⟨st, rfl, h0⟩
  | count + 1, start, st, h, h0 => by
    obtain ⟨st1, h1, h2⟩ := h start st (Nat.le_refl _) (by omega) h0
    simp only [forLoop, h1, Option.some_bind]
    exact forLoop_total Inv count (start + 1) st1
      (fun i st hi hlt => h i st (by omega) (by omega)) h2

theorem forLoop_preserves {σ : Type} {body : Nat → σ → Option σ} (Inv : σ → Prop)
    (hbody : ∀ i st st1, body i st = some st1 → Inv st → Inv st1) :
    ∀ (count start : Nat) (st st1 : σ),
      forLoop body count start st = some st1 → Inv st → Inv st1
  | 0, _, st, st1, h, h0 => by
    simp only [forLoop, Option.some.injEq] at h
    exact h ▸ h0
  | count + 1, start, st, st1, h, h0 => by
    simp only [forLoop] at h
    cases hb : body start st with
    | none => simp [hb] at h
    | some st2 =>
      simp only [hb, Option.some_bind] at h
      exact forLoop_preserves Inv hbody count (start + 1) st2 st1 h (hbody _ _ _ hb h0)

theorem exists_cons16 {l : List Nat} (h : 16 ≤ l.length) :
    ∃ a0 a1 a2 a3 a4 a5 a6 a7 a8 a9 a10 a11 a12 a13 a14 a15 rest,
      l = a0 :: a1 :: a2 :: a3 :: a4 :: a5 :: a6 :: a7 :: a8 :: a9 :: a10 :: a11 :: a12 ::
        a13 :: a14 :: a15 :: rest := by
  match l, h with
  | a0 :: a1 :: a2 :: a3 :: a4 :: a5 :: a6 :: a7 :: a8 :: a9 :: a10 :: a11 :: a12 ::
        a13 :: a14 :: a15 :: rest, _ =>
    exact ⟨a0, a1, a2, a3, a4, a5, a6, a7, a8, a9, a10, a11, a12, a13, a14, a15, rest, rfl⟩

theorem exists_list16 {l : List Nat} (h : l.length = 16) :
    ∃ a0 a1 a2 a3 a4 a5 a6 a7 a8 a9 a10 a11 a12 a13 a14 a15,
      l = [a0, a1, a2, a3, a4, a5, a6, a7, a8, a9, a10, a11, a12, a13, a14, a15] := by
  obtain ⟨a0, a1, a2, a3, a4, a5, a6, a7, a8, a9, a10, a11, a12, a13, a14, a15, rest, rfl⟩ :=
    exists_cons16 (Nat.le_of_eq h.symm)
  have : rest = [] := by
    simp at h
    exact h
  subst this
  exact ⟨a0, a1, a2, a3, a4, a5, a6, a7, a8, a9, a10, a11, a12, a13, a14, a15, rfl⟩

theorem load_append_length (pre post : List Nat) (a : Nat) :
    load (pre ++ a :: post) pre.length = some a := by
  unfold load
  rw [List.getElem?_append_right (Nat.le_refl _)]
  simp

theorem store_append_length (pre post : List Nat) (a v : Nat) :
    store (pre ++ a :: post) pre.length v = some (pre ++ v % 256 :: post) := by
  simp [store]

theorem forLoop_update (g : Nat → Nat → Option Nat) :
    ∀ (xs pre post : List Nat),
      forLoop (fun i st => (load st i).bind fun a => (g i a).bind fun v => store st i v)
        xs.length pre.length (pre ++ xs ++ post)
      = (updAll g pre.length xs).map (fun ys => pre ++ ys ++ post)
  | [], pre, post => by simp [forLoop, updAll]
  | a :: as, pre, post => by
    simp only [List.length_cons, forLoop, updAll, List.append_assoc, List.cons_append,
      load_append_length, Option.some_bind]
    cases hg : g pre.length a with
    | none => simp
    | some v =>
      have ih := forLoop_update g as (pre ++ [v % 256]) post
      simp only [List.length_append, List.length_singleton, List.append_assoc,
        List.singleton_append, List.cons_append, List.nil_append] at ih
      simp only [Option.some_bind, store_append_length]
      rw [ih]
      cases updAll g (pre.length + 1) as <;> simp


theorem updAll_length {g : Nat → Nat → Option Nat} :
    ∀ (xs : List Nat) (i : Nat) (ys : List Nat), updAll g i xs = some ys → ys.length = xs.length
  | [], _, ys, h => by
    simp only [updAll, Option.some.injEq] at h
    simp [← h]
  | a :: as, i, ys, h => by
    simp only [updAll] at h
    cases hg : g i a with
    | none => simp [hg] at h
    | some v =>
      cases hr : updAll g (i + 1) as with
      | none => simp [hg, hr] at h
      | some vs =>
        simp only [hg, hr, Option.some_bind, Option.map_some', Option.some.injEq] at h
        simp [← h, updAll_length as (i + 1) vs hr]

theorem updAll_bytes {g : Nat → Nat → Option Nat} :
    ∀ (xs : List Nat) (i : Nat) (ys : List Nat), updAll g i xs = some ys → ∀ y ∈ ys, y < 256
  | [], _, ys, h => by
    simp only [updAll, Option.some.injEq] at h
    simp [← h]
  | a :: as, i, ys, h => by
    simp only [updAll] at h
    cases hg : g i a with
    | none => simp [hg] at h
    | some v =>
      cases hr : updAll g (i + 1) as with
      | none => simp [hg, hr] at h
      | some vs =>
        simp only [hg, hr, Option.some_bind, Option.map_some', Option.some.injEq] at h
        intro y hy
        rw [← h] at hy
        rcases List.mem_cons.mp hy with rfl | hy
        · exact Nat.mod_lt _ (by decide)
        · exact updAll_bytes as (i + 1) vs hr y hy

theorem updAll_congr {g h : Nat → Nat → Option Nat} :
    ∀ (xs : List Nat) (i : Nat),
      (∀ j (hj : j < xs.length),
        g (i + j) (xs.get ⟨j, hj⟩) = h (i + j) (xs.get ⟨j, hj⟩)) →
      updAll g i xs = updAll h i xs
  | [], _, _ => rfl
  | a :: as, i, hgh => by
    have h0 := hgh 0 (Nat.succ_pos _)
    simp only [Nat.add_zero, List.get_eq_getElem, List.getElem_cons_zero] at h0
    have ih := updAll_congr as (i + 1) (fun j hj => by
      have := hgh (j + 1) (Nat.succ_lt_succ hj)
      simpa [Nat.add_assoc, Nat.add_comm 1 j] using this)
    simp only [updAll, h0, ih]

/-- Closed form when every entry is combined with the entry of a second buffer `ks` at the
same index. -/
theorem updAll_zipWith (f : Nat → Nat → Nat) :
    ∀ (xs ks kpre : List Nat), xs.length ≤ ks.length →
      updAll (fun i a => (load (kpre ++ ks) i).bind fun k => some (f a k)) kpre.length xs
        = some (List.zipWith (fun a k => f a k % 256) xs ks)
  | [], _, _, _ => by simp [updAll]
  | a :: as, [], _, h => by simp at h
  | a :: as, k :: ks, kpre, h => by
    have ih := updAll_zipWith f as ks (kpre ++ [k]) (by simpa using h)
    simp only [List.length_append, List.length_singleton, List.append_assoc,
      List.singleton_append] at ih
    simp only [updAll, load_append_length, Option.some_bind, ih, Option.map_some',
      List.zipWith_cons_cons]

/-- Closed form when every entry is looked up in a table that covers it. -/
theorem updAll_lookup (t : List Nat) :
    ∀ (xs : List Nat) (i : Nat), (∀ a ∈ xs, a < t.length) →
      updAll (fun _ a => load t a) i xs = some (xs.map (fun a => t.getD a 0 % 256))
  | [], _, _ => by simp [updAll]
  | a :: as, i, h => by
    have ha : a < t.length := h a (List.mem_cons_self _ _)
    have ih := updAll_lookup t as (i + 1) (fun b hb => h b (List.mem_cons_of_mem _ hb))
    have hl : load t a = some (t.getD a 0) := by
      simp [load, List.getElem?_eq_getElem ha]
    simp only [updAll, ih, hl, Option.some_bind, Option.map_some', List.map_cons]

/-! ## The loops of the program as elementwise updates -/

/-- An elementwise loop over a whole buffer. -/
theorem forLoop_update_all (g : Nat → Nat → Option Nat) (st : List Nat) :
    forLoop (fun i st => (load st i).bind fun a => (g i a).bind fun v => store st i v)
      st.length 0 st = updAll g 0 st := by
  have h := forLoop_update g st [] []
  simp only [List.length_nil, List.nil_append, List.append_nil] at h
  rw [h]
  cases updAll g 0 st <;> simp

/-- An elementwise loop over the first entries of a buffer leaves the rest alone. -/
theorem forLoop_update_head (g : Nat → Nat → Option Nat) (xs post : List Nat) :
    forLoop (fun i st => (load st i).bind fun a => (g i a).bind fun v => store st i v)
      xs.length 0 (xs ++ post) = (updAll g 0 xs).map (fun ys => ys ++ post) := by
  have h := forLoop_update g xs [] post
  simpa only [List.length_nil, List.nil_append] using h

/-- A loop body that copies from another buffer also fits the elementwise shape: the read of
the overwritten entry fails exactly when the write does. -/
theorem copy_body (src st : List Nat) (i : Nat) :
    ((load src i).bind fun v => store st i v)
      = (load st i).bind fun _ => (load src i).bind fun v => store st i v := by
  by_cases h : i < st.length
  · simp [load, List.getElem?_eq_getElem h]
  · have hs : ∀ v, store st i v = none := fun v => by simp [store, h]
    have hl : load st i = none := by simp [load, Nat.le_of_not_lt h]
    simp [hs, hl]

theorem zipWith_snd (h : Nat → Nat) :
    ∀ (xs ks : List Nat), xs.length ≤ ks.length →
      List.zipWith (fun _ k => h k) xs ks = (ks.take xs.length).map h
  | [], _, _ => by simp
  | _ :: _, [], hl => by simp at hl
  | _ :: xs, k :: ks, hl => by
    simp [zipWith_snd h xs ks (by simpa using hl)]

/-- The copy loop `dst[i] = src[i]` for `i` in `0..n` writes the first `n` bytes of `src`
over the first `n` entries of `dst`. -/
theorem copy_loop (src xs post : List Nat) (h : xs.length ≤ src.length) :
    forLoop (fun i st => do
      let v ← load src i
      store st i v) xs.length 0 (xs ++ post)
      = some ((src.take xs.length).map (fun v => v % 256) ++ post) := by
  have hb : (fun i (st : List Nat) => (do
      let v ← load src i
      store st i v : Option (List Nat)))
      = (fun i st => (load st i).bind fun a =>
          ((fun i (_ : Nat) => (load src i).bind fun k => some ((fun _ k => k) a k)) i a).bind
            fun v => store st i v) := by
    funext i st
    have := copy_body src st i
    simp only [Option.bind_eq_bind] at this ⊢
    rw [this]
    cases load st i <;> cases load src i <;> simp
  rw [hb, forLoop_update_head]
  have hz := updAll_zipWith (fun _ k => k) xs src [] h
  simp only [List.nil_append, List.length_nil] at hz
  rw [hz, zipWith_snd (fun k => k % 256) xs src h]
  simp

/-- The copy loop into a buffer of at least 16 entries. -/
theorem copy_loop16 (src dst : List Nat) (hs : 16 ≤ src.length) (hd : 16 ≤ dst.length) :
    forLoop (fun i st => do
      let v ← load src i
      store st i v) 16 0 dst
      = some ((src.take 16).map (fun v => v % 256) ++ dst.drop 16) := by
  have h := copy_loop src (dst.take 16) (dst.drop 16) (by simp; omega)
  have hl : (dst.take 16).length = 16 := by simp; omega
  rw [hl, List.take_append_drop] at h
  exact h

theorem updAll_isState {g : Nat → Nat → Option Nat} {st st1 : List Nat} (h : st.length = 16)
    (hu : updAll g 0 st = some st1) : IsState st1 :=
  ⟨(updAll_length st 0 st1 hu).trans h, updAll_bytes st 0 st1 hu⟩

/-! ## AddRoundKey -/

theorem AddRoundKey_updAll (st rk : List Nat) (h : st.length = 16) :
    AddRoundKey st rk = updAll (fun i a => (load rk i).bind fun k => some (a ^^^ k)) 0 st := by
  have hb : (fun i (st : List Nat) => (do
      let a ← load st i
      let k ← load rk i
      store st i (a ^^^ k) : Option (List Nat)))
      = (fun i st => (load st i).bind fun a =>
          ((fun i a => (load rk i).bind fun k => some (a ^^^ k)) i a).bind
            fun v => store st i v) := by
    funext i st
    dsimp only
    cases load st i <;> cases load rk i <;> simp
  unfold AddRoundKey
  rw [hb, ← h, forLoop_update_all]

/-- Closed form of `AddRoundKey` on a 16-byte state and a key view of at least 16 bytes. -/
theorem AddRoundKey_eq (st rk : List Nat) (h : st.length = 16) (hk : 16 ≤ rk.length) :
    AddRoundKey st rk = some (List.zipWith (fun a k => (a ^^^ k) % 256) st rk) := by
  rw [AddRoundKey_updAll st rk h]
  have hz := updAll_zipWith (fun a k => a ^^^ k) st rk [] (by omega)
  simpa only [List.nil_append, List.length_nil] using hz

theorem AddRoundKey_isState {st rk st1 : List Nat} (h : st.length = 16)
    (hr : AddRoundKey st rk = some st1) : IsState st1 := by
  rw [AddRoundKey_updAll st rk h] at hr
  exact updAll_isState h hr

/-- The function `AddRoundKey` reads only the first 16 bytes of the key view. -/
theorem AddRoundKey_take (st rk : List Nat) : AddRoundKey st (rk.take 16) = AddRoundKey st rk := by
  unfold AddRoundKey
  apply forLoop_congr
  intro i st _ hi
  have : load (rk.take 16) i = load rk i := by
    simp only [load]
    rw [List.getElem?_take_of_lt (by omega)]
  simp only [this]

/-! ## SubBytes -/

theorem SubBytes_updAll (s st : List Nat) (h : st.length = 16) :
    SubBytes s st = updAll (fun _ a => load s a) 0 st := by
  have hb : (fun i (st : List Nat) => (do
      let a ← load st i
      let v ← load s a
      store st i v : Option (List Nat)))
      = (fun i st => (load st i).bind fun a =>
          ((fun (_ : Nat) a => load s a) i a).bind fun v => store st i v) := by
    funext i st
    rfl
  unfold SubBytes
  rw [hb, ← h, forLoop_update_all]

/-- Closed form of `SubBytes` on a 16-byte state whose entries the table covers. -/
theorem SubBytes_eq (s st : List Nat) (h : st.length = 16) (hs : ∀ a ∈ st, a < s.length) :
    SubBytes s st = some (st.map (fun a => s.getD a 0 % 256)) := by
  rw [SubBytes_updAll s st h, updAll_lookup s st 0 hs]

theorem SubBytes_isState {s st st1 : List Nat} (h : st.length = 16)
    (hr : SubBytes s st = some st1) : IsState st1 := by
  rw [SubBytes_updAll s st h] at hr
  exact updAll_isState h hr

/-! ## The copy back of ShiftRows and MixColumns -/

theorem copyBack_eq (tmp st : List Nat) (ht : 16 ≤ tmp.length) (h : st.length = 16) :
    copyBack tmp st = some ((tmp.take 16).map (fun v => v % 256)) := by
  unfold copyBack
  rw [copy_loop16 tmp st ht (by omega)]
  simp [List.drop_eq_nil_of_le (Nat.le_of_eq h)]

theorem copyBack_isState {tmp st st1 : List Nat} (h : st.length = 16)
    (hr : copyBack tmp st = some st1) : IsState st1 := by
  have hb : (fun i (st : List Nat) => (do
      let v ← load tmp i
      store st i v : Option (List Nat)))
      = (fun i st => (load st i).bind fun a =>
          ((fun i (_ : Nat) => load tmp i) i a).bind fun v => store st i v) := by
    funext i st
    exact copy_body tmp st i
  unfold copyBack at hr
  rw [hb, ← h, forLoop_update_all] at hr
  exact updAll_isState h hr

/-! ## ShiftRows and MixColumns -/

theorem load_of_lt {t : List Nat} {a : Nat} (h : a < t.length) :
    load t a = some (t.getD a 0) := by
  simp [load, List.getElem?_eq_getElem h]

theorem getD_mem {t : List Nat} {a : Nat} (h : a < t.length) : t.getD a 0 ∈ t := by
  rw [List.getD_eq_getElem _ _ h]
  exact List.getElem_mem h

/-- The assignments `tmp[d] = e` for consecutive `d` overwrite a segment of `tmp` with the
bytes of the values. -/
theorem assignAll_eq :
    ∀ (es : List (Option Nat)) (pre xs post : List Nat), xs.length = es.length →
      assignAll pre.length es (pre ++ xs ++ post)
        = (collect es).map (fun vs => pre ++ vs.map (fun v => v % 256) ++ post)
  | [], pre, xs, post, h => by
    have : xs = [] := List.length_eq_zero.mp (by simpa using h)
    simp [assignAll, collect, this]
  | e :: es, pre, [], post, h => by simp at h
  | e :: es, pre, x :: xs, post, h => by
    cases e with
    | none => simp [assignAll, collect]
    | some v =>
      have ih := assignAll_eq es (pre ++ [v % 256]) xs post (by simpa using h)
      simp only [List.length_append, List.length_singleton, List.append_assoc,
        List.singleton_append, List.cons_append, List.nil_append] at ih
      simp only [assignAll, collect, Option.some_bind, List.append_assoc, List.cons_append,
        store_append_length, ih]
      cases collect es <;> simp

theorem assignAll_replicate (es : List (Option Nat)) :
    assignAll 0 es (List.replicate es.length 0)
      = (collect es).map (fun vs => vs.map (fun v => v % 256)) := by
  have h := assignAll_eq es [] (List.replicate es.length 0) [] (by simp)
  simpa using h

theorem collect_length : ∀ (es : List (Option Nat)) (vs : List Nat),
    collect es = some vs → vs.length = es.length
  | [], vs, h => by
    simp only [collect, Option.some.injEq] at h
    simp [← h]
  | e :: es, vs, h => by
    cases e with
    | none => simp [collect] at h
    | some v =>
      cases hc : collect es with
      | none => simp [collect, hc] at h
      | some ws =>
        simp only [collect, hc, Option.some_bind, Option.map_some', Option.some.injEq] at h
        simp [← h, collect_length es ws hc]

theorem collect_map_some : ∀ (vs : List Nat), collect (vs.map some) = some vs
  | [] => rfl
  | v :: vs => by simp [collect, collect_map_some vs]

theorem collect_map_load (st : List Nat) :
    ∀ (idxs : List Nat), (∀ j ∈ idxs, j < st.length) →
      collect (idxs.map (load st)) = some (idxs.map (fun j => st.getD j 0))
  | [], _ => rfl
  | j :: idxs, h => by
    have ih := collect_map_load st idxs (fun k hk => h k (List.mem_cons_of_mem _ hk))
    simp [collect, ih, load_of_lt (h j (List.mem_cons_self _ _))]

/-- Closed form of `ShiftRows` on a buffer of exactly 16 entries. -/
theorem ShiftRows_eq (st : List Nat) (h : st.length = 16) :
    ShiftRows st = some (shiftRowsVal st) := by
  have hc := collect_map_load st [0, 5, 10, 15, 4, 9, 14, 3, 8, 13, 2, 7, 12, 1, 6, 11]
    (by intro j hj; rw [h]; revert j; decide)
  have ha := assignAll_replicate
    ([0, 5, 10, 15, 4, 9, 14, 3, 8, 13, 2, 7, 12, 1, 6, 11].map (load st))
  rw [hc] at ha
  have hl : ([0, 5, 10, 15, 4, 9, 14, 3, 8, 13, 2, 7, 12, 1, 6, 11].map (load st)).length = 16 :=
    rfl
  rw [hl] at ha
  unfold ShiftRows
  rw [show [load st 0, load st 5, load st 10, load st 15, load st 4, load st 9, load st 14,
      load st 3, load st 8, load st 13, load st 2, load st 7, load st 12, load st 1, load st 6,
      load st 11] = [0, 5, 10, 15, 4, 9, 14, 3, 8, 13, 2, 7, 12, 1, 6, 11].map (load st)
    from rfl]
  rw [ha, Option.map_some', Option.bind_eq_bind, Option.some_bind,
    copyBack_eq _ _ (by simp) h]
  simp [shiftRowsVal]

theorem ShiftRows_isState {st st1 : List Nat} (h : st.length = 16)
    (hr : ShiftRows st = some st1) : IsState st1 := by
  unfold ShiftRows at hr
  obtain ⟨tmp, _, hc⟩ := Option.bind_eq_some.mp hr
  exact copyBack_isState h hc


/-! ### MixColumns -/

theorem collect16 (x0 x1 x2 x3 x4 x5 x6 x7 x8 x9 x10 x11 x12 x13 x14 x15 : Nat) :
    collect [some x0, some x1, some x2, some x3, some x4, some x5, some x6, some x7, some x8,
      some x9, some x10, some x11, some x12, some x13, some x14, some x15]
    = some [x0, x1, x2, x3, x4, x5, x6, x7, x8, x9, x10, x11, x12, x13, x14, x15] := rfl

theorem assignAll16 (es : List (Option Nat)) (h : es.length = 16) :
    assignAll 0 es (List.replicate 16 0)
      = (collect es).map (fun vs => vs.map (fun v => v % 256)) := by
  rw [← h]
  exact assignAll_replicate es

theorem mixExpr0_eq {mul2 mul3 st : List Nat} (h : st.length = 16)
    (hm2 : ∀ x ∈ st, x < mul2.length) (hm3 : ∀ x ∈ st, x < mul3.length) (a b c e : Nat)
    (ha : a < 16) (hb : b < 16) (hc : c < 16) (he : e < 16) :
    mixExpr0 mul2 mul3 st a b c e
      = some (mul2.getD (st.getD a 0) 0 % 256 ^^^ mul3.getD (st.getD b 0) 0 ^^^ st.getD c 0
          ^^^ st.getD e 0) := by
  rw [← h] at ha hb hc he
  simp only [mixExpr0, load_of_lt ha, load_of_lt hb, load_of_lt hc, load_of_lt he,
    load_of_lt (hm2 _ (getD_mem ha)), load_of_lt (hm3 _ (getD_mem hb)),
    Option.bind_eq_bind, Option.some_bind, bind, pure]

theorem mixExpr1_eq {mul2 mul3 st : List Nat} (h : st.length = 16)
    (hm2 : ∀ x ∈ st, x < mul2.length) (hm3 : ∀ x ∈ st, x < mul3.length) (a b c e : Nat)
    (ha : a < 16) (hb : b < 16) (hc : c < 16) (he : e < 16) :
    mixExpr1 mul2 mul3 st a b c e
      = some (st.getD a 0 % 256 ^^^ mul2.getD (st.getD b 0) 0 ^^^ mul3.getD (st.getD c 0) 0
          ^^^ st.getD e 0) := by
  rw [← h] at ha hb hc he
  simp only [mixExpr1, load_of_lt ha, load_of_lt hb, load_of_lt hc, load_of_lt he,
    load_of_lt (hm2 _ (getD_mem hb)), load_of_lt (hm3 _ (getD_mem hc)),
    Option.bind_eq_bind, Option.some_bind, bind, pure]

theorem mixExpr2_eq {mul2 mul3 st : List Nat} (h : st.length = 16)
    (hm2 : ∀ x ∈ st, x < mul2.length) (hm3 : ∀ x ∈ st, x < mul3.length) (a b c e : Nat)
    (ha : a < 16) (hb : b < 16) (hc : c < 16) (he : e < 16) :
    mixExpr2 mul2 mul3 st a b c e
      = some (st.getD a 0 % 256 ^^^ st.getD b 0 ^^^ mul2.getD (st.getD c 0) 0
          ^^^ mul3.getD (st.getD e 0) 0) := by
  rw [← h] at ha hb hc he
  simp only [mixExpr2, load_of_lt ha, load_of_lt hb, load_of_lt hc, load_of_lt he,
    load_of_lt (hm2 _ (getD_mem hc)), load_of_lt (hm3 _ (getD_mem he)),
    Option.bind_eq_bind, Option.some_bind, bind, pure]

theorem mixExpr3_eq {mul2 mul3 st : List Nat} (h : st.length = 16)
    (hm2 : ∀ x ∈ st, x < mul2.length) (hm3 : ∀ x ∈ st, x < mul3.length) (a b c e : Nat)
    (ha : a < 16) (hb : b < 16) (hc : c < 16) (he : e < 16) :
    mixExpr3 mul2 mul3 st a b c e
      = some (mul3.getD (st.getD a 0) 0 % 256 ^^^ st.getD b 0 ^^^ st.getD c 0
          ^^^ mul2.getD (st.getD e 0) 0) := by
  rw [← h] at ha hb hc he
  simp only [mixExpr3, load_of_lt ha, load_of_lt hb, load_of_lt hc, load_of_lt he,
    load_of_lt (hm3 _ (getD_mem ha)), load_of_lt (hm2 _ (getD_mem he)),
    Option.bind_eq_bind, Option.some_bind, bind, pure]

/-- Closed form of `MixColumns` on a 16-entry buffer whose entries the tables cover. -/
theorem MixColumns_eq (mul2 mul3 st : List Nat) (h : st.length = 16)
    (hm2 : ∀ x ∈ st, x < mul2.length) (hm3 : ∀ x ∈ st, x < mul3.length) :
    MixColumns mul2 mul3 st = some (mixColumnsVal mul2 mul3 st) := by
  unfold MixColumns
  rw [mixExpr0_eq h hm2 hm3 0 1 2 3 (by decide) (by decide) (by decide)
      (by decide),
    mixExpr1_eq h hm2 hm3 0 1 2 3 (by decide) (by decide) (by decide)
      (by decide),
    mixExpr2_eq h hm2 hm3 0 1 2 3 (by decide) (by decide) (by decide)
      (by decide),
    mixExpr3_eq h hm2 hm3 0 1 2 3 (by decide) (by decide) (by decide)
      (by decide),
    mixExpr0_eq h hm2 hm3 4 5 6 7 (by decide) (by decide) (by decide)
      (by decide),
    mixExpr1_eq h hm2 hm3 4 5 6 7 (by decide) (by decide) (by decide)
      (by decide),
    mixExpr2_eq h hm2 hm3 4 5 6 7 (by decide) (by decide) (by decide)
      (by decide),
    mixExpr3_eq h hm2 hm3 4 5 6 7 (by decide) (by decide) (by decide)
      (by decide),
    mixExpr0_eq h hm2 hm3 8 9 10 11 (by decide) (by decide) (by decide)
      (by decide),
    mixExpr1_eq h hm2 hm3 8 9 10 11 (by decide) (by decide) (by decide)
      (by decide),
    mixExpr2_eq h hm2 hm3 8 9 10 11 (by decide) (by decide) (by decide)
      (by decide),
    mixExpr3_eq h hm2 hm3 8 9 10 11 (by decide) (by decide) (by decide)
      (by decide),
    mixExpr0_eq h hm2 hm3 12 13 14 15 (by decide) (by decide) (by decide)
      (by decide),
    mixExpr1_eq h hm2 hm3 12 13 14 15 (by decide) (by decide) (by decide)
      (by decide),
    mixExpr2_eq h hm2 hm3 12 13 14 15 (by decide) (by decide) (by decide)
      (by decide),
    mixExpr3_eq h hm2 hm3 12 13 14 15 (by decide) (by decide) (by decide)
      (by decide)]
  rw [assignAll16]
  · rw [collect16, Option.map_some', Option.bind_eq_bind, Option.some_bind,
      copyBack_eq _ _ (by simp) h]
    simp [mixColumnsVal, mixColumnVal]
  · rfl

theorem MixColumns_isState {mul2 mul3 st st1 : List Nat} (h : st.length = 16)
    (hr : MixColumns mul2 mul3 st = some st1) : IsState st1 := by
  unfold MixColumns at hr
  obtain ⟨tmp, _, hc⟩ := Option.bind_eq_some.mp hr
  exact copyBack_isState h hc

/-! ## Round, FinalRound and AESEncrypt -/

theorem IsState.length {st : List Nat} (h : IsState st) : st.length = 16 := h.1

theorem IsState.covered {st t : List Nat} (h : IsState st) (ht : 256 ≤ t.length) :
    ∀ a ∈ st, a < t.length :=
  fun a ha => Nat.lt_of_lt_of_le (h.2 a ha) ht

theorem Round_isState {s mul2 mul3 st key st1 : List Nat} (h : st.length = 16)
    (hr : Round s mul2 mul3 st key = some st1) : IsState st1 := by
  unfold Round at hr
  obtain ⟨a, ha, hr⟩ := Option.bind_eq_some.mp hr
  obtain ⟨b, hb, hr⟩ := Option.bind_eq_some.mp hr
  obtain ⟨c, hc, hr⟩ := Option.bind_eq_some.mp hr
  have h1 := SubBytes_isState h ha
  have h2 := ShiftRows_isState h1.length hb
  have h3 := MixColumns_isState h2.length hc
  exact AddRoundKey_isState h3.length hr

theorem FinalRound_isState {s st key st1 : List Nat} (h : st.length = 16)
    (hr : FinalRound s st key = some st1) : IsState st1 := by
  unfold FinalRound at hr
  obtain ⟨a, ha, hr⟩ := Option.bind_eq_some.mp hr
  obtain ⟨b, hb, hr⟩ := Option.bind_eq_some.mp hr
  have h1 := SubBytes_isState h ha
  have h2 := ShiftRows_isState h1.length hb
  exact AddRoundKey_isState h2.length hr

/-- The function `Round` returns a state when the tables have 256 entries and the key view 16
bytes. -/
theorem Round_total {s mul2 mul3 st key : List Nat} (h : IsState st) (hs : 256 ≤ s.length)
    (h2 : 256 ≤ mul2.length) (h3 : 256 ≤ mul3.length) (hk : 16 ≤ key.length) :
    ∃ st1, Round s mul2 mul3 st key = some st1 ∧ IsState st1 := by
  have e1 := SubBytes_eq s st h.length (h.covered hs)
  have i1 := SubBytes_isState h.length e1
  have e2 := ShiftRows_eq _ i1.length
  have i2 := ShiftRows_isState i1.length e2
  have e3 := MixColumns_eq mul2 mul3 _ i2.length (i2.covered h2) (i2.covered h3)
  have i3 := MixColumns_isState i2.length e3
  have e4 := AddRoundKey_eq _ key i3.length hk
  refine ⟨_, ?_, AddRoundKey_isState i3.length e4⟩
  unfold Round
  rw [e1, Option.bind_eq_bind, Option.some_bind, e2, Option.some_bind, e3, Option.some_bind, e4]

theorem FinalRound_total {s st key : List Nat} (h : IsState st) (hs : 256 ≤ s.length)
    (hk : 16 ≤ key.length) :
    ∃ st1, FinalRound s st key = some st1 ∧ IsState st1 := by
  have e1 := SubBytes_eq s st h.length (h.covered hs)
  have i1 := SubBytes_isState h.length e1
  have e2 := ShiftRows_eq _ i1.length
  have i2 := ShiftRows_isState i1.length e2
  have e4 := AddRoundKey_eq _ key i2.length hk
  refine ⟨_, ?_, AddRoundKey_isState i2.length e4⟩
  unfold FinalRound
  rw [e1, Option.bind_eq_bind, Option.some_bind, e2, Option.some_bind, e4]

theorem encryptState_isState {s mul2 mul3 ek st c : List Nat} (h : st.length = 16)
    (hr : encryptState s mul2 mul3 ek st = some c) : IsState c := by
  unfold encryptState at hr
  obtain ⟨a, ha, hr⟩ := Option.bind_eq_some.mp hr
  obtain ⟨b, hb, hr⟩ := Option.bind_eq_some.mp hr
  have h1 := AddRoundKey_isState h ha
  have h2 := forLoop_preserves IsState
    (fun _ x x1 hx hi => Round_isState hi.length hx) 9 0 a b hb h1
  exact FinalRound_isState h2.length hr

/-- The rounds return a state when the tables have 256 entries and the expanded key 176 bytes. -/
theorem encryptState_total {s mul2 mul3 ek st : List Nat} (h : IsState st)
    (hs : 256 ≤ s.length) (h2 : 256 ≤ mul2.length) (h3 : 256 ≤ mul3.length)
    (hk : 176 ≤ ek.length) :
    ∃ c, encryptState s mul2 mul3 ek st = some c ∧ IsState c := by
  have e1 := AddRoundKey_eq st ek h.length (by omega)
  have i1 := AddRoundKey_isState h.length e1
  obtain ⟨b, e2, i2⟩ := @forLoop_total (List Nat)
    (fun i st => Round s mul2 mul3 st (ek.drop (16 * (i + 1)))) IsState 9 0 _
    (fun i x _ hi hx => Round_total hx hs h2 h3 (by rw [List.length_drop]; omega)) i1
  obtain ⟨c, e3, i3⟩ := @FinalRound_total s _ (ek.drop 160) i2 hs
    (by rw [List.length_drop]; omega)
  refine ⟨c, ?_, i3⟩
  unfold encryptState
  rw [e1, Option.some_bind, e2, Option.some_bind, e3]

theorem map_mod_of_isState {st : List Nat} (h : IsState st) :
    st.map (fun v => v % 256) = st := by
  conv_rhs => rw [← List.map_id st]
  exact List.map_congr_left (fun a ha => Nat.mod_eq_of_lt (h.2 a ha))

/-- The inlined round loop and final round of `AESEncrypt` are the calls of `Round` and
`FinalRound` of `encryptState`, between the copy from `message` and the copy to
`encryptedMessage`. -/
theorem AESEncrypt_decomp (s mul2 mul3 m ek out : List Nat) :
    AESEncrypt s mul2 mul3 m ek out
      = (forLoop (fun i st => do
          let v ← load m i
          store st i v) 16 0 (List.replicate 16 0)).bind fun st =>
        (encryptState s mul2 mul3 ek st).bind fun st =>
          forLoop (fun i enc => do
            let v ← load st i
            store enc i v) 16 0 out := by
  unfold AESEncrypt encryptState Round FinalRound
  simp only [Option.bind_eq_bind, Option.bind_assoc]

/-- Closed form of `AESEncrypt` on views of at least 16 bytes: the first 16 bytes of the output
view become the state reached from the first 16 bytes of the message view. -/
theorem AESEncrypt_eq (s mul2 mul3 m ek out : List Nat) (hm : 16 ≤ m.length)
    (ho : 16 ≤ out.length) :
    AESEncrypt s mul2 mul3 m ek out
      = (encryptState s mul2 mul3 ek ((m.take 16).map (fun v => v % 256))).map
          (fun c => c ++ out.drop 16) := by
  rw [AESEncrypt_decomp, copy_loop16 m (List.replicate 16 0) hm (by simp)]
  have hd : (List.replicate 16 0).drop 16 = [] := by simp
  rw [hd, List.append_nil, Option.some_bind]
  cases he : encryptState s mul2 mul3 ek ((m.take 16).map (fun v => v % 256)) with
  | none => rfl
  | some c =>
    have hc : IsState c := encryptState_isState (by simp; omega) he
    rw [Option.some_bind, Option.map_some', copy_loop16 c out (by rw [hc.length]) ho,
      List.take_of_length_le (Nat.le_of_eq hc.length), map_mod_of_isState hc]

/-! ## The message driver -/

theorem strlen_append_zero : ∀ (p rest : List Nat), (∀ x ∈ p, x ≠ 0) →
    strlen (p ++ 0 :: rest) = some p.length
  | [], _, _ => by simp [strlen]
  | c :: cs, rest, h => by
    have hc : c ≠ 0 := h c (List.mem_cons_self _ _)
    have ih := strlen_append_zero cs rest (fun x hx => h x (List.mem_cons_of_mem _ hx))
    simp [strlen, hc, ih]

theorem paddedLength_mod (n : Nat) : paddedLength n % 16 = 0 := by
  simp only [paddedLength]
  split <;> omega

theorem paddedLength_ge (n : Nat) : n ≤ paddedLength n := by
  simp only [paddedLength]
  split <;> omega

theorem paddedLength_lt (n : Nat) : paddedLength n < n + 16 := by
  simp only [paddedLength]
  split <;> omega

theorem paddedLength_least (n m : Nat) (hm : m % 16 = 0) (hn : n ≤ m) : paddedLength n ≤ m := by
  simp only [paddedLength]
  split <;> omega

/-- Closed form of the padding loop: the first `n` bytes of `message`, then zero bytes. -/
theorem padMessage_eq (message : List Nat) (n len : Nat) (hn : n ≤ message.length)
    (hl : n ≤ len) :
    padMessage message n len
      = some ((message.take n).map (fun v => v % 256) ++ List.replicate (len - n) 0) := by
  unfold padMessage
  have hcongr := @forLoop_congr (List Nat)
    (fun i paddedMessage =>
      if i ≥ n then store paddedMessage i 0
      else do
        let c ← load message i
        store paddedMessage i c)
    (fun i st => do
      let v ← load (message.take n ++ List.replicate (len - n) 0) i
      store st i v) len 0 (List.replicate len 0)
    (fun i st _ hi => by
      by_cases h : i ≥ n
      · have : load (message.take n ++ List.replicate (len - n) 0) i = some 0 := by
          unfold load
          rw [List.getElem?_append_right (by simp; omega)]
          simp [List.getElem?_replicate]
          omega
        simp [h, this]
      · have : load (message.take n ++ List.replicate (len - n) 0) i = load message i := by
          unfold load
          rw [List.getElem?_append_left (by simp; omega),
            List.getElem?_take_of_lt (by omega)]
        simp only [h, if_false, this])
  rw [hcongr]
  have hc := copy_loop (message.take n ++ List.replicate (len - n) 0) (List.replicate len 0) []
    (by simp; omega)
  simp only [List.length_replicate, List.append_nil] at hc
  rw [hc]
  congr 1
  rw [List.take_of_length_le (by simp; omega)]
  simp

/-- Closed form of the key loop on a buffer `key` of 16 entries of which `pre` are filled: the
first values fill the rest of the buffer, and the values beyond the sixteenth are dropped. -/
theorem readKey_eq : ∀ (cs pre xs : List Nat), pre.length + xs.length = 16 →
    readKey cs (pre ++ xs) pre.length
      = some (pre ++ (cs.take xs.length).map (fun v => v % 256) ++ xs.drop cs.length,
          pre.length + min cs.length xs.length)
  | [], pre, xs, _ => by simp [readKey]
  | c :: cs, pre, [], h => by
    have hp : ¬ pre.length < 16 := by simp at h; omega
    have ih := readKey_eq cs pre [] h
    simp only [List.append_nil, List.length_nil, List.take_zero, List.map_nil, List.drop_nil,
      Nat.min_zero, Nat.add_zero] at ih ⊢
    rw [readKey, if_neg hp, ih]
  | c :: cs, pre, x :: xs, h => by
    have hp : pre.length < 16 := by simp at h; omega
    have ih := readKey_eq cs (pre ++ [c % 256]) xs (by simp at h ⊢; omega)
    simp only [List.length_append, List.length_singleton, List.append_assoc,
      List.singleton_append, List.cons_append, List.nil_append] at ih
    rw [readKey, if_pos hp, store_append_length, Option.some_bind, ih]
    simp [Nat.succ_min_succ, Nat.add_assoc, Nat.add_comm 1]

theorem take_drop_append_length (enc c : List Nat) (i : Nat) (hi : i + 16 ≤ enc.length)
    (hc : c.length = 16) :
    (enc.take i ++ (c ++ (enc.drop i).drop 16)).length = enc.length
      ∧ (enc.take i ++ (c ++ (enc.drop i).drop 16)).take (i + 16) = enc.take i ++ c := by
  constructor
  · simp; omega
  · rw [← List.append_assoc, List.take_append_of_le_length (by simp; omega)]
    apply List.take_of_length_le
    simp; omega

/-- Closed form of the block loop from offset `i`, with `n` blocks left. -/
theorem encryptBlocks_eq (s mul2 mul3 padded ek : List Nat) (len : Nat) :
    ∀ (n fuel i : Nat) (enc : List Nat), len = i + 16 * n → len ≤ padded.length →
      enc.length = len → n < fuel →
      encryptBlocks s mul2 mul3 padded ek len fuel i enc
        = (encryptAll s mul2 mul3 ek n (padded.drop i)).map (fun cs => enc.take i ++ cs)
  | _, 0, _, _, _, _, _, hf => by omega
  | 0, fuel + 1, i, enc, hl, _, he, _ => by
    have hi : ¬ i < len := by omega
    rw [encryptBlocks, if_neg hi, encryptAll, Option.map_some', List.append_nil,
      List.take_of_length_le (by omega)]
  | n + 1, fuel + 1, i, enc, hl, hp, he, hf => by
    have hi : i < len := by omega
    rw [encryptBlocks, if_pos hi,
      AESEncrypt_eq s mul2 mul3 (padded.drop i) ek (enc.drop i) (by simp; omega) (by simp; omega),
      encryptAll]
    cases hc : encryptState s mul2 mul3 ek (((padded.drop i).take 16).map (fun v => v % 256)) with
    | none => rfl
    | some c =>
      have hcl : c.length = 16 := (encryptState_isState (by simp; omega) hc).length
      obtain ⟨h1, h2⟩ := take_drop_append_length enc c i (by omega) hcl
      rw [Option.map_some', Option.some_bind, Option.some_bind,
        encryptBlocks_eq s mul2 mul3 padded ek len n fuel (i + 16) _ (by omega) hp
          (by rw [h1, he]) (by omega), h2, List.drop_drop]
      cases encryptAll s mul2 mul3 ek n (List.drop (i + 16) padded) <;> simp

theorem encryptAll_length {s mul2 mul3 ek : List Nat} :
    ∀ (n : Nat) (padded c : List Nat), 16 * n ≤ padded.length →
      encryptAll s mul2 mul3 ek n padded = some c → c.length = 16 * n
  | 0, _, c, _, h => by
    simp only [encryptAll, Option.some.injEq] at h
    simp [← h]
  | n + 1, padded, c, hp, h => by
    rw [encryptAll] at h
    obtain ⟨b, hb, h⟩ := Option.bind_eq_some.mp h
    obtain ⟨cs, hcs, h⟩ := Option.map_eq_some'.mp h
    have h1 := (encryptState_isState (by simp; omega) hb).length
    have h2 := encryptAll_length n (padded.drop 16) cs (by simp; omega) hcs
    rw [← h, List.length_append, h1, h2]
    omega

/-- Block `k` of the ciphertext is the state reached from block `k` of the padded message. -/
theorem encryptAll_block {s mul2 mul3 ek : List Nat} :
    ∀ (n : Nat) (padded c : List Nat) (k : Nat), 16 * n ≤ padded.length → k < n →
      encryptAll s mul2 mul3 ek n padded = some c →
      encryptState s mul2 mul3 ek (((padded.drop (16 * k)).take 16).map (fun v => v % 256))
        = some ((c.drop (16 * k)).take 16)
  | 0, _, _, _, _, hk, _ => by omega
  | n + 1, padded, c, k, hp, hk, h => by
    rw [encryptAll] at h
    obtain ⟨b, hb, h⟩ := Option.bind_eq_some.mp h
    obtain ⟨cs, hcs, h⟩ := Option.map_eq_some'.mp h
    have h1 := (encryptState_isState (by simp; omega) hb).length
    cases k with
    | zero =>
      have ht : (b ++ cs).take 16 = b := by
        rw [List.take_append_of_le_length (by omega), List.take_of_length_le (by omega)]
      rw [← h, Nat.mul_zero, List.drop_zero, List.drop_zero, ht]
      exact hb
    | succ j =>
      have ih := encryptAll_block n (padded.drop 16) cs j (by simp; omega) (by omega) hcs
      rw [List.drop_drop] at ih
      have e1 : 16 * (j + 1) = 16 + 16 * j := by omega
      rw [e1, ih, ← h, ← h1, List.drop_append]

theorem encryptAll_total {s mul2 mul3 ek : List Nat} (hs : 256 ≤ s.length)
    (h2 : 256 ≤ mul2.length) (h3 : 256 ≤ mul3.length) (hk : 176 ≤ ek.length) :
    ∀ (n : Nat) (padded : List Nat), 16 * n ≤ padded.length →
      ∃ c, encryptAll s mul2 mul3 ek n padded = some c
  | 0, _, _ => ⟨[], rfl⟩
  | n + 1, padded, hp => by
    have hst : IsState ((padded.take 16).map (fun v => v % 256)) :=
      ⟨by simp; omega, fun x hx => by
        obtain ⟨y, _, rfl⟩ := List.mem_map.mp hx
        exact Nat.mod_lt _ (by decide)⟩
    obtain ⟨b, hb, _⟩ := encryptState_total hst hs h2 h3 hk
    obtain ⟨cs, hcs⟩ := encryptAll_total hs h2 h3 hk n (padded.drop 16) (by simp; omega)
    exact ⟨b ++ cs, by rw [encryptAll, hb, Option.some_bind, hcs, Option.map_some']⟩

theorem readKey_sixteen (kv : List Nat) (hk : kv.length = 16) :
    readKey kv (List.replicate 16 0) 0 = some (kv.map (fun v => v % 256), 16) := by
  have h := readKey_eq kv [] (List.replicate 16 0) (by simp)
  simp only [List.nil_append, List.length_nil, List.length_replicate, Nat.zero_add, hk,
    Nat.min_self] at h
  rw [h, List.take_of_length_le (Nat.le_of_eq hk), ← hk, List.drop_eq_nil_of_le (by simp),
    List.append_nil]

theorem main_eq (s mul2 mul3 : List Nat) (KeyExpansion : List Nat → List Nat)
    (p rest kv : List Nat) (hp : ∀ x ∈ p, x ≠ 0) (hk : kv.length = 16) :
    main s mul2 mul3 KeyExpansion (p ++ 0 :: rest) kv
      = (encryptAll s mul2 mul3 (KeyExpansion (kv.map (fun v => v % 256)))
          (paddedLength p.length / 16)
          (p.map (fun v => v % 256) ++ List.replicate (paddedLength p.length - p.length) 0)).map
        Outcome.written := by
  have hmod := paddedLength_mod p.length
  have hge := paddedLength_ge p.length
  have hpad := padMessage_eq (p ++ 0 :: rest) p.length (paddedLength p.length) (by simp) hge
  rw [List.take_left' rfl] at hpad
  have hblk := encryptBlocks_eq s mul2 mul3
    (p.map (fun v => v % 256) ++ List.replicate (paddedLength p.length - p.length) 0)
    (KeyExpansion (kv.map (fun v => v % 256))) (paddedLength p.length)
    (paddedLength p.length / 16) (paddedLength p.length + 1) 0
    (List.replicate (paddedLength p.length) 0) (by omega) (by simp; omega) (by simp) (by omega)
  rw [List.drop_zero, List.take_zero] at hblk
  unfold main
  rw [strlen_append_zero p rest hp, Option.bind_eq_bind, Option.some_bind]
  dsimp only
  rw [hpad, Option.bind_eq_bind, Option.some_bind, readKey_sixteen kv hk, Option.bind_eq_bind,
    Option.some_bind]
  dsimp only
  rw [if_neg (by simp), hblk]
  cases hc : encryptAll s mul2 mul3 (KeyExpansion (kv.map (fun v => v % 256)))
      (paddedLength p.length / 16)
      (p.map (fun v => v % 256) ++ List.replicate (paddedLength p.length - p.length) 0) with
  | none => rfl
  | some c =>
    have hl := encryptAll_length _ _ c (by simp; omega) hc
    rw [Option.map_some', Option.map_some', Option.some_bind,
      List.nil_append, List.take_of_length_le (by omega)]
    rfl
/-! ## Facts shared by the claims -/

theorem isState_of_bytes {st : List Nat} (h : st.length = 16) (hb : ∀ x ∈ st, x < 256) :
    IsState st := ⟨h, hb⟩

theorem xor_twice_byte {a k : Nat} (ha : a < 256) (hk : k < 256) :
    ((a ^^^ k) % 256 ^^^ k) % 256 = a := by
  have h1 : a ^^^ k < 256 := @Nat.xor_lt_two_pow a k 8 ha hk
  rw [Nat.mod_eq_of_lt h1, Nat.xor_assoc, Nat.xor_self, Nat.xor_zero, Nat.mod_eq_of_lt ha]

theorem zipWith_xor_twice : ∀ (st key : List Nat), st.length ≤ key.length →
    (∀ x ∈ st, x < 256) → (∀ x ∈ key, x < 256) →
    List.zipWith (fun a k => (a ^^^ k) % 256) (List.zipWith (fun a k => (a ^^^ k) % 256) st key)
      key = st
  | [], _, _, _, _ => by simp
  | _ :: _, [], h, _, _ => by simp at h
  | a :: st, k :: key, h, hs, hk => by
    have ih := zipWith_xor_twice st key (by simpa using h)
      (fun x hx => hs x (List.mem_cons_of_mem _ hx))
      (fun x hx => hk x (List.mem_cons_of_mem _ hx))
    simp only [List.zipWith_cons_cons, ih,
      xor_twice_byte (hs a (List.mem_cons_self _ _)) (hk k (List.mem_cons_self _ _))]

theorem length_zipWith_xor (st key : List Nat) (h : st.length ≤ key.length) :
    (List.zipWith (fun a k => (a ^^^ k) % 256) st key).length = st.length := by
  simp [List.length_zipWith, Nat.min_eq_left h]

/-- Four applications of the value of `ShiftRows` restore a state. -/
theorem shiftRowsVal_four {st : List Nat} (h : IsState st) :
    shiftRowsVal (shiftRowsVal (shiftRowsVal (shiftRowsVal st))) = st := by
  obtain ⟨a0, a1, a2, a3, a4, a5, a6, a7, a8, a9, a10, a11, a12, a13, a14, a15, rfl⟩ :=
    exists_list16 h.1
  have hb := h.2
  simp only [List.mem_cons, List.mem_singleton, forall_eq_or_imp, forall_eq, List.not_mem_nil,
    false_implies, implies_true, and_true] at hb
  obtain ⟨h0, h1, h2, h3, h4, h5, h6, h7, h8, h9, h10, h11, h12, h13, h14, h15⟩ := hb
  simp [shiftRowsVal, Nat.mod_eq_of_lt, h0, h1, h2, h3, h4, h5, h6, h7, h8, h9, h10, h11, h12,
    h13, h14, h15]

theorem forLoop_eq_foldlM {σ : Type} (body : Nat → σ → Option σ)
    (g : σ → Nat → Option σ) (k : Nat) (h : ∀ i st, g st (i + k) = body i st) :
    ∀ (n i : Nat) (st : σ), forLoop body n i st = (List.range' (i + k) n).foldlM g st
  | 0, _, _ => rfl
  | n + 1, i, st => by
    rw [forLoop, List.range'_succ, List.foldlM_cons, h i st]
    have e : i + k + 1 = i + 1 + k := by omega
    rw [e]
    congr 1
    funext st1
    exact forLoop_eq_foldlM body g k h n (i + 1) st1

theorem slice_eq (l : List Nat) (a : Nat) : slice l a (a + 16) = (l.drop a).take 16 := by
  unfold slice
  rw [List.drop_take]
  congr 1
  omega

theorem Round_slice (s mul2 mul3 st ek : List Nat) (a : Nat) :
    Round s mul2 mul3 st (slice ek a (a + 16)) = Round s mul2 mul3 st (ek.drop a) := by
  unfold Round
  rw [slice_eq]
  simp only [AddRoundKey_take]

theorem FinalRound_slice (s st ek : List Nat) (a : Nat) :
    FinalRound s st (slice ek a (a + 16)) = FinalRound s st (ek.drop a) := by
  unfold FinalRound
  rw [slice_eq]
  simp only [AddRoundKey_take]

/-- The rounds of `encryptState` are the rounds of the specification. -/
theorem encryptState_eq_spec (s mul2 mul3 ek st : List Nat) :
    encryptState s mul2 mul3 ek st = EncryptBlock_spec s mul2 mul3 st ek := by
  have hloop := forLoop_eq_foldlM
    (fun i st => Round s mul2 mul3 st (ek.drop (16 * (i + 1))))
    (fun st r => Round s mul2 mul3 st (slice ek (16 * r) (16 * r + 16))) 1
    (fun i st => Round_slice s mul2 mul3 st ek (16 * (i + 1))) 9 0
  have h0 : slice ek 0 16 = ek.take 16 := slice_eq ek 0
  have hr : List.range' (0 + 1) 9 = [1, 2, 3, 4, 5, 6, 7, 8, 9] := rfl
  have hf : ∀ st, FinalRound s st (slice ek 160 176) = FinalRound s st (ek.drop 160) :=
    fun st => FinalRound_slice s st ek 160
  unfold encryptState EncryptBlock_spec
  dsimp only
  rw [h0, AddRoundKey_take]
  simp only [hloop, hr, hf, Option.bind_eq_bind, bind_pure]

/-- On a block of exactly 16 bytes and an output block of 16 entries, `AESEncrypt` returns the
state reached by the rounds. -/
theorem AESEncrypt_block (s mul2 mul3 m ek out : List Nat) (hm : IsState m)
    (ho : out.length = 16) :
    AESEncrypt s mul2 mul3 m ek out = encryptState s mul2 mul3 ek m := by
  rw [AESEncrypt_eq s mul2 mul3 m ek out (by rw [hm.1]) (by rw [ho]),
    List.take_of_length_le (Nat.le_of_eq hm.1), map_mod_of_isState hm,
    List.drop_eq_nil_of_le (Nat.le_of_eq ho)]
  cases encryptState s mul2 mul3 ek m <;> simp

/-- The padding loop on the buffer `getline` leaves for the line `p`. -/
theorem padMessage_cstring (p rest : List Nat) :
    padMessage (p ++ 0 :: rest) p.length (paddedLength p.length)
      = some (p.map (fun v => v % 256) ++ List.replicate (paddedLength p.length - p.length) 0) := by
  have h := padMessage_eq (p ++ 0 :: rest) p.length (paddedLength p.length) (by simp)
    (paddedLength_ge p.length)
  rw [List.take_left' rfl] at h
  exact h

theorem map_mod_of_bytes {l : List Nat} (h : ∀ x ∈ l, x < 256) :
    l.map (fun v => v % 256) = l := by
  conv_rhs => rw [← List.map_id l]
  exact List.map_congr_left (fun a ha => Nat.mod_eq_of_lt (h a ha))

theorem length_padded (p : List Nat) :
    (p.map (fun v => v % 256) ++ List.replicate (paddedLength p.length - p.length) 0).length
      = paddedLength p.length := by
  have := paddedLength_ge p.length
  simp
  omega

/-- A run of `main` on a line without zero byte and a key of 16 bytes, with tables of 256
entries and an expanded key of 176 bytes, writes the ciphertext of all blocks. -/
theorem main_run (s mul2 mul3 : List Nat) (KeyExpansion : List Nat → List Nat)
    (p rest key : List Nat) (hs : 256 ≤ s.length) (h2 : 256 ≤ mul2.length)
    (h3 : 256 ≤ mul3.length) (hp : ∀ x ∈ p, x ≠ 0) (hk : key.length = 16)
    (hkb : ∀ x ∈ key, x < 256) (hek : 176 ≤ (KeyExpansion key).length) :
    ∃ C, main s mul2 mul3 KeyExpansion (p ++ 0 :: rest) key = some (Outcome.written C)
      ∧ encryptAll s mul2 mul3 (KeyExpansion key) (paddedLength p.length / 16)
          (p.map (fun v => v % 256) ++ List.replicate (paddedLength p.length - p.length) 0)
        = some C
      ∧ C.length = paddedLength p.length := by
  have hmod := paddedLength_mod p.length
  have hlen := length_padded p
  obtain ⟨C, hC⟩ := encryptAll_total hs h2 h3 hek (paddedLength p.length / 16)
    (p.map (fun v => v % 256) ++ List.replicate (paddedLength p.length - p.length) 0)
    (by rw [hlen]; omega)
  have hl := encryptAll_length _ _ C (by rw [hlen]; omega) hC
  refine ⟨C, ?_, hC, by omega⟩
  rw [main_eq s mul2 mul3 KeyExpansion p rest key hp hk, map_mod_of_bytes hkb, hC,
    Option.map_some']

/-- The call of `AESEncrypt` on a 16-byte window, with a fresh output block. -/
theorem AESEncrypt_window (s mul2 mul3 P ek : List Nat) (i : Nat) (h : i + 16 ≤ P.length) :
    AESEncrypt s mul2 mul3 ((P.drop i).take 16) ek (List.replicate 16 0)
      = encryptState s mul2 mul3 ek (((P.drop i).take 16).map (fun v => v % 256)) := by
  have hl : ((P.drop i).take 16).length = 16 := by simp; omega
  rw [AESEncrypt_eq s mul2 mul3 _ ek _ (by rw [hl]) (by simp),
    List.take_of_length_le (Nat.le_of_eq hl), List.drop_eq_nil_of_le (by simp)]
  cases encryptState s mul2 mul3 ek (((P.drop i).take 16).map (fun v => v % 256)) <;> simp

/-! ### The standard tables and key schedule -/

set_option maxRecDepth 1000000 in
/-- The table `structures.s` is the S-box of FIPS-197: the affine image of the inverse. -/
theorem structures_s_eq :
    structures.s = (List.range 256).map (fun a => reference.affine (reference.ginv a)) := by
  decide

set_option maxRecDepth 1000000 in
/-- The table `structures.mul2` is multiplication by 2 in GF(2^8). -/
theorem structures_mul2_eq : structures.mul2 = (List.range 256).map reference.xtime := by
  decide

set_option maxRecDepth 1000000 in
/-- The table `structures.mul3` is multiplication by 3 in GF(2^8). -/
theorem structures_mul3_eq :
    structures.mul3 = (List.range 256).map (fun a => reference.xtime a ^^^ a) := by
  decide

set_option maxRecDepth 100000 in
/-- The key schedule of the FIPS-197 key: the eleven round keys of FIPS-197, appendix C.1. -/
theorem KeyExpansion_fips197 :
    structures.KeyExpansion
      [0x00, 0x01, 0x02, 0x03, 0x04, 0x05, 0x06, 0x07, 0x08, 0x09, 0x0a, 0x0b, 0x0c, 0x0d,
        0x0e, 0x0f]
    = [
     0x00, 0x01, 0x02, 0x03, 0x04, 0x05, 0x06, 0x07, 0x08, 0x09, 0x0a, 0x0b, 0x0c, 0x0d, 0x0e, 0x0f,
     0xd6, 0xaa, 0x74, 0xfd, 0xd2, 0xaf, 0x72, 0xfa, 0xda, 0xa6, 0x78, 0xf1, 0xd6, 0xab, 0x76, 0xfe,
     0xb6, 0x92, 0xcf, 0x0b, 0x64, 0x3d, 0xbd, 0xf1, 0xbe, 0x9b, 0xc5, 0x00, 0x68, 0x30, 0xb3, 0xfe,
     0xb6, 0xff, 0x74, 0x4e, 0xd2, 0xc2, 0xc9, 0xbf, 0x6c, 0x59, 0x0c, 0xbf, 0x04, 0x69, 0xbf, 0x41,
     0x47, 0xf7, 0xf7, 0xbc, 0x95, 0x35, 0x3e, 0x03, 0xf9, 0x6c, 0x32, 0xbc, 0xfd, 0x05, 0x8d, 0xfd,
     0x3c, 0xaa, 0xa3, 0xe8, 0xa9, 0x9f, 0x9d, 0xeb, 0x50, 0xf3, 0xaf, 0x57, 0xad, 0xf6, 0x22, 0xaa,
     0x5e, 0x39, 0x0f, 0x7d, 0xf7, 0xa6, 0x92, 0x96, 0xa7, 0x55, 0x3d, 0xc1, 0x0a, 0xa3, 0x1f, 0x6b,
     0x14, 0xf9, 0x70, 0x1a, 0xe3, 0x5f, 0xe2, 0x8c, 0x44, 0x0a, 0xdf, 0x4d, 0x4e, 0xa9, 0xc0, 0x26,
     0x47, 0x43, 0x87, 0x35, 0xa4, 0x1c, 0x65, 0xb9, 0xe0, 0x16, 0xba, 0xf4, 0xae, 0xbf, 0x7a, 0xd2,
     0x54, 0x99, 0x32, 0xd1, 0xf0, 0x85, 0x57, 0x68, 0x10, 0x93, 0xed, 0x9c, 0xbe, 0x2c, 0x97, 0x4e,
     0x13, 0x11, 0x1d, 0x7f, 0xe3, 0x94, 0x4a, 0x17, 0xf3, 0x07, 0xa7, 0x8b, 0x4d, 0x2b, 0x30, 0xc5] := by
  decide

set_option maxRecDepth 100000 in
/-- The state the rounds reach from the FIPS-197 plaintext block under the FIPS-197 key. -/
theorem encryptState_fips197 :
    encryptState structures.s structures.mul2 structures.mul3
      (structures.KeyExpansion
        [0x00, 0x01, 0x02, 0x03, 0x04, 0x05, 0x06, 0x07, 0x08, 0x09, 0x0a, 0x0b, 0x0c, 0x0d,
          0x0e, 0x0f])
      [0x00, 0x11, 0x22, 0x33, 0x44, 0x55, 0x66, 0x77, 0x88, 0x99, 0xaa, 0xbb, 0xcc, 0xdd, 0xee,
        0xff]
    = some [0x69, 0xc4, 0xe0, 0xd8, 0x6a, 0x7b, 0x04, 0x30, 0xd8, 0xcd, 0xb7, 0x80, 0x70, 0xb4,
        0xc5, 0x5a] := by
  decide

/-- The windows of a padded message of `len` bytes: offset `16 * k` below `len` leaves a whole
window, and `k` is below the number of blocks. -/
theorem window_bounds {len k : Nat} (hmod : len % 16 = 0) (hk : 16 * k < len) :
    16 * k + 16 ≤ len ∧ k < len / 16 ∧ 16 * (len / 16) ≤ len := by
  omega

/-- Block `k` of the ciphertext `main` writes is the result of `AESEncrypt` on block `k` of
the padded message. -/
theorem encryptAll_window {s mul2 mul3 ek P C : List Nat} {len k : Nat} (hP : P.length = len)
    (hmod : len % 16 = 0) (hC : encryptAll s mul2 mul3 ek (len / 16) P = some C)
    (hk : 16 * k < len) :
    AESEncrypt s mul2 mul3 ((P.drop (16 * k)).take 16) ek (List.replicate 16 0)
      = some ((C.drop (16 * k)).take 16) := by
  obtain ⟨h1, h2, h3⟩ := window_bounds hmod hk
  rw [AESEncrypt_window s mul2 mul3 P ek (16 * k) (by omega)]
  exact encryptAll_block (len / 16) P C k (by omega) h2 hC


/-! ## The permutation of ShiftRows -/

theorem getD_lt_of_isState {st : List Nat} (h : IsState st) {j : Nat} (hj : j < 16) :
    st.getD j 0 < 256 :=
  h.2 _ (getD_mem (by rw [h.1]; exact hj))

/-- On a state, the value of `ShiftRows` is the state read at the indices
`0, 5, 10, 15, 4, 9, 14, 3, 8, 13, 2, 7, 12, 1, 6, 11`. -/
theorem shiftRowsVal_of_isState {st : List Nat} (h : IsState st) :
    shiftRowsVal st
      = [0, 5, 10, 15, 4, 9, 14, 3, 8, 13, 2, 7, 12, 1, 6, 11].map (fun j => st.getD j 0) := by
  unfold shiftRowsVal
  apply List.map_congr_left
  intro j hj
  exact Nat.mod_eq_of_lt (getD_lt_of_isState h (by revert j; decide))

theorem map_getD_range (st : List Nat) :
    (List.range st.length).map (fun j => st.getD j 0) = st := by
  apply List.ext_getElem
  · simp
  · intro i h1 h2
    simp [List.getElem?_eq_getElem h2]

/-- The value of `ShiftRows` is a rearrangement of the state. -/
theorem shiftRowsVal_perm {st : List Nat} (h : IsState st) : (shiftRowsVal st).Perm st := by
  have hp : ([0, 5, 10, 15, 4, 9, 14, 3, 8, 13, 2, 7, 12, 1, 6, 11] : List Nat).Perm
      (List.range 16) := by decide
  have hm := List.Perm.map (fun j => st.getD j 0) hp
  have hr := map_getD_range st
  rw [h.1] at hr
  rw [shiftRowsVal_of_isState h]
  rw [hr] at hm
  exact hm

theorem shiftRowsVal_isState {st : List Nat} (h : IsState st) : IsState (shiftRowsVal st) :=
  ShiftRows_isState h.1 (ShiftRows_eq st h.1)

/-- Entry `i` of the value of `ShiftRows` is entry `5 * i % 16` of the state. -/
theorem shiftRowsVal_getElem? {st : List Nat} (h : IsState st) (i : Nat) (hi : i < 16) :
    (shiftRowsVal st)[i]? = st[5 * i % 16]? := by
  obtain ⟨a0, a1, a2, a3, a4, a5, a6, a7, a8, a9, a10, a11, a12, a13, a14, a15, rfl⟩ :=
    exists_list16 h.1
  rw [shiftRowsVal_of_isState h]
  interval_cases i <;> rfl

/-! ## The formula of MixColumns -/

theorem xor4_byte {x y z w : Nat} (hx : x < 256) (hy : y < 256) (hz : z < 256) (hw : w < 256) :
    (x % 256 ^^^ y ^^^ z ^^^ w) % 256 = x ^^^ y ^^^ z ^^^ w := by
  have h1 : x ^^^ y < 256 := @Nat.xor_lt_two_pow x y 8 hx hy
  have h2 : x ^^^ y ^^^ z < 256 := @Nat.xor_lt_two_pow (x ^^^ y) z 8 h1 hz
  have h3 : x ^^^ y ^^^ z ^^^ w < 256 := @Nat.xor_lt_two_pow (x ^^^ y ^^^ z) w 8 h2 hw
  rw [Nat.mod_eq_of_lt hx, Nat.mod_eq_of_lt h3]

theorem getD_lt_of_bytes {t : List Nat} (h : ∀ x ∈ t, x < 256) (a : Nat) :
    t.getD a 0 < 256 := by
  by_cases ha : a < t.length
  · exact h _ (getD_mem ha)
  · rw [List.getD_eq_default _ _ (Nat.le_of_not_lt ha)]
    decide

/-- One column of `MixColumns` with byte tables, as the four rotations of the pattern
`mul2[x0] ^ mul3[x1] ^ x2 ^ x3`. -/
theorem mixColumnVal_of_bytes {mul2 mul3 : List Nat} (h2 : ∀ x ∈ mul2, x < 256)
    (h3 : ∀ x ∈ mul3, x < 256) {a b c d : Nat} (ha : a < 256) (hb : b < 256) (hc : c < 256)
    (hd : d < 256) :
    mixColumnVal mul2 mul3 a b c d
      = [mul2.getD a 0 ^^^ mul3.getD b 0 ^^^ c ^^^ d,
         mul2.getD b 0 ^^^ mul3.getD c 0 ^^^ d ^^^ a,
         mul2.getD c 0 ^^^ mul3.getD d 0 ^^^ a ^^^ b,
         mul2.getD d 0 ^^^ mul3.getD a 0 ^^^ b ^^^ c] := by
  have m2 := getD_lt_of_bytes h2
  have m3 := getD_lt_of_bytes h3
  unfold mixColumnVal
  rw [xor4_byte (m2 a) (m3 b) hc hd, xor4_byte ha (m2 b) (m3 c) hd,
    xor4_byte ha hb (m2 c) (m3 d), xor4_byte (m3 a) hb hc (m2 d)]
  congr 1
  · congr 1
    · ac_rfl
    · congr 1
      · ac_rfl
      · congr 1
        ac_rfl

/-- Entry `4c + r` of the value of `MixColumns` on a state, with byte tables. -/
theorem mixColumnsVal_getElem? {mul2 mul3 st : List Nat} (h : IsState st)
    (h2 : ∀ x ∈ mul2, x < 256) (h3 : ∀ x ∈ mul3, x < 256) (c r : Nat) (hc : c < 4)
    (hr : r < 4) :
    (mixColumnsVal mul2 mul3 st)[4 * c + r]?
      = some (mul2.getD (st.getD (4 * c + r) 0) 0
          ^^^ mul3.getD (st.getD (4 * c + (r + 1) % 4) 0) 0
          ^^^ st.getD (4 * c + (r + 2) % 4) 0 ^^^ st.getD (4 * c + (r + 3) % 4) 0) := by
  have hb : ∀ j, j < 16 → st.getD j 0 < 256 := fun j hj => getD_lt_of_isState h hj
  unfold mixColumnsVal
  rw [mixColumnVal_of_bytes h2 h3 (hb 0 (by decide)) (hb 1 (by decide)) (hb 2 (by decide))
      (hb 3 (by decide)),
    mixColumnVal_of_bytes h2 h3 (hb 4 (by decide)) (hb 5 (by decide)) (hb 6 (by decide))
      (hb 7 (by decide)),
    mixColumnVal_of_bytes h2 h3 (hb 8 (by decide)) (hb 9 (by decide)) (hb 10 (by decide))
      (hb 11 (by decide)),
    mixColumnVal_of_bytes h2 h3 (hb 12 (by decide)) (hb 13 (by decide)) (hb 14 (by decide))
      (hb 15 (by decide))]
  interval_cases c <;> interval_cases r <;> rfl

theorem getD_congr_of_getElem? {l1 l2 : List Nat} {i : Nat} (h : l1[i]? = l2[i]?) :
    l1.getD i 0 = l2.getD i 0 := by
  rw [List.getD_eq_getElem?_getD, List.getD_eq_getElem?_getD, h]

/-! ## SubBytes and ShiftRows commute -/

theorem updAll_lookup_none (t : List Nat) :
    ∀ (xs : List Nat) (i : Nat), (∃ a ∈ xs, t.length ≤ a) →
      updAll (fun _ a => load t a) i xs = none
  | [], _, h => by
    obtain ⟨a, ha, _⟩ := h
    cases ha
  | b :: bs, i, h => by
    by_cases hb : t.length ≤ b
    · have : load t b = none := by simp [load, hb]
      rw [updAll, this]
      rfl
    · have hrest : ∃ a ∈ bs, t.length ≤ a := by
        obtain ⟨a, ha, hle⟩ := h
        rcases List.mem_cons.mp ha with rfl | ha
        · exact absurd hle hb
        · exact ⟨a, ha, hle⟩
      rw [updAll, updAll_lookup_none t bs (i + 1) hrest]
      cases load t b <;> rfl

theorem SubBytes_none {s st : List Nat} (h : st.length = 16) (hs : ∃ a ∈ st, s.length ≤ a) :
    SubBytes s st = none := by
  rw [SubBytes_updAll s st h, updAll_lookup_none s st 0 hs]

theorem shiftRowsVal_map {st : List Nat} (h : IsState st) (f : Nat → Nat)
    (hf : IsState (st.map f)) :
    shiftRowsVal (st.map f) = (shiftRowsVal st).map f := by
  rw [shiftRowsVal_of_isState h, shiftRowsVal_of_isState hf, List.map_map]
  apply List.map_congr_left
  intro j hj
  have hj16 : j < 16 := by revert j; decide
  have h1 : j < st.length := by rw [h.1]; exact hj16
  have h2 : j < (st.map f).length := by rw [hf.1]; exact hj16
  rw [List.getD_eq_getElem _ _ h2, Function.comp_apply, List.getD_eq_getElem _ _ h1,
    List.getElem_map]

/-- The two steps commute on a state, for every table. -/
theorem SubBytes_ShiftRows_comm (s : List Nat) {st : List Nat} (h : IsState st) :
    (SubBytes s st).bind ShiftRows = (ShiftRows st).bind (SubBytes s) := by
  have hv := shiftRowsVal_isState h
  rw [ShiftRows_eq st h.1, Option.some_bind]
  by_cases hc : ∀ a ∈ st, a < s.length
  · have e1 := SubBytes_eq s st h.1 hc
    have i1 := SubBytes_isState h.1 e1
    have hc2 : ∀ a ∈ shiftRowsVal st, a < s.length :=
      fun a ha => hc a ((shiftRowsVal_perm h).mem_iff.mp ha)
    rw [e1, Option.some_bind, ShiftRows_eq _ i1.1, SubBytes_eq s _ hv.1 hc2,
      shiftRowsVal_map h _ i1]
  · have hex : ∃ a ∈ st, s.length ≤ a := by
      by_contra hne
      exact hc (fun a ha => Nat.lt_of_not_le (fun hle => hne ⟨a, ha, hle⟩))
    have hex2 : ∃ a ∈ shiftRowsVal st, s.length ≤ a := by
      obtain ⟨a, ha, hle⟩ := hex
      exact ⟨a, (shiftRowsVal_perm h).mem_iff.mpr ha, hle⟩
    rw [SubBytes_none h.1 hex, SubBytes_none hv.1 hex2]
    rfl

theorem FinalRound_swapped (s : List Nat) {st : List Nat} (key : List Nat) (h : IsState st) :
    FinalRound s st key = FinalRoundSwapped s st key := by
  have hc := SubBytes_ShiftRows_comm s h
  unfold FinalRound FinalRoundSwapped
  simp only [Option.bind_eq_bind, ← Option.bind_assoc]
  rw [hc]

theorem Round_swapped (s mul2 mul3 : List Nat) {st : List Nat} (key : List Nat)
    (h : IsState st) :
    Round s mul2 mul3 st key = RoundSwapped s mul2 mul3 st key := by
  have hc := SubBytes_ShiftRows_comm s h
  have e1 : Round s mul2 mul3 st key
      = ((SubBytes s st).bind ShiftRows).bind
          (fun st => (MixColumns mul2 mul3 st).bind fun st => AddRoundKey st key) := by
    unfold Round
    simp only [Option.bind_eq_bind, Option.bind_assoc]
  have e2 : RoundSwapped s mul2 mul3 st key
      = ((ShiftRows st).bind (SubBytes s)).bind
          (fun st => (MixColumns mul2 mul3 st).bind fun st => AddRoundKey st key) := by
    unfold RoundSwapped
    simp only [Option.bind_eq_bind, Option.bind_assoc]
  rw [e1, e2, hc]

theorem forLoop_congr_inv {σ : Type} {f g : Nat → σ → Option σ} (Inv : σ → Prop)
    (hfg : ∀ i st, Inv st → f i st = g i st)
    (hinv : ∀ i st st1, Inv st → f i st = some st1 → Inv st1) :
    ∀ (count start : Nat) (st : σ), Inv st →
      forLoop f count start st = forLoop g count start st
  | 0, _, _, _ => rfl
  | count + 1, start, st, h => by
    rw [forLoop, forLoop, ← hfg start st h]
    cases hf : f start st with
    | none => rfl
    | some st1 =>
      rw [Option.some_bind, Option.some_bind]
      exact forLoop_congr_inv Inv hfg hinv count (start + 1) st1 (hinv start st st1 h hf)

/-- The rounds of `AESEncrypt` with the two steps in the other order in every round. -/
theorem encryptState_swapped (s mul2 mul3 ek : List Nat) {st : List Nat} (h : IsState st) :
    encryptState s mul2 mul3 ek st
      = (AddRoundKey st ek).bind fun st =>
          (forLoop (fun i st => RoundSwapped s mul2 mul3 st (ek.drop (16 * (i + 1)))) 9 0
            st).bind fun st => FinalRoundSwapped s st (ek.drop 160) := by
  unfold encryptState
  cases h1 : AddRoundKey st ek with
  | none => rw [Option.none_bind, Option.none_bind]
  | some st1 =>
    have i1 := AddRoundKey_isState h.1 h1
    rw [Option.some_bind, Option.some_bind,
      forLoop_congr_inv (f := fun i st => Round s mul2 mul3 st (ek.drop (16 * (i + 1))))
        (g := fun i st => RoundSwapped s mul2 mul3 st (ek.drop (16 * (i + 1)))) IsState
        (fun i x hx => Round_swapped s mul2 mul3 _ hx)
        (fun i x x1 hx hr => Round_isState hx.1 hr) 9 0 st1 i1]
    cases h2 : forLoop (fun i st => RoundSwapped s mul2 mul3 st (ek.drop (16 * (i + 1)))) 9 0
        st1 with
    | none => rw [Option.none_bind, Option.none_bind]
    | some st2 =>
      have i2 : IsState st2 := by
        have := forLoop_preserves IsState
          (fun (i : Nat) x x1 (hx : RoundSwapped s mul2 mul3 x (ek.drop (16 * (i + 1)))
              = some x1) hi => by
            rw [← Round_swapped s mul2 mul3 _ hi] at hx
            exact Round_isState hi.1 hx) 9 0 st1 st2 h2 i1
        exact this
      rw [Option.some_bind, Option.some_bind, FinalRound_swapped s _ i2]

/-! ## The key check of `main` -/

theorem main_eq_mainFrom (s mul2 mul3 : List Nat) (KeyExpansion : List Nat → List Nat)
    (message keyValues : List Nat) :
    main s mul2 mul3 KeyExpansion message keyValues
      = (strlen message).bind
          (fun originalLen => mainFrom s mul2 mul3 KeyExpansion message originalLen keyValues) :=
  rfl

/-- The key loop from the empty buffer: the first 16 values fill the buffer, the values after
the sixteenth are dropped, and the count stops at 16. -/
theorem readKey_start (kv : List Nat) :
    readKey kv (List.replicate 16 0) 0
      = some ((kv.take 16).map (fun v => v % 256) ++ List.replicate (16 - kv.length) 0,
          min kv.length 16) := by
  have h := readKey_eq kv [] (List.replicate 16 0) (by simp)
  simp only [List.nil_append, List.length_nil, List.length_replicate, Nat.zero_add,
    List.drop_replicate] at h
  exact h

/-- With fewer than 16 key values `main` ends with the key error, whatever the tables and the
key schedule are: neither is used. -/
theorem mainFrom_short_key (s mul2 mul3 : List Nat) (KeyExpansion : List Nat → List Nat)
    (message : List Nat) (n : Nat) (kv : List Nat) (hn : n ≤ message.length)
    (hk : kv.length < 16) :
    mainFrom s mul2 mul3 KeyExpansion message n kv = some (Outcome.keyError kv.length) := by
  have hpad := padMessage_eq message n (paddedLength n) hn (paddedLength_ge n)
  unfold mainFrom
  dsimp only
  rw [hpad, Option.bind_eq_bind, Option.some_bind, readKey_start kv, Option.bind_eq_bind,
    Option.some_bind]
  dsimp only
  rw [Nat.min_eq_left (Nat.le_of_lt hk), if_pos (Nat.ne_of_lt hk)]
  rfl

/-- With 16 key values or more `main` runs as with the first 16 alone. -/
theorem mainFrom_long_key (s mul2 mul3 : List Nat) (KeyExpansion : List Nat → List Nat)
    (message : List Nat) (n : Nat) (kv : List Nat) (hk : 16 ≤ kv.length) :
    mainFrom s mul2 mul3 KeyExpansion message n kv
      = mainFrom s mul2 mul3 KeyExpansion message n (kv.take 16) := by
  have h1 := readKey_start kv
  have h2 := readKey_start (kv.take 16)
  have hl : (kv.take 16).length = 16 := by simp; omega
  rw [List.take_take, Nat.min_self, hl, Nat.sub_self, Nat.min_self] at h2
  rw [Nat.sub_eq_zero_of_le hk, Nat.min_eq_right hk] at h1
  unfold mainFrom
  rw [h1, h2]

theorem main_short_key (s mul2 mul3 : List Nat) (KeyExpansion : List Nat → List Nat)
    (p rest kv : List Nat) (hp : ∀ x ∈ p, x ≠ 0) (hk : kv.length < 16) :
    main s mul2 mul3 KeyExpansion (p ++ 0 :: rest) kv = some (Outcome.keyError kv.length) := by
  rw [main_eq_mainFrom, strlen_append_zero p rest hp, Option.some_bind,
    mainFrom_short_key _ _ _ _ _ _ _ (by simp) hk]

theorem main_long_key (s mul2 mul3 : List Nat) (KeyExpansion : List Nat → List Nat)
    (message kv : List Nat) (hk : 16 ≤ kv.length) :
    main s mul2 mul3 KeyExpansion message kv
      = main s mul2 mul3 KeyExpansion message (kv.take 16) := by
  rw [main_eq_mainFrom, main_eq_mainFrom]
  cases strlen message with
  | none => rw [Option.none_bind, Option.none_bind]
  | some n => rw [Option.some_bind, Option.some_bind, mainFrom_long_key _ _ _ _ _ _ _ hk]

/-! ## Padding twice, and padding back -/

/-- The zero-padded message of a byte sequence. -/
theorem padMessage_bytes (p rest : List Nat) (hp : ∀ x ∈ p, x < 256) :
    padMessage (p ++ rest) p.length (paddedLength p.length)
      = some (p ++ List.replicate (paddedLength p.length - p.length) 0) := by
  have h := padMessage_eq (p ++ rest) p.length (paddedLength p.length) (by simp)
    (paddedLength_ge p.length)
  rw [List.take_left' rfl, map_mod_of_bytes hp] at h
  exact h

theorem paddedLength_of_multiple {n : Nat} (h : n % 16 = 0) : paddedLength n = n := by
  simp only [paddedLength]
  rw [if_neg (by omega)]

theorem paddedLength_idem (n : Nat) : paddedLength (paddedLength n) = paddedLength n :=
  paddedLength_of_multiple (paddedLength_mod n)

theorem bytes_append_zeros {p : List Nat} (hp : ∀ x ∈ p, x < 256) (k : Nat) :
    ∀ x ∈ p ++ List.replicate k 0, x < 256 := by
  intro x hx
  rcases List.mem_append.mp hx with h | h
  · exact hp x h
  · rw [List.eq_of_mem_replicate h]
    decide

theorem length_append_zeros (p : List Nat) :
    (p ++ List.replicate (paddedLength p.length - p.length) 0).length = paddedLength p.length := by
  have := paddedLength_ge p.length
  rw [List.length_append, List.length_replicate]
  omega

/-- The bytes before the first zero byte of a sequence without zero byte followed by zeros. -/
theorem takeWhile_append_zeros : ∀ (p : List Nat) (k : Nat), (∀ x ∈ p, x ≠ 0) →
    (p ++ List.replicate k 0).takeWhile (fun x => x != 0) = p
  | [], 0, _ => rfl
  | [], k + 1, _ => by simp [List.replicate_succ]
  | c :: cs, k, h => by
    have hc : c ≠ 0 := h c (List.mem_cons_self _ _)
    have ih := takeWhile_append_zeros cs k (fun x hx => h x (List.mem_cons_of_mem _ hx))
    simp [List.takeWhile_cons, hc, ih]

/-- The value of `strlen` is the index of the first zero byte. -/
theorem strlen_spec : ∀ (message : List Nat) (n : Nat), strlen message = some n →
    n < message.length ∧ message[n]? = some 0 ∧ ∀ x ∈ message.take n, x ≠ 0
  | [], _, h => by cases h
  | c :: cs, n, h => by
    unfold strlen at h
    by_cases hc : c = 0
    · rw [if_pos hc] at h
      cases h
      simp [hc]
    · rw [if_neg hc] at h
      obtain ⟨m, hm, rfl⟩ := Option.map_eq_some'.mp h
      obtain ⟨h1, h2, h3⟩ := strlen_spec cs m hm
      refine ⟨by simp; omega, by simpa using h2, ?_⟩
      intro x hx
      rw [List.take_succ_cons] at hx
      rcases List.mem_cons.mp hx with rfl | hx
      · exact hc
      · exact h3 x hx

/-! ## The offsets of the block loop -/

/-- The block loop is the fold of the calls of `AESEncrypt` over its offsets. -/
theorem encryptBlocks_eq_foldlM (s mul2 mul3 padded ek : List Nat) (len : Nat) :
    ∀ (fuel i : Nat) (enc : List Nat), len ≤ i + 16 * fuel →
      encryptBlocks s mul2 mul3 padded ek len (fuel + 1) i enc
        = (blockOffsets len (fuel + 1) i).foldlM
            (fun enc i => (AESEncrypt s mul2 mul3 (padded.drop i) ek (enc.drop i)).map
              (fun out => enc.take i ++ out)) enc
  | 0, i, enc, h => by
    have hi : ¬ i < len := by omega
    rw [encryptBlocks, if_neg hi, blockOffsets, if_neg hi]
    rfl
  | fuel + 1, i, enc, h => by
    rw [encryptBlocks, blockOffsets]
    by_cases hi : i < len
    · rw [if_pos hi, if_pos hi, List.foldlM_cons]
      cases AESEncrypt s mul2 mul3 (padded.drop i) ek (enc.drop i) with
      | none => rfl
      | some out =>
        rw [Option.some_bind, Option.map_some', Option.bind_eq_bind, Option.some_bind]
        exact encryptBlocks_eq_foldlM s mul2 mul3 padded ek len fuel (i + 16) _ (by omega)
    · rw [if_neg hi, if_neg hi]
      rfl

/-- Closed form of the offsets: `i, i + 16, ...`, one for each of the `k` blocks left. -/
theorem blockOffsets_eq (len : Nat) :
    ∀ (k fuel i : Nat), len = i + 16 * k → k < fuel →
      blockOffsets len fuel i = (List.range k).map (fun j => i + 16 * j)
  | _, 0, _, _, hf => by omega
  | 0, fuel + 1, i, hl, _ => by
    rw [blockOffsets, if_neg (by omega)]
    rfl
  | k + 1, fuel + 1, i, hl, hf => by
    rw [blockOffsets, if_pos (by omega),
      blockOffsets_eq len k fuel (i + 16) (by omega) (by omega), List.range_succ_eq_map,
      List.map_cons, List.map_map]
    congr 1
    apply List.map_congr_left
    intro j _
    simp only [Function.comp_apply]
    omega

/-! ## The key bytes AESEncrypt reads -/

/-- When the element-wise update of a list has a value, the right-hand side of every element
has one. -/
theorem updAll_some_get {g : Nat → Nat → Option Nat} :
    ∀ (xs : List Nat) (i : Nat) (ys : List Nat), updAll g i xs = some ys →
      ∀ j (hj : j < xs.length), ∃ v, g (i + j) (xs.get ⟨j, hj⟩) = some v
  | [], _, _, _, j, hj => by simp at hj
  | a :: as, i, ys, h, j, hj => by
    simp only [updAll] at h
    obtain ⟨v, hv, h⟩ := Option.bind_eq_some.mp h
    obtain ⟨vs, hvs, _⟩ := Option.map_eq_some'.mp h
    cases j with
    | zero => exact ⟨v, by simpa using hv⟩
    | succ j =>
      have hj1 : j < as.length := by simpa using hj
      obtain ⟨w, hw⟩ := updAll_some_get as (i + 1) vs hvs j hj1
      refine ⟨w, ?_⟩
      have e : i + (j + 1) = i + 1 + j := by omega
      simpa [e] using hw

/-- The function `AddRoundKey` returns a value only when the key view has 16 bytes. -/
theorem AddRoundKey_some_length {st rk c : List Nat} (h : st.length = 16)
    (hr : AddRoundKey st rk = some c) : 16 ≤ rk.length := by
  rw [AddRoundKey_updAll st rk h] at hr
  obtain ⟨v, hv⟩ := updAll_some_get st 0 c hr 15 (by omega)
  obtain ⟨k, hk, _⟩ := Option.bind_eq_some.mp hv
  simp only [load, Nat.zero_add] at hk
  have := (List.getElem?_eq_some_iff.mp hk).1
  omega

/-- The function `AddRoundKey` fails on a key view shorter than 16 bytes: it reads index 15. -/
theorem AddRoundKey_short {st rk : List Nat} (h : st.length = 16) (hk : rk.length < 16) :
    AddRoundKey st rk = none := by
  cases hr : AddRoundKey st rk with
  | none => rfl
  | some c =>
    have := AddRoundKey_some_length h hr
    omega

theorem take_drop_eq_map_range (l : List Nat) (a n : Nat) (h : a + n ≤ l.length) :
    (l.drop a).take n = (List.range n).map (fun j => l.getD (a + j) 0) := by
  apply List.ext_getElem
  · simp only [List.length_take, List.length_drop, List.length_map, List.length_range]
    omega
  · intro i h1 h2
    have hi : i < n := by
      simp only [List.length_map, List.length_range] at h2
      exact h2
    simp only [List.getElem_take, List.getElem_drop, List.getElem_map, List.getElem_range]
    rw [List.getD_eq_getElem _ _ (by omega)]

/-- The function `AddRoundKey` on the key view at offset `a` XORs the state with the bytes
`a .. a + 15` of the expanded key. -/
theorem AddRoundKey_window (st ek : List Nat) (a : Nat) (h : st.length = 16)
    (hk : a + 16 ≤ ek.length) :
    AddRoundKey st (ek.drop a)
      = some (List.zipWith (fun x k => (x ^^^ k) % 256) st
          ((List.range 16).map (fun j => ek.getD (a + j) 0))) := by
  rw [← AddRoundKey_take, take_drop_eq_map_range ek a 16 hk,
    AddRoundKey_eq st _ h (by simp)]

/-- The state transformation returns a value only when the expanded key has 176 bytes: the final
round reads index 175. -/
theorem encryptState_some_length {s mul2 mul3 ek st c : List Nat} (h : st.length = 16)
    (hr : encryptState s mul2 mul3 ek st = some c) : 176 ≤ ek.length := by
  unfold encryptState at hr
  obtain ⟨a, ha, hr⟩ := Option.bind_eq_some.mp hr
  obtain ⟨b, hb, hr⟩ := Option.bind_eq_some.mp hr
  have h1 := AddRoundKey_isState h ha
  have h2 := forLoop_preserves IsState
    (fun _ x x1 hx hi => Round_isState hi.length hx) 9 0 a b hb h1
  unfold FinalRound at hr
  obtain ⟨x, hx, hr⟩ := Option.bind_eq_some.mp hr
  obtain ⟨y, hy, hr⟩ := Option.bind_eq_some.mp hr
  have h3 := SubBytes_isState h2.length hx
  have h4 := ShiftRows_isState h3.length hy
  have := AddRoundKey_some_length h4.length hr
  rw [List.length_drop] at this
  omega

theorem encryptState_rounds (s mul2 mul3 ek st : List Nat) :
    encryptState s mul2 mul3 ek st
      = (AddRoundKey st (ek.drop (16 * 0))).bind fun st =>
          (forLoop (fun i st => Round s mul2 mul3 st (ek.drop (16 * (i + 1)))) 9 0 st).bind
            fun st => FinalRound s st (ek.drop (16 * 10)) := by
  rw [encryptState, Nat.mul_zero, List.drop_zero]

/-! ## MixColumns with the GF(2^8) tables is injective -/

set_option maxRecDepth 100000 in
theorem xtime_lt : ∀ u, u < 256 → reference.xtime u < 256 := by
  decide

set_option maxRecDepth 100000 in
theorem xtime_xor_lo : ∀ u, u < 256 → ∀ w, w < 16 →
    reference.xtime (u ^^^ w) = reference.xtime u ^^^ reference.xtime w := by
  decide

set_option maxRecDepth 100000 in
theorem xtime_xor_hi : ∀ u, u < 256 → ∀ w, w < 16 →
    reference.xtime (u ^^^ 16 * w) = reference.xtime u ^^^ reference.xtime (16 * w) := by
  decide

set_option maxRecDepth 100000 in
theorem byte_split : ∀ v, v < 256 → v = v % 16 ^^^ 16 * (v / 16) := by
  decide

theorem xor_byte {u v : Nat} (hu : u < 256) (hv : v < 256) : u ^^^ v < 256 :=
  @Nat.xor_lt_two_pow u v 8 hu hv

/-- The function `xtime` respects XOR on bytes. -/
theorem xtime_xor (u v : Nat) (hu : u < 256) (hv : v < 256) :
    reference.xtime (u ^^^ v) = reference.xtime u ^^^ reference.xtime v := by
  have hl : v % 16 < 16 := Nat.mod_lt _ (by decide)
  have hh : v / 16 < 16 := by omega
  have h1 : u ^^^ v % 16 < 256 := xor_byte hu (by omega)
  have e1 : reference.xtime (u ^^^ v)
      = reference.xtime (u ^^^ v % 16 ^^^ 16 * (v / 16)) := by
    rw [Nat.xor_assoc, ← byte_split v hv]
  have e2 : reference.xtime v = reference.xtime (v % 16 ^^^ 16 * (v / 16)) := by
    rw [← byte_split v hv]
  rw [e1, e2, xtime_xor_hi _ h1 _ hh, xtime_xor_lo _ hu _ hl,
    xtime_xor_hi _ (by omega) _ hh, Nat.xor_assoc]

theorem byteLinear_xtime : ByteLinear reference.xtime :=
  ⟨xtime_lt, xtime_xor⟩

theorem byteLinear_id : ByteLinear (fun a => a) :=
  ⟨fun _ h => h, fun _ _ _ _ => rfl⟩

theorem ByteLinear.comp {g h : Nat → Nat} (hg : ByteLinear g) (hh : ByteLinear h) :
    ByteLinear (fun a => g (h a)) :=
  ⟨fun u hu => hg.1 _ (hh.1 u hu), fun u v hu hv => by
    show g (h (u ^^^ v)) = g (h u) ^^^ g (h v)
    rw [hh.2 u v hu hv, hg.2 _ _ (hh.1 u hu) (hh.1 v hv)]⟩

theorem ByteLinear.xor {g h : Nat → Nat} (hg : ByteLinear g) (hh : ByteLinear h) :
    ByteLinear (fun a => g a ^^^ h a) :=
  ⟨fun u hu => xor_byte (hg.1 u hu) (hh.1 u hu), fun u v hu hv => by
    show g (u ^^^ v) ^^^ h (u ^^^ v) = g u ^^^ h u ^^^ (g v ^^^ h v)
    rw [hg.2 u v hu hv, hh.2 u v hu hv]
    ac_rfl⟩

theorem ByteLinear.xor4 {g : Nat → Nat} (hg : ByteLinear g) {x y z w : Nat} (hx : x < 256)
    (hy : y < 256) (hz : z < 256) (hw : w < 256) :
    g (x ^^^ y ^^^ z ^^^ w) = g x ^^^ g y ^^^ g z ^^^ g w := by
  rw [hg.2 _ _ (xor_byte (xor_byte hx hy) hz) hw, hg.2 _ _ (xor_byte hx hy) hz,
    hg.2 _ _ hx hy]

theorem byteLinear_x3 :
    ByteLinear (fun a => reference.xtime (reference.xtime (reference.xtime a))) :=
  byteLinear_xtime.comp (byteLinear_xtime.comp byteLinear_xtime)

theorem byteLinear_x2 : ByteLinear (fun a => reference.xtime (reference.xtime a)) :=
  byteLinear_xtime.comp byteLinear_xtime

theorem byteLinear_mul9 : ByteLinear reference.mul9 :=
  byteLinear_x3.xor byteLinear_id

theorem byteLinear_mul11 : ByteLinear reference.mul11 :=
  (byteLinear_x3.xor byteLinear_xtime).xor byteLinear_id

theorem byteLinear_mul13 : ByteLinear reference.mul13 :=
  (byteLinear_x3.xor byteLinear_x2).xor byteLinear_id

theorem byteLinear_mul14 : ByteLinear reference.mul14 :=
  (byteLinear_x3.xor byteLinear_x2).xor byteLinear_xtime

set_option maxRecDepth 100000 in
theorem invMix_coeff_a : ∀ a, a < 256 →
    reference.mul14 (reference.xtime a) ^^^ reference.mul11 a ^^^ reference.mul13 a
      ^^^ reference.mul9 (reference.xtime a ^^^ a) = a := by
  decide

set_option maxRecDepth 100000 in
theorem invMix_coeff_b : ∀ b, b < 256 →
    reference.mul14 (reference.xtime b ^^^ b) ^^^ reference.mul11 (reference.xtime b)
      ^^^ reference.mul13 b ^^^ reference.mul9 b = 0 := by
  decide

set_option maxRecDepth 100000 in
theorem invMix_coeff_c : ∀ c, c < 256 →
    reference.mul14 c ^^^ reference.mul11 (reference.xtime c ^^^ c)
      ^^^ reference.mul13 (reference.xtime c) ^^^ reference.mul9 c = 0 := by
  decide

set_option maxRecDepth 100000 in
theorem invMix_coeff_d : ∀ d, d < 256 →
    reference.mul14 d ^^^ reference.mul11 d ^^^ reference.mul13 (reference.xtime d ^^^ d)
      ^^^ reference.mul9 (reference.xtime d) = 0 := by
  decide

/-- The row `0e 0b 0d 09` applied to the mixed column gives back the first byte of the
column. -/
theorem invMix_mix {a b c d : Nat} (ha : a < 256) (hb : b < 256) (hc : c < 256)
    (hd : d < 256) :
    reference.invMixByte
      (reference.xtime a ^^^ (reference.xtime b ^^^ b) ^^^ c ^^^ d)
      (reference.xtime b ^^^ (reference.xtime c ^^^ c) ^^^ d ^^^ a)
      (reference.xtime c ^^^ (reference.xtime d ^^^ d) ^^^ a ^^^ b)
      (reference.xtime d ^^^ (reference.xtime a ^^^ a) ^^^ b ^^^ c) = a := by
  have xa := xtime_lt a ha
  have xb := xtime_lt b hb
  have xc := xtime_lt c hc
  have xd := xtime_lt d hd
  unfold reference.invMixByte
  rw [byteLinear_mul14.xor4 xa (xor_byte xb hb) hc hd,
    byteLinear_mul11.xor4 xb (xor_byte xc hc) hd ha,
    byteLinear_mul13.xor4 xc (xor_byte xd hd) ha hb,
    byteLinear_mul9.xor4 xd (xor_byte xa ha) hb hc]
  have e : ∀ p1 p2 p3 p4 q1 q2 q3 q4 r1 r2 r3 r4 t1 t2 t3 t4 : Nat,
      (p1 ^^^ p2 ^^^ p3 ^^^ p4) ^^^ (q1 ^^^ q2 ^^^ q3 ^^^ q4) ^^^ (r1 ^^^ r2 ^^^ r3 ^^^ r4)
        ^^^ (t1 ^^^ t2 ^^^ t3 ^^^ t4)
      = (p1 ^^^ q4 ^^^ r3 ^^^ t2) ^^^ (p2 ^^^ q1 ^^^ r4 ^^^ t3) ^^^ (p3 ^^^ q2 ^^^ r1 ^^^ t4)
        ^^^ (p4 ^^^ q3 ^^^ r2 ^^^ t1) := by
    intros
    ac_rfl
  rw [e, invMix_coeff_a a ha, invMix_coeff_b b hb, invMix_coeff_c c hc, invMix_coeff_d d hd]
  simp

/-! ## The steps of a round are injective on states -/

set_option maxRecDepth 100000 in
theorem structures_mul2_bytes : ∀ x ∈ structures.mul2, x < 256 := by
  decide

set_option maxRecDepth 100000 in
theorem structures_mul3_bytes : ∀ x ∈ structures.mul3, x < 256 := by
  decide

set_option maxRecDepth 100000 in
theorem structures_s_bytes : ∀ x ∈ structures.s, x < 256 := by
  decide

set_option maxRecDepth 100000 in
theorem structures_s_length : structures.s.length = 256 := by
  decide

set_option maxRecDepth 1000000 in
theorem structures_s_nodup : structures.s.Nodup := by
  decide

theorem structures_mul2_getD {a : Nat} (ha : a < 256) :
    structures.mul2.getD a 0 = reference.xtime a := by
  rw [structures_mul2_eq, List.getD_eq_getElem _ _ (by simpa using ha)]
  simp

theorem structures_mul3_getD {a : Nat} (ha : a < 256) :
    structures.mul3.getD a 0 = reference.xtime a ^^^ a := by
  rw [structures_mul3_eq, List.getD_eq_getElem _ _ (by simpa using ha)]
  simp

/-- One column of `MixColumns` with the tables of the source, in terms of `xtime`. -/
theorem mixColumnVal_structures {a b c d : Nat} (ha : a < 256) (hb : b < 256) (hc : c < 256)
    (hd : d < 256) :
    mixColumnVal structures.mul2 structures.mul3 a b c d
      = [reference.xtime a ^^^ (reference.xtime b ^^^ b) ^^^ c ^^^ d,
         reference.xtime b ^^^ (reference.xtime c ^^^ c) ^^^ d ^^^ a,
         reference.xtime c ^^^ (reference.xtime d ^^^ d) ^^^ a ^^^ b,
         reference.xtime d ^^^ (reference.xtime a ^^^ a) ^^^ b ^^^ c] := by
  rw [mixColumnVal_of_bytes structures_mul2_bytes structures_mul3_bytes ha hb hc hd,
    structures_mul2_getD ha, structures_mul2_getD hb, structures_mul2_getD hc,
    structures_mul2_getD hd, structures_mul3_getD ha, structures_mul3_getD hb,
    structures_mul3_getD hc, structures_mul3_getD hd]

/-- One column of `MixColumns` with the tables of the source determines the column. -/
theorem mixColumnVal_inj {a b c d a1 b1 c1 d1 : Nat} (ha : a < 256) (hb : b < 256)
    (hc : c < 256) (hd : d < 256) (ha1 : a1 < 256) (hb1 : b1 < 256) (hc1 : c1 < 256)
    (hd1 : d1 < 256)
    (h : mixColumnVal structures.mul2 structures.mul3 a b c d
      = mixColumnVal structures.mul2 structures.mul3 a1 b1 c1 d1) :
    a = a1 ∧ b = b1 ∧ c = c1 ∧ d = d1 := by
  rw [mixColumnVal_structures ha hb hc hd, mixColumnVal_structures ha1 hb1 hc1 hd1] at h
  simp only [List.cons.injEq, and_true] at h
  obtain ⟨e0, e1, e2, e3⟩ := h
  have ea := invMix_mix ha hb hc hd
  have eb := invMix_mix hb hc hd ha
  have ec := invMix_mix hc hd ha hb
  have ed := invMix_mix hd ha hb hc
  rw [e0, e1, e2, e3, invMix_mix ha1 hb1 hc1 hd1] at ea
  rw [e0, e1, e2, e3, invMix_mix hb1 hc1 hd1 ha1] at eb
  rw [e0, e1, e2, e3, invMix_mix hc1 hd1 ha1 hb1] at ec
  rw [e0, e1, e2, e3, invMix_mix hd1 ha1 hb1 hc1] at ed
  exact ⟨ea.symm, eb.symm, ec.symm, ed.symm⟩

theorem mixColumnVal_length (mul2 mul3 : List Nat) (a b c d : Nat) :
    (mixColumnVal mul2 mul3 a b c d).length = 4 := rfl

theorem eq_of_getD_eq {l1 l2 : List Nat} (h1 : l1.length = 16) (h2 : l2.length = 16)
    (h : ∀ j, j < 16 → l1.getD j 0 = l2.getD j 0) : l1 = l2 := by
  apply List.ext_getElem (h1.trans h2.symm)
  intro i hi1 hi2
  have := h i (by omega)
  rwa [List.getD_eq_getElem _ _ hi1, List.getD_eq_getElem _ _ hi2] at this

/-- The value of `MixColumns` with the tables of the source determines the state. -/
theorem mixColumnsVal_inj {st1 st2 : List Nat} (h1 : IsState st1) (h2 : IsState st2)
    (h : mixColumnsVal structures.mul2 structures.mul3 st1
      = mixColumnsVal structures.mul2 structures.mul3 st2) : st1 = st2 := by
  have b1 : ∀ j, j < 16 → st1.getD j 0 < 256 := fun j hj => getD_lt_of_isState h1 hj
  have b2 : ∀ j, j < 16 → st2.getD j 0 < 256 := fun j hj => getD_lt_of_isState h2 hj
  unfold mixColumnsVal at h
  obtain ⟨h, hD⟩ := List.append_inj' h (by rw [mixColumnVal_length, mixColumnVal_length])
  obtain ⟨h, hC⟩ := List.append_inj' h (by rw [mixColumnVal_length, mixColumnVal_length])
  obtain ⟨hA, hB⟩ := List.append_inj' h (by rw [mixColumnVal_length, mixColumnVal_length])
  obtain ⟨e0, e1, e2, e3⟩ := mixColumnVal_inj (b1 0 (by decide)) (b1 1 (by decide))
    (b1 2 (by decide)) (b1 3 (by decide)) (b2 0 (by decide)) (b2 1 (by decide))
    (b2 2 (by decide)) (b2 3 (by decide)) hA
  obtain ⟨e4, e5, e6, e7⟩ := mixColumnVal_inj (b1 4 (by decide)) (b1 5 (by decide))
    (b1 6 (by decide)) (b1 7 (by decide)) (b2 4 (by decide)) (b2 5 (by decide))
    (b2 6 (by decide)) (b2 7 (by decide)) hB
  obtain ⟨e8, e9, e10, e11⟩ := mixColumnVal_inj (b1 8 (by decide)) (b1 9 (by decide))
    (b1 10 (by decide)) (b1 11 (by decide)) (b2 8 (by decide)) (b2 9 (by decide))
    (b2 10 (by decide)) (b2 11 (by decide)) hC
  obtain ⟨e12, e13, e14, e15⟩ := mixColumnVal_inj (b1 12 (by decide)) (b1 13 (by decide))
    (b1 14 (by decide)) (b1 15 (by decide)) (b2 12 (by decide)) (b2 13 (by decide))
    (b2 14 (by decide)) (b2 15 (by decide)) hD
  apply eq_of_getD_eq h1.1 h2.1
  intro j hj
  interval_cases j <;> assumption

/-- The S-box of the source is injective on bytes. -/
theorem structures_s_inj {a b : Nat} (ha : a < 256) (hb : b < 256)
    (h : structures.s.getD a 0 % 256 = structures.s.getD b 0 % 256) : a = b := by
  have la : a < structures.s.length := by rw [structures_s_length]; exact ha
  have lb : b < structures.s.length := by rw [structures_s_length]; exact hb
  rw [Nat.mod_eq_of_lt (structures_s_bytes _ (getD_mem la)),
    Nat.mod_eq_of_lt (structures_s_bytes _ (getD_mem lb)),
    List.getD_eq_getElem _ _ la, List.getD_eq_getElem _ _ lb] at h
  exact (List.Nodup.getElem_inj_iff structures_s_nodup).mp h

/-- The value of `SubBytes` with the S-box of the source determines the state. -/
theorem subBytes_inj {st1 st2 : List Nat} (h1 : IsState st1) (h2 : IsState st2)
    (h : st1.map (fun a => structures.s.getD a 0 % 256)
      = st2.map (fun a => structures.s.getD a 0 % 256)) : st1 = st2 := by
  apply List.ext_getElem (h1.1.trans h2.1.symm)
  intro i hi1 hi2
  have e := congrArg (fun l => l[i]?) h
  simp only [List.getElem?_map, List.getElem?_eq_getElem hi1, List.getElem?_eq_getElem hi2,
    Option.map_some', Option.some.injEq] at e
  exact structures_s_inj (h1.2 _ (List.getElem_mem hi1)) (h2.2 _ (List.getElem_mem hi2)) e

/-- The value of `ShiftRows` determines the state. -/
theorem shiftRowsVal_inj {st1 st2 : List Nat} (h1 : IsState st1) (h2 : IsState st2)
    (h : shiftRowsVal st1 = shiftRowsVal st2) : st1 = st2 := by
  rw [← shiftRowsVal_four h1, ← shiftRowsVal_four h2, h]

/-- The value of `AddRoundKey` with a key of bytes determines the state. -/
theorem addRoundKey_inj {st1 st2 key : List Nat} (h1 : IsState st1) (h2 : IsState st2)
    (hk : 16 ≤ key.length) (hkb : ∀ x ∈ key, x < 256)
    (h : List.zipWith (fun a k => (a ^^^ k) % 256) st1 key
      = List.zipWith (fun a k => (a ^^^ k) % 256) st2 key) : st1 = st2 := by
  rw [← zipWith_xor_twice st1 key (by rw [h1.1]; exact hk) h1.2 hkb,
    ← zipWith_xor_twice st2 key (by rw [h2.1]; exact hk) h2.2 hkb, h]

/-! ## The rounds are injective on states -/

theorem structures_mul2_length : structures.mul2.length = 256 := by
  rw [structures_mul2_eq]
  simp

theorem structures_mul3_length : structures.mul3.length = 256 := by
  rw [structures_mul3_eq]
  simp

theorem mem_drop_bytes {l : List Nat} (h : ∀ x ∈ l, x < 256) (n : Nat) :
    ∀ x ∈ l.drop n, x < 256 :=
  fun x hx => h x (List.mem_of_mem_drop hx)

/-- The function `Round` with the tables of the source determines the state it starts from. -/
theorem Round_inj {st1 st2 key : List Nat} (h1 : IsState st1) (h2 : IsState st2)
    (hk : 16 ≤ key.length) (hkb : ∀ x ∈ key, x < 256)
    (h : Round structures.s structures.mul2 structures.mul3 st1 key
      = Round structures.s structures.mul2 structures.mul3 st2 key) : st1 = st2 := by
  have hs : 256 ≤ structures.s.length := Nat.le_of_eq structures_s_length.symm
  have hm2 : 256 ≤ structures.mul2.length := Nat.le_of_eq structures_mul2_length.symm
  have hm3 : 256 ≤ structures.mul3.length := Nat.le_of_eq structures_mul3_length.symm
  have a1 := SubBytes_eq structures.s st1 h1.length (h1.covered hs)
  have i1 := SubBytes_isState h1.length a1
  have a2 := ShiftRows_eq _ i1.length
  have i2 := ShiftRows_isState i1.length a2
  have a3 := MixColumns_eq structures.mul2 structures.mul3 _ i2.length (i2.covered hm2)
    (i2.covered hm3)
  have i3 := MixColumns_isState i2.length a3
  have a4 := AddRoundKey_eq _ key i3.length hk
  have b1 := SubBytes_eq structures.s st2 h2.length (h2.covered hs)
  have j1 := SubBytes_isState h2.length b1
  have b2 := ShiftRows_eq _ j1.length
  have j2 := ShiftRows_isState j1.length b2
  have b3 := MixColumns_eq structures.mul2 structures.mul3 _ j2.length (j2.covered hm2)
    (j2.covered hm3)
  have j3 := MixColumns_isState j2.length b3
  have b4 := AddRoundKey_eq _ key j3.length hk
  unfold Round at h
  rw [a1, b1, Option.bind_eq_bind, Option.some_bind, Option.some_bind,
    a2, b2, Option.some_bind, Option.some_bind, a3, b3, Option.some_bind, Option.some_bind,
    a4, b4, Option.some.injEq] at h
  exact subBytes_inj h1 h2 (shiftRowsVal_inj i1 j1
    (mixColumnsVal_inj i2 j2 (addRoundKey_inj i3 j3 hk hkb h)))

/-- The function `FinalRound` with the S-box of the source determines the state it starts
from. -/
theorem FinalRound_inj {st1 st2 key : List Nat} (h1 : IsState st1) (h2 : IsState st2)
    (hk : 16 ≤ key.length) (hkb : ∀ x ∈ key, x < 256)
    (h : FinalRound structures.s st1 key = FinalRound structures.s st2 key) : st1 = st2 := by
  have hs : 256 ≤ structures.s.length := Nat.le_of_eq structures_s_length.symm
  have a1 := SubBytes_eq structures.s st1 h1.length (h1.covered hs)
  have i1 := SubBytes_isState h1.length a1
  have a2 := ShiftRows_eq _ i1.length
  have i2 := ShiftRows_isState i1.length a2
  have a4 := AddRoundKey_eq _ key i2.length hk
  have b1 := SubBytes_eq structures.s st2 h2.length (h2.covered hs)
  have j1 := SubBytes_isState h2.length b1
  have b2 := ShiftRows_eq _ j1.length
  have j2 := ShiftRows_isState j1.length b2
  have b4 := AddRoundKey_eq _ key j2.length hk
  unfold FinalRound at h
  rw [a1, b1, Option.bind_eq_bind, Option.some_bind, Option.some_bind,
    a2, b2, Option.some_bind, Option.some_bind, a4, b4, Option.some.injEq] at h
  exact subBytes_inj h1 h2 (shiftRowsVal_inj i1 j1 (addRoundKey_inj i2 j2 hk hkb h))

/-- A loop whose body is total and injective on the states of an invariant is injective on
them. -/
theorem forLoop_inj {σ : Type} {body : Nat → σ → Option σ} (Inv : σ → Prop) :
    ∀ (count start : Nat) (a b : σ),
      (∀ i st, start ≤ i → i < start + count → Inv st →
        ∃ st1, body i st = some st1 ∧ Inv st1) →
      (∀ i x y, start ≤ i → i < start + count → Inv x → Inv y → body i x = body i y →
        x = y) →
      Inv a → Inv b → forLoop body count start a = forLoop body count start b → a = b
  | 0, _, a, b, _, _, _, _, h => by
    rw [forLoop, forLoop, Option.some.injEq] at h
    exact h
  | count + 1, start, a, b, htot, hinj, ha, hb, h => by
    obtain ⟨a1, ea, ia⟩ := htot start a (Nat.le_refl _) (by omega) ha
    obtain ⟨b1, eb, ib⟩ := htot start b (Nat.le_refl _) (by omega) hb
    rw [forLoop, forLoop, ea, eb, Option.some_bind, Option.some_bind] at h
    have e := forLoop_inj Inv count (start + 1) a1 b1
      (fun i st h1 h2 hi => htot i st (by omega) (by omega) hi)
      (fun i x y h1 h2 hx hy hxy => hinj i x y (by omega) (by omega) hx hy hxy) ia ib h
    exact hinj start a b (Nat.le_refl _) (by omega) ha hb (by rw [ea, eb, e])

/-- The state transformation of `AESEncrypt` with the tables of the source and an expanded key
of 176 bytes determines the state it starts from. -/
theorem encryptState_inj {ek m1 m2 : List Nat} (hk : 176 ≤ ek.length)
    (hkb : ∀ x ∈ ek, x < 256) (h1 : IsState m1) (h2 : IsState m2)
    (h : encryptState structures.s structures.mul2 structures.mul3 ek m1
      = encryptState structures.s structures.mul2 structures.mul3 ek m2) : m1 = m2 := by
  have hs : 256 ≤ structures.s.length := Nat.le_of_eq structures_s_length.symm
  have hm2 : 256 ≤ structures.mul2.length := Nat.le_of_eq structures_mul2_length.symm
  have hm3 : 256 ≤ structures.mul3.length := Nat.le_of_eq structures_mul3_length.symm
  have a1 := AddRoundKey_eq m1 ek h1.length (by omega)
  have i1 := AddRoundKey_isState h1.length a1
  have b1 := AddRoundKey_eq m2 ek h2.length (by omega)
  have j1 := AddRoundKey_isState h2.length b1
  have htot : ∀ i st, 0 ≤ i → i < 0 + 9 → IsState st →
      ∃ st1, (fun i st => Round structures.s structures.mul2 structures.mul3 st
        (ek.drop (16 * (i + 1)))) i st = some st1 ∧ IsState st1 :=
    fun i x _ hi hx => Round_total hx hs hm2 hm3 (by rw [List.length_drop]; omega)
  obtain ⟨a2, ea2, i2⟩ := @forLoop_total (List Nat)
    (fun i st => Round structures.s structures.mul2 structures.mul3 st
      (ek.drop (16 * (i + 1)))) IsState 9 0 _ htot i1
  obtain ⟨b2, eb2, j2⟩ := @forLoop_total (List Nat)
    (fun i st => Round structures.s structures.mul2 structures.mul3 st
      (ek.drop (16 * (i + 1)))) IsState 9 0 _ htot j1
  unfold encryptState at h
  rw [a1, b1, Option.some_bind, Option.some_bind, ea2, eb2, Option.some_bind,
    Option.some_bind] at h
  have e2 : a2 = b2 := FinalRound_inj i2 j2 (by rw [List.length_drop]; omega)
    (mem_drop_bytes hkb 160) h
  have e1 := @forLoop_inj (List Nat)
    (fun i st => Round structures.s structures.mul2 structures.mul3 st
      (ek.drop (16 * (i + 1)))) IsState 9 0 _ _ htot
    (fun i x y _ hi hx hy hxy => Round_inj hx hy (by rw [List.length_drop]; omega)
      (mem_drop_bytes hkb _) hxy) i1 j1 (by rw [ea2, eb2, e2])
  exact addRoundKey_inj h1 h2 (by omega) hkb e1

/-! ## Block encryption is a bijection of the states -/

/-- There are finitely many states. -/
theorem finite_states : Finite {l : List Nat // IsState l} := by
  apply Finite.of_injective
    (fun (x : {l : List Nat // IsState l}) (i : Fin 16) =>
      (⟨x.1.getD i.1 0, getD_lt_of_isState x.2 i.2⟩ : Fin 256))
  intro x y hxy
  apply Subtype.ext
  apply eq_of_getD_eq x.2.1 y.2.1
  intro j hj
  exact congrArg Fin.val (congrFun hxy ⟨j, hj⟩)

/-- The function `AESEncrypt` on a block and an output view of at least 16 bytes. -/
theorem AESEncrypt_state (s mul2 mul3 m ek out : List Nat) (hm : IsState m)
    (ho : 16 ≤ out.length) :
    AESEncrypt s mul2 mul3 m ek out
      = (encryptState s mul2 mul3 ek m).map (fun c => c ++ out.drop 16) := by
  rw [AESEncrypt_eq s mul2 mul3 m ek out (by rw [hm.1]) ho,
    List.take_of_length_le (Nat.le_of_eq hm.1), map_mod_of_isState hm]

/-- Every state is reached by the state transformation of `AESEncrypt` with the tables of the
source and an expanded key of 176 bytes. -/
theorem encryptState_surj {ek : List Nat} (hk : 176 ≤ ek.length) (hkb : ∀ x ∈ ek, x < 256)
    {c : List Nat} (hc : IsState c) :
    ∃ m, IsState m
      ∧ encryptState structures.s structures.mul2 structures.mul3 ek m = some c := by
  have htot : ∀ x : {l : List Nat // IsState l}, ∃ c,
      encryptState structures.s structures.mul2 structures.mul3 ek x.1 = some c ∧ IsState c :=
    fun x => encryptState_total x.2 (Nat.le_of_eq structures_s_length.symm)
      (Nat.le_of_eq structures_mul2_length.symm) (Nat.le_of_eq structures_mul3_length.symm) hk
  choose F hF using htot
  have hinj : Function.Injective
      (fun x : {l : List Nat // IsState l} =>
        (⟨F x, (hF x).2⟩ : {l : List Nat // IsState l})) := by
    intro x y hxy
    have e : F x = F y := congrArg Subtype.val hxy
    exact Subtype.ext (encryptState_inj hk hkb x.2 y.2 (by rw [(hF x).1, (hF y).1, e]))
  haveI := finite_states
  obtain ⟨x, hx⟩ := (Finite.injective_iff_surjective.mp hinj) ⟨c, hc⟩
  have e : F x = c := congrArg Subtype.val hx
  exact ⟨x.1, x.2, by rw [(hF x).1, e]⟩
/-! ## The claims -/

/-- C1. Known-answer vector of FIPS-197: with the standard S-box and multiplication tables and
the standard key schedule of the key `000102030405060708090a0b0c0d0e0f`, `AESEncrypt` applied
to the block `00112233445566778899aabbccddeeff` writes exactly the 16 bytes
`69c4e0d86a7b0430d8cdb78070b4c55a` to a 16-byte output block, whatever the block held before;
the expanded key has 176 bytes. -/
theorem AESEncrypt_fips197_vector (encryptedMessage : List Nat)
    (h : encryptedMessage.length = 16) :
    AESEncrypt structures.s structures.mul2 structures.mul3
      [0x00, 0x11, 0x22, 0x33, 0x44, 0x55, 0x66, 0x77, 0x88, 0x99, 0xaa, 0xbb, 0xcc, 0xdd, 0xee,
        0xff]
      (structures.KeyExpansion
        [0x00, 0x01, 0x02, 0x03, 0x04, 0x05, 0x06, 0x07, 0x08, 0x09, 0x0a, 0x0b, 0x0c, 0x0d,
          0x0e, 0x0f])
      encryptedMessage
    = some [0x69, 0xc4, 0xe0, 0xd8, 0x6a, 0x7b, 0x04, 0x30, 0xd8, 0xcd, 0xb7, 0x80, 0x70, 0xb4,
        0xc5, 0x5a]
    ∧ (structures.KeyExpansion
        [0x00, 0x01, 0x02, 0x03, 0x04, 0x05, 0x06, 0x07, 0x08, 0x09, 0x0a, 0x0b, 0x0c, 0x0d,
          0x0e, 0x0f]).length = 176 := by
  refine ⟨?_, by rw [KeyExpansion_fips197]; rfl⟩
  have hst : IsState [0x00, 0x11, 0x22, 0x33, 0x44, 0x55, 0x66, 0x77, 0x88, 0x99, 0xaa, 0xbb,
      0xcc, 0xdd, 0xee, 0xff] := ⟨rfl, by decide⟩
  rw [AESEncrypt_block _ _ _ _ _ _ hst h]
  exact encryptState_fips197

/-- Witness of C1: the output block initially holds sixteen zero bytes. -/
theorem AESEncrypt_fips197_vector_witness :
    (List.replicate 16 0).length = 16 ∧
    AESEncrypt structures.s structures.mul2 structures.mul3
      [0x00, 0x11, 0x22, 0x33, 0x44, 0x55, 0x66, 0x77, 0x88, 0x99, 0xaa, 0xbb, 0xcc, 0xdd, 0xee,
        0xff]
      (structures.KeyExpansion
        [0x00, 0x01, 0x02, 0x03, 0x04, 0x05, 0x06, 0x07, 0x08, 0x09, 0x0a, 0x0b, 0x0c, 0x0d,
          0x0e, 0x0f])
      (List.replicate 16 0)
    = some [0x69, 0xc4, 0xe0, 0xd8, 0x6a, 0x7b, 0x04, 0x30, 0xd8, 0xcd, 0xb7, 0x80, 0x70, 0xb4,
        0xc5, 0x5a]
    ∧ (structures.KeyExpansion
        [0x00, 0x01, 0x02, 0x03, 0x04, 0x05, 0x06, 0x07, 0x08, 0x09, 0x0a, 0x0b, 0x0c, 0x0d,
          0x0e, 0x0f]).length = 176 :=
  ⟨by decide, AESEncrypt_fips197_vector (List.replicate 16 0) (by decide)⟩

/-- C2. For every 16-byte block `m`, every expanded key `ek` of 176 bytes and every choice of
lookup tables, the block `AESEncrypt` outputs is the result of `EncryptBlock_spec`: the state
copied from `m`, `AddRoundKey` with `ek[0..16)`, then `Round` with `ek[16r..16r+16)` for
`r = 1, ..., 9` in this order, then `FinalRound` with `ek[160..176)`.  With tables of 256
entries both sides are a block of 16 bytes. -/
theorem AESEncrypt_refines_spec (s mul2 mul3 m ek encryptedMessage : List Nat)
    (hm : m.length = 16) (hmb : ∀ x ∈ m, x < 256) (hek : ek.length = 176)
    (ho : encryptedMessage.length = 16) :
    AESEncrypt s mul2 mul3 m ek encryptedMessage = EncryptBlock_spec s mul2 mul3 m ek
    ∧ (s.length = 256 → mul2.length = 256 → mul3.length = 256 →
        ∃ c, AESEncrypt s mul2 mul3 m ek encryptedMessage = some c ∧ c.length = 16
          ∧ ∀ x ∈ c, x < 256) := by
  have hst := isState_of_bytes hm hmb
  have hb := AESEncrypt_block s mul2 mul3 m ek encryptedMessage hst ho
  refine ⟨by rw [hb, encryptState_eq_spec], fun hs h2 h3 => ?_⟩
  obtain ⟨c, hc, hcs⟩ := @encryptState_total s mul2 mul3 ek m hst
    (Nat.le_of_eq hs.symm) (Nat.le_of_eq h2.symm) (Nat.le_of_eq h3.symm) (Nat.le_of_eq hek.symm)
  exact ⟨c, by rw [hb, hc], hcs.1, hcs.2⟩

/-- Witness of C2: the all-zero block under an all-zero expanded key, with all-zero tables. -/
theorem AESEncrypt_refines_spec_witness :
    (([0, 0, 0, 0, 0, 0, 0, 0, 0, 0, 0, 0, 0, 0, 0, 0] : List Nat).length = 16
      ∧ (∀ x ∈ ([0, 0, 0, 0, 0, 0, 0, 0, 0, 0, 0, 0, 0, 0, 0, 0] : List Nat), x < 256)
      ∧ (List.replicate 176 0).length = 176
      ∧ ([7, 7, 7, 7, 7, 7, 7, 7, 7, 7, 7, 7, 7, 7, 7, 7] : List Nat).length = 16)
    ∧ (AESEncrypt (List.replicate 256 0) (List.replicate 256 0) (List.replicate 256 0)
        [0, 0, 0, 0, 0, 0, 0, 0, 0, 0, 0, 0, 0, 0, 0, 0] (List.replicate 176 0)
        [7, 7, 7, 7, 7, 7, 7, 7, 7, 7, 7, 7, 7, 7, 7, 7]
      = EncryptBlock_spec (List.replicate 256 0) (List.replicate 256 0) (List.replicate 256 0)
        [0, 0, 0, 0, 0, 0, 0, 0, 0, 0, 0, 0, 0, 0, 0, 0] (List.replicate 176 0)
    ∧ ((List.replicate 256 0).length = 256 → (List.replicate 256 0).length = 256 →
        (List.replicate 256 0).length = 256 →
        ∃ c, AESEncrypt (List.replicate 256 0) (List.replicate 256 0) (List.replicate 256 0)
            [0, 0, 0, 0, 0, 0, 0, 0, 0, 0, 0, 0, 0, 0, 0, 0] (List.replicate 176 0)
            [7, 7, 7, 7, 7, 7, 7, 7, 7, 7, 7, 7, 7, 7, 7, 7] = some c
          ∧ c.length = 16 ∧ ∀ x ∈ c, x < 256)) :=
  ⟨⟨rfl, by decide, List.length_replicate 176 0, rfl⟩,
    AESEncrypt_refines_spec (List.replicate 256 0) (List.replicate 256 0) (List.replicate 256 0)
      [0, 0, 0, 0, 0, 0, 0, 0, 0, 0, 0, 0, 0, 0, 0, 0] (List.replicate 176 0)
      [7, 7, 7, 7, 7, 7, 7, 7, 7, 7, 7, 7, 7, 7, 7, 7] rfl (by decide)
      (List.length_replicate 176 0) rfl⟩

/-- C3. For every plaintext `p` (a line without zero byte, as `main` receives it) and every
16-byte key, with `P` the zero-padded message and the expanded key computed once from the key,
`main` writes a ciphertext `C` of the length of `P`, and for every block index `k` with
`16k < len(P)` the bytes `[16k, 16k+16)` of `C` are `AESEncrypt(P[16k..16k+16), ek)`: each block
is encrypted with the same expanded key, written at the offset it was read from, and nothing is
carried from one block to the next. -/
theorem main_encrypts_each_block (s mul2 mul3 : List Nat) (KeyExpansion : List Nat → List Nat)
    (p rest key : List Nat) (hs : s.length = 256) (h2 : mul2.length = 256)
    (h3 : mul3.length = 256) (hp : ∀ x ∈ p, x ≠ 0) (hk : key.length = 16)
    (hkb : ∀ x ∈ key, x < 256) (hek : (KeyExpansion key).length = 176) :
    ∃ P C,
      padMessage (p ++ 0 :: rest) p.length (paddedLength p.length) = some P
      ∧ main s mul2 mul3 KeyExpansion (p ++ 0 :: rest) key = some (Outcome.written C)
      ∧ C.length = P.length
      ∧ ∀ k, 16 * k < P.length →
          AESEncrypt s mul2 mul3 ((P.drop (16 * k)).take 16) (KeyExpansion key)
            (List.replicate 16 0) = some ((C.drop (16 * k)).take 16) := by
  obtain ⟨C, hmain, hC, hlen⟩ := main_run s mul2 mul3 KeyExpansion p rest key
    (Nat.le_of_eq hs.symm) (Nat.le_of_eq h2.symm) (Nat.le_of_eq h3.symm) hp hk hkb
    (Nat.le_of_eq hek.symm)
  have hP := length_padded p
  have hmod := paddedLength_mod p.length
  exact ⟨_, C, padMessage_cstring p rest, hmain, by rw [hlen, hP],
    fun k hk => encryptAll_window hP hmod hC (hP ▸ hk)⟩

set_option maxRecDepth 100000 in
/-- Witness of C3: the line `Hi` under the FIPS-197 key, with the standard tables and key
schedule. -/
theorem main_encrypts_each_block_witness :
    (structures.s.length = 256 ∧ structures.mul2.length = 256 ∧ structures.mul3.length = 256
      ∧ (∀ x ∈ ([72, 105] : List Nat), x ≠ 0)
      ∧ ([0, 1, 2, 3, 4, 5, 6, 7, 8, 9, 10, 11, 12, 13, 14, 15] : List Nat).length = 16
      ∧ (∀ x ∈ ([0, 1, 2, 3, 4, 5, 6, 7, 8, 9, 10, 11, 12, 13, 14, 15] : List Nat), x < 256)
      ∧ (structures.KeyExpansion
          [0, 1, 2, 3, 4, 5, 6, 7, 8, 9, 10, 11, 12, 13, 14, 15]).length = 176)
    ∧ ∃ P C,
      padMessage ([72, 105] ++ 0 :: []) ([72, 105] : List Nat).length
          (paddedLength ([72, 105] : List Nat).length) = some P
      ∧ main structures.s structures.mul2 structures.mul3 structures.KeyExpansion
          ([72, 105] ++ 0 :: []) [0, 1, 2, 3, 4, 5, 6, 7, 8, 9, 10, 11, 12, 13, 14, 15]
          = some (Outcome.written C)
      ∧ C.length = P.length
      ∧ ∀ k, 16 * k < P.length →
          AESEncrypt structures.s structures.mul2 structures.mul3 ((P.drop (16 * k)).take 16)
            (structures.KeyExpansion [0, 1, 2, 3, 4, 5, 6, 7, 8, 9, 10, 11, 12, 13, 14, 15])
            (List.replicate 16 0) = some ((C.drop (16 * k)).take 16) :=
  ⟨⟨rfl, rfl, rfl, by decide, rfl, by decide, by decide⟩,
    main_encrypts_each_block structures.s structures.mul2 structures.mul3
      structures.KeyExpansion [72, 105] [] [0, 1, 2, 3, 4, 5, 6, 7, 8, 9, 10, 11, 12, 13, 14, 15]
      rfl rfl rfl (by decide) rfl (by decide) (by decide)⟩

/-- C4. ECB block independence: for every key and every two plaintexts whose padded messages
`P1`, `P2` have the same length, whenever block `k` of `P1` equals block `k` of `P2`, block `k`
of the ciphertext of the first equals block `k` of the ciphertext of the second, whatever the
other blocks hold.  And inside one padded message, two equal blocks `j` and `k` have equal
ciphertext blocks. -/
theorem main_ecb_block_independence (s mul2 mul3 : List Nat)
    (KeyExpansion : List Nat → List Nat) (p1 rest1 p2 rest2 key : List Nat)
    (hs : s.length = 256) (h2 : mul2.length = 256) (h3 : mul3.length = 256)
    (hp1 : ∀ x ∈ p1, x ≠ 0) (hp2 : ∀ x ∈ p2, x ≠ 0) (hk : key.length = 16)
    (hkb : ∀ x ∈ key, x < 256) (hek : (KeyExpansion key).length = 176) :
    ∃ P1 P2 C1 C2,
      padMessage (p1 ++ 0 :: rest1) p1.length (paddedLength p1.length) = some P1
      ∧ padMessage (p2 ++ 0 :: rest2) p2.length (paddedLength p2.length) = some P2
      ∧ main s mul2 mul3 KeyExpansion (p1 ++ 0 :: rest1) key = some (Outcome.written C1)
      ∧ main s mul2 mul3 KeyExpansion (p2 ++ 0 :: rest2) key = some (Outcome.written C2)
      ∧ (P1.length = P2.length → ∀ k, 16 * k < P1.length →
          (P1.drop (16 * k)).take 16 = (P2.drop (16 * k)).take 16 →
          (C1.drop (16 * k)).take 16 = (C2.drop (16 * k)).take 16)
      ∧ (∀ j k, 16 * j < P1.length → 16 * k < P1.length →
          (P1.drop (16 * j)).take 16 = (P1.drop (16 * k)).take 16 →
          (C1.drop (16 * j)).take 16 = (C1.drop (16 * k)).take 16) := by
  obtain ⟨C1, hmain1, hC1, _⟩ := main_run s mul2 mul3 KeyExpansion p1 rest1 key
    (Nat.le_of_eq hs.symm) (Nat.le_of_eq h2.symm) (Nat.le_of_eq h3.symm) hp1 hk hkb
    (Nat.le_of_eq hek.symm)
  obtain ⟨C2, hmain2, hC2, _⟩ := main_run s mul2 mul3 KeyExpansion p2 rest2 key
    (Nat.le_of_eq hs.symm) (Nat.le_of_eq h2.symm) (Nat.le_of_eq h3.symm) hp2 hk hkb
    (Nat.le_of_eq hek.symm)
  have hP1 := length_padded p1
  have hP2 := length_padded p2
  have hmod1 := paddedLength_mod p1.length
  have hmod2 := paddedLength_mod p2.length
  refine ⟨_, _, C1, C2, padMessage_cstring p1 rest1, padMessage_cstring p2 rest2, hmain1, hmain2,
    fun hlen k hk1 hblk => ?_, fun j k hj hk1 hblk => ?_⟩
  · have e1 := encryptAll_window hP1 hmod1 hC1 (hP1 ▸ hk1)
    have e2 := encryptAll_window hP2 hmod2 hC2 (hP2 ▸ hlen ▸ hk1)
    rw [hblk, e2] at e1
    exact (Option.some.inj e1).symm
  · have e1 := encryptAll_window hP1 hmod1 hC1 (hP1 ▸ hj)
    have e2 := encryptAll_window hP1 hmod1 hC1 (hP1 ▸ hk1)
    rw [hblk, e2] at e1
    exact (Option.some.inj e1).symm

set_option maxRecDepth 100000 in
/-- Witness of C4: the lines `Hi` and `Ho` under the FIPS-197 key, with the standard tables and
key schedule. -/
theorem main_ecb_block_independence_witness :
    (structures.s.length = 256 ∧ structures.mul2.length = 256 ∧ structures.mul3.length = 256
      ∧ (∀ x ∈ ([72, 105] : List Nat), x ≠ 0) ∧ (∀ x ∈ ([72, 111] : List Nat), x ≠ 0)
      ∧ ([0, 1, 2, 3, 4, 5, 6, 7, 8, 9, 10, 11, 12, 13, 14, 15] : List Nat).length = 16
      ∧ (∀ x ∈ ([0, 1, 2, 3, 4, 5, 6, 7, 8, 9, 10, 11, 12, 13, 14, 15] : List Nat), x < 256)
      ∧ (structures.KeyExpansion
          [0, 1, 2, 3, 4, 5, 6, 7, 8, 9, 10, 11, 12, 13, 14, 15]).length = 176)
    ∧ ∃ P1 P2 C1 C2,
      padMessage ([72, 105] ++ 0 :: []) ([72, 105] : List Nat).length
          (paddedLength ([72, 105] : List Nat).length) = some P1
      ∧ padMessage ([72, 111] ++ 0 :: []) ([72, 111] : List Nat).length
          (paddedLength ([72, 111] : List Nat).length) = some P2
      ∧ main structures.s structures.mul2 structures.mul3 structures.KeyExpansion
          ([72, 105] ++ 0 :: []) [0, 1, 2, 3, 4, 5, 6, 7, 8, 9, 10, 11, 12, 13, 14, 15]
          = some (Outcome.written C1)
      ∧ main structures.s structures.mul2 structures.mul3 structures.KeyExpansion
          ([72, 111] ++ 0 :: []) [0, 1, 2, 3, 4, 5, 6, 7, 8, 9, 10, 11, 12, 13, 14, 15]
          = some (Outcome.written C2)
      ∧ (P1.length = P2.length → ∀ k, 16 * k < P1.length →
          (P1.drop (16 * k)).take 16 = (P2.drop (16 * k)).take 16 →
          (C1.drop (16 * k)).take 16 = (C2.drop (16 * k)).take 16)
      ∧ (∀ j k, 16 * j < P1.length → 16 * k < P1.length →
          (P1.drop (16 * j)).take 16 = (P1.drop (16 * k)).take 16 →
          (C1.drop (16 * j)).take 16 = (C1.drop (16 * k)).take 16) :=
  ⟨⟨rfl, rfl, rfl, by decide, by decide, rfl, by decide, by decide⟩,
    main_ecb_block_independence structures.s structures.mul2 structures.mul3
      structures.KeyExpansion [72, 105] [] [72, 111] []
      [0, 1, 2, 3, 4, 5, 6, 7, 8, 9, 10, 11, 12, 13, 14, 15]
      rfl rfl rfl (by decide) (by decide) rfl (by decide) (by decide)⟩

/-- C5. Length invariant: for every plaintext `p` of length `n` and every 16-byte key, the
ciphertext `main` writes has the length `L` of the padded message, `L % 16 = 0`, `L ≥ n`, `L`
is `n` when `n` is a multiple of 16 and otherwise `n` rounded up to the next multiple of 16;
`L` is 0 when `p` is empty and at least 16 when `p` is not empty. -/
theorem main_length_invariant (s mul2 mul3 : List Nat) (KeyExpansion : List Nat → List Nat)
    (p rest key : List Nat) (hs : s.length = 256) (h2 : mul2.length = 256)
    (h3 : mul3.length = 256) (hp : ∀ x ∈ p, x ≠ 0) (hk : key.length = 16)
    (hkb : ∀ x ∈ key, x < 256) (hek : (KeyExpansion key).length = 176) :
    ∃ P C,
      padMessage (p ++ 0 :: rest) p.length (paddedLength p.length) = some P
      ∧ main s mul2 mul3 KeyExpansion (p ++ 0 :: rest) key = some (Outcome.written C)
      ∧ C.length = P.length
      ∧ C.length % 16 = 0
      ∧ p.length ≤ C.length
      ∧ (p.length % 16 = 0 → C.length = p.length)
      ∧ (p.length % 16 ≠ 0 → C.length = (p.length / 16 + 1) * 16
          ∧ C.length < p.length + 16)
      ∧ (p = [] → C.length = 0)
      ∧ (p ≠ [] → 16 ≤ C.length) := by
  obtain ⟨C, hmain, _, hlen⟩ := main_run s mul2 mul3 KeyExpansion p rest key
    (Nat.le_of_eq hs.symm) (Nat.le_of_eq h2.symm) (Nat.le_of_eq h3.symm) hp hk hkb
    (Nat.le_of_eq hek.symm)
  have hP := length_padded p
  have hmod := paddedLength_mod p.length
  have hge := paddedLength_ge p.length
  have hlt := paddedLength_lt p.length
  have hpos : p ≠ [] → 0 < p.length := fun h => List.length_pos.mpr h
  refine ⟨_, C, padMessage_cstring p rest, hmain, by rw [hlen, hP], by omega, by omega,
    fun h => ?_, fun h => ?_, fun h => ?_, fun h => ?_⟩
  · rw [hlen]; simp only [paddedLength]; rw [if_neg (by omega)]
  · rw [hlen]; simp only [paddedLength]; rw [if_pos h]; omega
  · subst h; rw [hlen]; rfl
  · have := hpos h; omega

set_option maxRecDepth 100000 in
/-- Witness of C5: the line `Hi` under the FIPS-197 key, with the standard tables and key
schedule. -/
theorem main_length_invariant_witness :
    (structures.s.length = 256 ∧ structures.mul2.length = 256 ∧ structures.mul3.length = 256
      ∧ (∀ x ∈ ([72, 105] : List Nat), x ≠ 0)
      ∧ ([0, 1, 2, 3, 4, 5, 6, 7, 8, 9, 10, 11, 12, 13, 14, 15] : List Nat).length = 16
      ∧ (∀ x ∈ ([0, 1, 2, 3, 4, 5, 6, 7, 8, 9, 10, 11, 12, 13, 14, 15] : List Nat), x < 256)
      ∧ (structures.KeyExpansion
          [0, 1, 2, 3, 4, 5, 6, 7, 8, 9, 10, 11, 12, 13, 14, 15]).length = 176)
    ∧ ∃ P C,
      padMessage ([72, 105] ++ 0 :: []) ([72, 105] : List Nat).length
          (paddedLength ([72, 105] : List Nat).length) = some P
      ∧ main structures.s structures.mul2 structures.mul3 structures.KeyExpansion
          ([72, 105] ++ 0 :: []) [0, 1, 2, 3, 4, 5, 6, 7, 8, 9, 10, 11, 12, 13, 14, 15]
          = some (Outcome.written C)
      ∧ C.length = P.length
      ∧ C.length % 16 = 0
      ∧ ([72, 105] : List Nat).length ≤ C.length
      ∧ (([72, 105] : List Nat).length % 16 = 0 → C.length = ([72, 105] : List Nat).length)
      ∧ (([72, 105] : List Nat).length % 16 ≠ 0 →
          C.length = (([72, 105] : List Nat).length / 16 + 1) * 16
          ∧ C.length < ([72, 105] : List Nat).length + 16)
      ∧ (([72, 105] : List Nat) = [] → C.length = 0)
      ∧ (([72, 105] : List Nat) ≠ [] → 16 ≤ C.length) :=
  ⟨⟨rfl, rfl, rfl, by decide, rfl, by decide, by decide⟩,
    main_length_invariant structures.s structures.mul2 structures.mul3
      structures.KeyExpansion [72, 105] [] [0, 1, 2, 3, 4, 5, 6, 7, 8, 9, 10, 11, 12, 13, 14, 15]
      rfl rfl rfl (by decide) rfl (by decide) (by decide)⟩

/-- C6. For every plaintext length `n`, the padded length the driver computes (`n` if
`n % 16 == 0`, otherwise `(n / 16 + 1) * 16`) is the smallest multiple of 16 that is at least
`n`: it is a multiple of 16, it is at least `n`, no multiple of 16 that is at least `n` is
smaller, and it is below `n + 16`. -/
theorem paddedLength_smallest_multiple (n : Nat) :
    paddedLength n = (if n % 16 = 0 then n else (n / 16 + 1) * 16)
    ∧ paddedLength n % 16 = 0
    ∧ n ≤ paddedLength n
    ∧ (∀ m, m % 16 = 0 → n ≤ m → paddedLength n ≤ m)
    ∧ paddedLength n < n + 16 := by
  refine ⟨?_, paddedLength_mod n, paddedLength_ge n, fun m => paddedLength_least n m,
    paddedLength_lt n⟩
  simp only [paddedLength]
  split <;> simp_all

/-- Witness of C6: the length 17 is padded to 32. -/
theorem paddedLength_smallest_multiple_witness :
    paddedLength 17 = (if 17 % 16 = 0 then 17 else (17 / 16 + 1) * 16)
    ∧ paddedLength 17 % 16 = 0
    ∧ 17 ≤ paddedLength 17
    ∧ (∀ m, m % 16 = 0 → 17 ≤ m → paddedLength 17 ≤ m)
    ∧ paddedLength 17 < 17 + 16 :=
  paddedLength_smallest_multiple 17

/-- C7. For every plaintext `p` of length `n`, the padded buffer `P` the driver builds has
`P[i] = p[i]` for every `i < n` and `P[i] = 0` for every `i` with `n ≤ i < len(P)`: `P` is `p`
followed by `len(P) - n` zero bytes, and `p` is a prefix of `P`. -/
theorem padMessage_zero_padding (p rest : List Nat) (hp : ∀ x ∈ p, x < 256) :
    ∃ P, padMessage (p ++ 0 :: rest) p.length (paddedLength p.length) = some P
      ∧ P.length = paddedLength p.length
      ∧ (∀ i, i < p.length → P[i]? = p[i]?)
      ∧ (∀ i, p.length ≤ i → i < P.length → P[i]? = some 0)
      ∧ P = p ++ List.replicate (P.length - p.length) 0
      ∧ p <+: P := by
  have hpad := padMessage_cstring p rest
  rw [map_mod_of_bytes hp] at hpad
  have hge := paddedLength_ge p.length
  have hlen : (p ++ List.replicate (paddedLength p.length - p.length) 0).length
      = paddedLength p.length := by
    rw [List.length_append, List.length_replicate]
    omega
  refine ⟨_, hpad, hlen, fun i hi => ?_, fun i h1 h2 => ?_, ?_, List.prefix_append _ _⟩
  · exact List.getElem?_append_left hi
  · rw [List.getElem?_append_right h1, List.getElem?_replicate]
    rw [hlen] at h2
    rw [if_pos (by omega)]
  · rw [hlen]

/-- Witness of C7: the line `Hi`. -/
theorem padMessage_zero_padding_witness :
    (∀ x ∈ ([72, 105] : List Nat), x < 256)
    ∧ ∃ P, padMessage ([72, 105] ++ 0 :: []) ([72, 105] : List Nat).length
          (paddedLength ([72, 105] : List Nat).length) = some P
      ∧ P.length = paddedLength ([72, 105] : List Nat).length
      ∧ (∀ i, i < ([72, 105] : List Nat).length → P[i]? = ([72, 105] : List Nat)[i]?)
      ∧ (∀ i, ([72, 105] : List Nat).length ≤ i → i < P.length → P[i]? = some 0)
      ∧ P = [72, 105] ++ List.replicate (P.length - ([72, 105] : List Nat).length) 0
      ∧ [72, 105] <+: P :=
  ⟨by decide, padMessage_zero_padding [72, 105] [] (by decide)⟩

/-- C8, as stated, fails: for the empty line `strlen` is 0, the padded length is 0 and the
padded message is empty, so its length is not a positive multiple of 16, and `main` writes an
empty ciphertext. -/
theorem padded_length_of_empty_plaintext :
    strlen [0] = some 0
    ∧ padMessage ([] ++ 0 :: []) 0 (paddedLength 0) = some []
    ∧ ¬ (0 < ([] : List Nat).length ∧ ([] : List Nat).length % 16 = 0)
    ∧ main structures.s structures.mul2 structures.mul3 structures.KeyExpansion [0]
        [0, 1, 2, 3, 4, 5, 6, 7, 8, 9, 10, 11, 12, 13, 14, 15] = some (Outcome.written []) := by
  decide

/-- C8, amended. For every plaintext, the length of the padded message is a multiple of 16;
it is greater than 0 when the plaintext is not empty, and it is 0 for the empty plaintext. -/
theorem padded_length_multiple_of_16 (p rest : List Nat) :
    ∃ P, padMessage (p ++ 0 :: rest) p.length (paddedLength p.length) = some P
      ∧ P.length % 16 = 0
      ∧ (p ≠ [] → 0 < P.length)
      ∧ (p = [] → P.length = 0) := by
  have hlen := length_padded p
  have hmod := paddedLength_mod p.length
  have hge := paddedLength_ge p.length
  refine ⟨_, padMessage_cstring p rest, by rw [hlen]; exact hmod, fun h => ?_, fun h => ?_⟩
  · have := List.length_pos.mpr h
    omega
  · subst h
    rfl

/-- Witness of the amended C8: the line `Hi`. -/
theorem padded_length_multiple_of_16_witness :
    ∃ P, padMessage ([72, 105] ++ 0 :: []) ([72, 105] : List Nat).length
          (paddedLength ([72, 105] : List Nat).length) = some P
      ∧ P.length % 16 = 0
      ∧ (([72, 105] : List Nat) ≠ [] → 0 < P.length)
      ∧ (([72, 105] : List Nat) = [] → P.length = 0) :=
  padded_length_multiple_of_16 [72, 105] []

/-- C9. `AddRoundKey` is its own inverse: for every 16-byte state `S` and every 16-byte round
key `K`, applying `AddRoundKey` with `K` twice to `S` gives back `S`. -/
theorem AddRoundKey_self_inverse (S K : List Nat) (hS : S.length = 16)
    (hSb : ∀ x ∈ S, x < 256) (hK : K.length = 16) (hKb : ∀ x ∈ K, x < 256) :
    (AddRoundKey S K).bind (fun S1 => AddRoundKey S1 K) = some S := by
  rw [AddRoundKey_eq S K hS (Nat.le_of_eq hK.symm), Option.some_bind,
    AddRoundKey_eq _ K (by rw [length_zipWith_xor S K (by omega), hS]) (Nat.le_of_eq hK.symm),
    zipWith_xor_twice S K (by omega) hSb hKb]

/-- Witness of C9: a state and a round key of 16 bytes. -/
theorem AddRoundKey_self_inverse_witness :
    (([0, 17, 34, 51, 68, 85, 102, 119, 136, 153, 170, 187, 204, 221, 238, 255] :
        List Nat).length = 16
      ∧ (∀ x ∈ ([0, 17, 34, 51, 68, 85, 102, 119, 136, 153, 170, 187, 204, 221, 238, 255] :
        List Nat), x < 256)
      ∧ ([0, 1, 2, 3, 4, 5, 6, 7, 8, 9, 10, 11, 12, 13, 14, 15] : List Nat).length = 16
      ∧ (∀ x ∈ ([0, 1, 2, 3, 4, 5, 6, 7, 8, 9, 10, 11, 12, 13, 14, 15] : List Nat), x < 256))
    ∧ (AddRoundKey [0, 17, 34, 51, 68, 85, 102, 119, 136, 153, 170, 187, 204, 221, 238, 255]
          [0, 1, 2, 3, 4, 5, 6, 7, 8, 9, 10, 11, 12, 13, 14, 15]).bind
        (fun S1 => AddRoundKey S1 [0, 1, 2, 3, 4, 5, 6, 7, 8, 9, 10, 11, 12, 13, 14, 15])
      = some [0, 17, 34, 51, 68, 85, 102, 119, 136, 153, 170, 187, 204, 221, 238, 255] :=
  ⟨⟨rfl, by decide, rfl, by decide⟩,
    AddRoundKey_self_inverse
      [0, 17, 34, 51, 68, 85, 102, 119, 136, 153, 170, 187, 204, 221, 238, 255]
      [0, 1, 2, 3, 4, 5, 6, 7, 8, 9, 10, 11, 12, 13, 14, 15] rfl (by decide) rfl (by decide)⟩

/-- C10. For every 16-byte state `S`, applying `ShiftRows` four times in a row returns `S`. -/
theorem ShiftRows_four_times (S : List Nat) (hS : S.length = 16) (hSb : ∀ x ∈ S, x < 256) :
    (((ShiftRows S).bind ShiftRows).bind ShiftRows).bind ShiftRows = some S := by
  have h0 : IsState S := ⟨hS, hSb⟩
  have e1 := ShiftRows_eq S hS
  have i1 := ShiftRows_isState hS e1
  have e2 := ShiftRows_eq _ i1.length
  have i2 := ShiftRows_isState i1.length e2
  have e3 := ShiftRows_eq _ i2.length
  have i3 := ShiftRows_isState i2.length e3
  have e4 := ShiftRows_eq _ i3.length
  rw [e1, Option.some_bind, e2, Option.some_bind, e3, Option.some_bind, e4,
    shiftRowsVal_four h0]

/-- Witness of C10: a state of 16 distinct bytes. -/
theorem ShiftRows_four_times_witness :
    (([0, 17, 34, 51, 68, 85, 102, 119, 136, 153, 170, 187, 204, 221, 238, 255] :
        List Nat).length = 16
      ∧ (∀ x ∈ ([0, 17, 34, 51, 68, 85, 102, 119, 136, 153, 170, 187, 204, 221, 238, 255] :
        List Nat), x < 256))
    ∧ (((ShiftRows [0, 17, 34, 51, 68, 85, 102, 119, 136, 153, 170, 187, 204, 221, 238, 255]).bind
        ShiftRows).bind ShiftRows).bind ShiftRows
      = some [0, 17, 34, 51, 68, 85, 102, 119, 136, 153, 170, 187, 204, 221, 238, 255] :=
  ⟨⟨rfl, by decide⟩,
    ShiftRows_four_times
      [0, 17, 34, 51, 68, 85, 102, 119, 136, 153, 170, 187, 204, 221, 238, 255] rfl (by decide)⟩


/-- C11. `ShiftRows` only repositions bytes: there is a permutation `pi` of the 16 indices
(`pi i = 5 * i mod 16`) such that for every state `S` and every index `i`,
`ShiftRows(S)[i] = S[pi i]`; the bytes of `ShiftRows(S)` are those of `S`, each as often; and
`ShiftRows` is a bijection on 16-byte states: it is injective and reaches every state. -/
theorem ShiftRows_permutes_bytes :
    ∃ pi : Fin 16 → Fin 16, Function.Bijective pi
      ∧ (∀ S : List Nat, S.length = 16 → (∀ x ∈ S, x < 256) →
          ∃ T, ShiftRows S = some T ∧ T.length = 16 ∧ (∀ x ∈ T, x < 256)
            ∧ (∀ i : Fin 16, T[i.val]? = S[(pi i).val]?) ∧ T.Perm S)
      ∧ (∀ S1 S2 : List Nat, S1.length = 16 → (∀ x ∈ S1, x < 256) → S2.length = 16 →
          (∀ x ∈ S2, x < 256) → ShiftRows S1 = ShiftRows S2 → S1 = S2)
      ∧ (∀ T : List Nat, T.length = 16 → (∀ x ∈ T, x < 256) →
          ∃ S, S.length = 16 ∧ (∀ x ∈ S, x < 256) ∧ ShiftRows S = some T) := by
  refine ⟨fun i => ⟨5 * i.val % 16, Nat.mod_lt _ (by decide)⟩, by decide, ?_, ?_, ?_⟩
  · intro S hS hSb
    have h : IsState S := ⟨hS, hSb⟩
    have hT := shiftRowsVal_isState h
    exact ⟨shiftRowsVal S, ShiftRows_eq S hS, hT.1, hT.2,
      fun i => shiftRowsVal_getElem? h i.val i.isLt, shiftRowsVal_perm h⟩
  · intro S1 S2 h1 h1b h2 h2b heq
    have i1 : IsState S1 := ⟨h1, h1b⟩
    have i2 : IsState S2 := ⟨h2, h2b⟩
    rw [ShiftRows_eq S1 h1, ShiftRows_eq S2 h2] at heq
    have hv := Option.some.inj heq
    rw [← shiftRowsVal_four i1, ← shiftRowsVal_four i2, hv]
  · intro T hT hTb
    have i0 : IsState T := ⟨hT, hTb⟩
    have i1 := shiftRowsVal_isState i0
    have i2 := shiftRowsVal_isState i1
    have i3 := shiftRowsVal_isState i2
    refine ⟨shiftRowsVal (shiftRowsVal (shiftRowsVal T)), i3.1, i3.2, ?_⟩
    rw [ShiftRows_eq _ i3.1, shiftRowsVal_four i0]

/-- C12. With the state read as a 4x4 matrix whose entry at row `r`, column `c` is byte
`4 * c + r`, `ShiftRows` rotates row `r` to the left by `r` positions: for every state `S`,
every row `r` and column `c` in `0..3`, `ShiftRows(S)[4c + r] = S[4((c + r) mod 4) + r]`; row 0
(bytes 0, 4, 8, 12) is unchanged. -/
theorem ShiftRows_rotates_rows (S : List Nat) (hS : S.length = 16) (hSb : ∀ x ∈ S, x < 256) :
    ∃ T, ShiftRows S = some T ∧ T.length = 16
      ∧ (∀ r c, r < 4 → c < 4 → T[4 * c + r]? = S[4 * ((c + r) % 4) + r]?)
      ∧ T[0]? = S[0]? ∧ T[4]? = S[4]? ∧ T[8]? = S[8]? ∧ T[12]? = S[12]? := by
  have h : IsState S := ⟨hS, hSb⟩
  have hrow : ∀ r c, r < 4 → c < 4 →
      (shiftRowsVal S)[4 * c + r]? = S[4 * ((c + r) % 4) + r]? := by
    intro r c hr hc
    rw [shiftRowsVal_getElem? h (4 * c + r) (by omega)]
    congr 1
    omega
  refine ⟨shiftRowsVal S, ShiftRows_eq S hS, (shiftRowsVal_isState h).1, hrow,
    hrow 0 0 (by decide) (by decide), hrow 0 1 (by decide) (by decide),
    hrow 0 2 (by decide) (by decide), hrow 0 3 (by decide) (by decide)⟩

/-- Witness of C12: a state of 16 distinct bytes. -/
theorem ShiftRows_rotates_rows_witness :
    (([0, 17, 34, 51, 68, 85, 102, 119, 136, 153, 170, 187, 204, 221, 238, 255] :
        List Nat).length = 16
      ∧ (∀ x ∈ ([0, 17, 34, 51, 68, 85, 102, 119, 136, 153, 170, 187, 204, 221, 238, 255] :
        List Nat), x < 256))
    ∧ ∃ T, ShiftRows [0, 17, 34, 51, 68, 85, 102, 119, 136, 153, 170, 187, 204, 221, 238, 255]
        = some T ∧ T.length = 16
      ∧ (∀ r c, r < 4 → c < 4 → T[4 * c + r]?
          = ([0, 17, 34, 51, 68, 85, 102, 119, 136, 153, 170, 187, 204, 221, 238, 255] :
              List Nat)[4 * ((c + r) % 4) + r]?)
      ∧ T[0]? = ([0, 17, 34, 51, 68, 85, 102, 119, 136, 153, 170, 187, 204, 221, 238, 255] :
          List Nat)[0]?
      ∧ T[4]? = ([0, 17, 34, 51, 68, 85, 102, 119, 136, 153, 170, 187, 204, 221, 238, 255] :
          List Nat)[4]?
      ∧ T[8]? = ([0, 17, 34, 51, 68, 85, 102, 119, 136, 153, 170, 187, 204, 221, 238, 255] :
          List Nat)[8]?
      ∧ T[12]? = ([0, 17, 34, 51, 68, 85, 102, 119, 136, 153, 170, 187, 204, 221, 238, 255] :
          List Nat)[12]? :=
  ⟨⟨rfl, by decide⟩,
    ShiftRows_rotates_rows
      [0, 17, 34, 51, 68, 85, 102, 119, 136, 153, 170, 187, 204, 221, 238, 255] rfl (by decide)⟩

/-- C13. For every state `S`, every tables `mul2` and `mul3` of 256 byte entries, every column
`c` and every row `r` in `0..3`, `MixColumns(S)[4c + r] = mul2[S[4c + r]] XOR
mul3[S[4c + (r+1) mod 4]] XOR S[4c + (r+2) mod 4] XOR S[4c + (r+3) mod 4]`: byte 0 of a column
is `mul2[in0] ^ mul3[in1] ^ in2 ^ in3`, bytes 1, 2, 3 are that pattern rotated, and output
column `c` depends only on input column `c`. -/
theorem MixColumns_formula (S mul2 mul3 : List Nat) (hS : S.length = 16)
    (hSb : ∀ x ∈ S, x < 256) (h2 : mul2.length = 256) (h2b : ∀ x ∈ mul2, x < 256)
    (h3 : mul3.length = 256) (h3b : ∀ x ∈ mul3, x < 256) :
    ∃ T, MixColumns mul2 mul3 S = some T ∧ T.length = 16
      ∧ (∀ c r, c < 4 → r < 4 →
          T[4 * c + r]?
            = some (mul2.getD (S.getD (4 * c + r) 0) 0
                ^^^ mul3.getD (S.getD (4 * c + (r + 1) % 4) 0) 0
                ^^^ S.getD (4 * c + (r + 2) % 4) 0 ^^^ S.getD (4 * c + (r + 3) % 4) 0))
      ∧ (∀ c, c < 4 →
          T[4 * c]?
            = some (mul2.getD (S.getD (4 * c) 0) 0 ^^^ mul3.getD (S.getD (4 * c + 1) 0) 0
                ^^^ S.getD (4 * c + 2) 0 ^^^ S.getD (4 * c + 3) 0))
      ∧ (∀ S1 : List Nat, S1.length = 16 → (∀ x ∈ S1, x < 256) → ∀ c, c < 4 →
          (∀ r, r < 4 → S1[4 * c + r]? = S[4 * c + r]?) →
          ∃ T1, MixColumns mul2 mul3 S1 = some T1
            ∧ ∀ r, r < 4 → T1[4 * c + r]? = T[4 * c + r]?) := by
  have h : IsState S := ⟨hS, hSb⟩
  have hform := mixColumnsVal_getElem? h h2b h3b
  have he := MixColumns_eq mul2 mul3 S hS (h.covered (Nat.le_of_eq h2.symm))
    (h.covered (Nat.le_of_eq h3.symm))
  refine ⟨mixColumnsVal mul2 mul3 S, he, (MixColumns_isState hS he).1, hform,
    fun c hc => hform c 0 hc (by decide), fun S1 hS1 hS1b c hc hcol => ?_⟩
  have h1 : IsState S1 := ⟨hS1, hS1b⟩
  have he1 := MixColumns_eq mul2 mul3 S1 hS1 (h1.covered (Nat.le_of_eq h2.symm))
    (h1.covered (Nat.le_of_eq h3.symm))
  refine ⟨mixColumnsVal mul2 mul3 S1, he1, fun r hr => ?_⟩
  rw [mixColumnsVal_getElem? h1 h2b h3b c r hc hr, hform c r hc hr,
    getD_congr_of_getElem? (hcol r hr),
    getD_congr_of_getElem? (hcol ((r + 1) % 4) (Nat.mod_lt _ (by decide))),
    getD_congr_of_getElem? (hcol ((r + 2) % 4) (Nat.mod_lt _ (by decide))),
    getD_congr_of_getElem? (hcol ((r + 3) % 4) (Nat.mod_lt _ (by decide)))]

set_option maxRecDepth 100000 in
/-- Witness of C13: a state of 16 distinct bytes with the standard tables. -/
theorem MixColumns_formula_witness :
    (([0, 17, 34, 51, 68, 85, 102, 119, 136, 153, 170, 187, 204, 221, 238, 255] :
        List Nat).length = 16
      ∧ (∀ x ∈ ([0, 17, 34, 51, 68, 85, 102, 119, 136, 153, 170, 187, 204, 221, 238, 255] :
        List Nat), x < 256)
      ∧ structures.mul2.length = 256 ∧ (∀ x ∈ structures.mul2, x < 256)
      ∧ structures.mul3.length = 256 ∧ (∀ x ∈ structures.mul3, x < 256))
    ∧ ∃ T, MixColumns structures.mul2 structures.mul3
        [0, 17, 34, 51, 68, 85, 102, 119, 136, 153, 170, 187, 204, 221, 238, 255] = some T
      ∧ T.length = 16
      ∧ (∀ c r, c < 4 → r < 4 →
          T[4 * c + r]?
            = some (structures.mul2.getD
                  (([0, 17, 34, 51, 68, 85, 102, 119, 136, 153, 170, 187, 204, 221, 238, 255] :
                    List Nat).getD (4 * c + r) 0) 0
                ^^^ structures.mul3.getD
                  (([0, 17, 34, 51, 68, 85, 102, 119, 136, 153, 170, 187, 204, 221, 238, 255] :
                    List Nat).getD (4 * c + (r + 1) % 4) 0) 0
                ^^^ ([0, 17, 34, 51, 68, 85, 102, 119, 136, 153, 170, 187, 204, 221, 238, 255] :
                    List Nat).getD (4 * c + (r + 2) % 4) 0
                ^^^ ([0, 17, 34, 51, 68, 85, 102, 119, 136, 153, 170, 187, 204, 221, 238, 255] :
                    List Nat).getD (4 * c + (r + 3) % 4) 0))
      ∧ (∀ c, c < 4 →
          T[4 * c]?
            = some (structures.mul2.getD
                  (([0, 17, 34, 51, 68, 85, 102, 119, 136, 153, 170, 187, 204, 221, 238, 255] :
                    List Nat).getD (4 * c) 0) 0
                ^^^ structures.mul3.getD
                  (([0, 17, 34, 51, 68, 85, 102, 119, 136, 153, 170, 187, 204, 221, 238, 255] :
                    List Nat).getD (4 * c + 1) 0) 0
                ^^^ ([0, 17, 34, 51, 68, 85, 102, 119, 136, 153, 170, 187, 204, 221, 238, 255] :
                    List Nat).getD (4 * c + 2) 0
                ^^^ ([0, 17, 34, 51, 68, 85, 102, 119, 136, 153, 170, 187, 204, 221, 238, 255] :
                    List Nat).getD (4 * c + 3) 0))
      ∧ (∀ S1 : List Nat, S1.length = 16 → (∀ x ∈ S1, x < 256) → ∀ c, c < 4 →
          (∀ r, r < 4 → S1[4 * c + r]?
            = ([0, 17, 34, 51, 68, 85, 102, 119, 136, 153, 170, 187, 204, 221, 238, 255] :
                List Nat)[4 * c + r]?) →
          ∃ T1, MixColumns structures.mul2 structures.mul3 S1 = some T1
            ∧ ∀ r, r < 4 → T1[4 * c + r]? = T[4 * c + r]?) :=
  ⟨⟨rfl, by decide, rfl, by decide, rfl, by decide⟩,
    MixColumns_formula
      [0, 17, 34, 51, 68, 85, 102, 119, 136, 153, 170, 187, 204, 221, 238, 255]
      structures.mul2 structures.mul3 rfl (by decide) rfl (by decide) rfl (by decide)⟩

set_option maxRecDepth 100000 in
/-- C14. The key check of `main` lets an over-long key through, against the rule that a key
input of other than 16 values is rejected.  On the line `Hi` with a key line of 17 hex values
the run does not end in the key error: it writes the ciphertext of the key made of the first 16
values, the same as for the line of those 16 values alone.  A key line of 15 values is rejected,
as the rule requires. -/
theorem main_accepts_seventeen_key_values :
    main structures.s structures.mul2 structures.mul3 structures.KeyExpansion [72, 105, 0]
        [0, 1, 2, 3, 4, 5, 6, 7, 8, 9, 10, 11, 12, 13, 14, 15, 16]
      = some (Outcome.written [0x65, 0x4b, 0x86, 0xa4, 0x95, 0xd2, 0x6f, 0x80, 0x77, 0x96, 0x39,
          0x7c, 0x27, 0x2a, 0x9f, 0x64])
    ∧ main structures.s structures.mul2 structures.mul3 structures.KeyExpansion [72, 105, 0]
        [0, 1, 2, 3, 4, 5, 6, 7, 8, 9, 10, 11, 12, 13, 14, 15, 16]
      = main structures.s structures.mul2 structures.mul3 structures.KeyExpansion [72, 105, 0]
        [0, 1, 2, 3, 4, 5, 6, 7, 8, 9, 10, 11, 12, 13, 14, 15]
    ∧ main structures.s structures.mul2 structures.mul3 structures.KeyExpansion [72, 105, 0]
        [0, 1, 2, 3, 4, 5, 6, 7, 8, 9, 10, 11, 12, 13, 14]
      = some (Outcome.keyError 15) :=
  ⟨by decide,
    main_long_key structures.s structures.mul2 structures.mul3 structures.KeyExpansion
      [72, 105, 0] [0, 1, 2, 3, 4, 5, 6, 7, 8, 9, 10, 11, 12, 13, 14, 15, 16] (by decide),
    by decide⟩

/-- The key check of `main` on every input line and key line.  With fewer than 16 values the
run ends in the key error, whatever the tables and the key schedule are (they are not reached),
and no ciphertext is written.  With more than 16 values the count `i` stops at 16, because
`i++` stands inside the guard `if (i < 16)`: the test `i != 16` passes, the run never ends in the
key error and is that of the first 16 values. -/
theorem main_key_length_check (s mul2 mul3 : List Nat) (KeyExpansion : List Nat → List Nat)
    (p rest kv : List Nat) (hp : ∀ x ∈ p, x ≠ 0) :
    (kv.length < 16 →
      main s mul2 mul3 KeyExpansion (p ++ 0 :: rest) kv = some (Outcome.keyError kv.length))
    ∧ (16 < kv.length →
      main s mul2 mul3 KeyExpansion (p ++ 0 :: rest) kv
          = main s mul2 mul3 KeyExpansion (p ++ 0 :: rest) (kv.take 16)
        ∧ ∀ n, main s mul2 mul3 KeyExpansion (p ++ 0 :: rest) kv
            ≠ some (Outcome.keyError n)) := by
  refine ⟨fun hk => main_short_key s mul2 mul3 KeyExpansion p rest kv hp hk, fun hk => ?_⟩
  have hlong := main_long_key s mul2 mul3 KeyExpansion (p ++ 0 :: rest) kv (Nat.le_of_lt hk)
  refine ⟨hlong, fun n hn => ?_⟩
  rw [hlong, main_eq s mul2 mul3 KeyExpansion p rest (kv.take 16) hp (by simp; omega)] at hn
  obtain ⟨c, _, hc⟩ := Option.map_eq_some'.mp hn
  cases hc

/-- The key check on the line `Hi` with a key line of 15 values, with the tables and the key
schedule of the source. -/
theorem main_key_length_check_witness :
    (∀ x ∈ ([72, 105] : List Nat), x ≠ 0)
    ∧ ((([0, 1, 2, 3, 4, 5, 6, 7, 8, 9, 10, 11, 12, 13, 14] : List Nat).length < 16 →
        main structures.s structures.mul2 structures.mul3 structures.KeyExpansion
            ([72, 105] ++ 0 :: []) [0, 1, 2, 3, 4, 5, 6, 7, 8, 9, 10, 11, 12, 13, 14]
          = some (Outcome.keyError
              ([0, 1, 2, 3, 4, 5, 6, 7, 8, 9, 10, 11, 12, 13, 14] : List Nat).length))
      ∧ (16 < ([0, 1, 2, 3, 4, 5, 6, 7, 8, 9, 10, 11, 12, 13, 14] : List Nat).length →
        main structures.s structures.mul2 structures.mul3 structures.KeyExpansion
            ([72, 105] ++ 0 :: []) [0, 1, 2, 3, 4, 5, 6, 7, 8, 9, 10, 11, 12, 13, 14]
          = main structures.s structures.mul2 structures.mul3 structures.KeyExpansion
            ([72, 105] ++ 0 :: [])
            (([0, 1, 2, 3, 4, 5, 6, 7, 8, 9, 10, 11, 12, 13, 14] : List Nat).take 16)
        ∧ ∀ n, main structures.s structures.mul2 structures.mul3 structures.KeyExpansion
            ([72, 105] ++ 0 :: []) [0, 1, 2, 3, 4, 5, 6, 7, 8, 9, 10, 11, 12, 13, 14]
          ≠ some (Outcome.keyError n))) :=
  ⟨by decide,
    main_key_length_check structures.s structures.mul2 structures.mul3 structures.KeyExpansion
      [72, 105] [] [0, 1, 2, 3, 4, 5, 6, 7, 8, 9, 10, 11, 12, 13, 14] (by decide)⟩

/-- C15. Zero padding is ambiguous on byte sequences: padding is idempotent,
`pad(pad(p)) = pad(p)` for every byte sequence `p`; when the length of `p` is not a multiple
of 16, `p` and `pad(p)` are distinct, `pad(p)` has a length that is a multiple of 16 and ends in
a zero byte, and the run of `main` from the length on is the same for both under every key and
all tables, so the message-level encryption is not injective.  With `strlen` in front, the line
`pad(p)` is even read as the line `p`. -/
theorem zero_padding_ambiguous (p rest rest1 : List Nat) (hp : ∀ x ∈ p, x < 256) :
    ∃ P, padMessage (p ++ rest) p.length (paddedLength p.length) = some P
      ∧ padMessage (P ++ rest1) P.length (paddedLength P.length) = some P
      ∧ (p.length % 16 ≠ 0 → p ≠ P ∧ P.length % 16 = 0 ∧ P.getLast? = some 0)
      ∧ (∀ (s mul2 mul3 : List Nat) (KeyExpansion : List Nat → List Nat) (kv : List Nat),
          mainFrom s mul2 mul3 KeyExpansion (p ++ rest) p.length kv
            = mainFrom s mul2 mul3 KeyExpansion (P ++ rest1) P.length kv)
      ∧ ((∀ x ∈ p, x ≠ 0) →
          ∀ (s mul2 mul3 : List Nat) (KeyExpansion : List Nat → List Nat) (kv : List Nat),
            main s mul2 mul3 KeyExpansion (p ++ 0 :: rest) kv
              = main s mul2 mul3 KeyExpansion (P ++ 0 :: rest1) kv) := by
  have hpad := padMessage_bytes p rest hp
  have hlen := length_append_zeros p
  have hPb := bytes_append_zeros hp (paddedLength p.length - p.length)
  have hpad2 := padMessage_bytes (p ++ List.replicate (paddedLength p.length - p.length) 0)
    rest1 hPb
  rw [hlen, paddedLength_idem, Nat.sub_self, List.replicate_zero, List.append_nil] at hpad2
  have hlt := paddedLength_lt p.length
  have hge := paddedLength_ge p.length
  have hmod := paddedLength_mod p.length
  refine ⟨_, hpad, by rw [hlen, paddedLength_idem]; exact hpad2, fun hne => ⟨?_, ?_, ?_⟩,
    fun s mul2 mul3 KeyExpansion kv => ?_, fun hnz s mul2 mul3 KeyExpansion kv => ?_⟩
  · intro heq
    have := congrArg List.length heq
    rw [hlen] at this
    omega
  · rw [hlen]
    exact hmod
  · have hk : paddedLength p.length - p.length
        = (paddedLength p.length - p.length - 1) + 1 := by omega
    rw [hk, List.replicate_succ', ← List.append_assoc, List.getLast?_append]
    rfl
  · unfold mainFrom
    dsimp only
    rw [hlen, paddedLength_idem, hpad, hpad2]
  · rw [main_eq_mainFrom, main_eq_mainFrom, strlen_append_zero p rest hnz]
    have hs2 : strlen ((p ++ List.replicate (paddedLength p.length - p.length) 0) ++ 0 :: rest1)
        = some p.length := by
      have := strlen_append_zero p
        (List.replicate (paddedLength p.length - p.length) 0 ++ rest1) hnz
      rw [List.append_assoc]
      by_cases hz : paddedLength p.length - p.length = 0
      · rw [hz, List.replicate_zero, List.nil_append]
        exact strlen_append_zero p rest1 hnz
      · have hk : paddedLength p.length - p.length
            = (paddedLength p.length - p.length - 1) + 1 := by omega
        rw [hk, List.replicate_succ, List.cons_append]
        exact strlen_append_zero p _ hnz
    rw [hs2, Option.some_bind, Option.some_bind]
    unfold mainFrom
    have e1 := padMessage_eq (p ++ 0 :: rest) p.length (paddedLength p.length) (by simp) hge
    have e2 := padMessage_eq
      ((p ++ List.replicate (paddedLength p.length - p.length) 0) ++ 0 :: rest1) p.length
      (paddedLength p.length) (by simp) hge
    rw [List.take_left' rfl] at e1
    rw [List.append_assoc, List.take_left' rfl] at e2
    dsimp only
    rw [e1, List.append_assoc, e2]

/-- Witness of C15: the byte sequence `Hi`. -/
theorem zero_padding_ambiguous_witness :
    (∀ x ∈ ([72, 105] : List Nat), x < 256)
    ∧ ∃ P, padMessage ([72, 105] ++ []) ([72, 105] : List Nat).length
          (paddedLength ([72, 105] : List Nat).length) = some P
      ∧ padMessage (P ++ []) P.length (paddedLength P.length) = some P
      ∧ (([72, 105] : List Nat).length % 16 ≠ 0 →
          [72, 105] ≠ P ∧ P.length % 16 = 0 ∧ P.getLast? = some 0)
      ∧ (∀ (s mul2 mul3 : List Nat) (KeyExpansion : List Nat → List Nat) (kv : List Nat),
          mainFrom s mul2 mul3 KeyExpansion ([72, 105] ++ []) ([72, 105] : List Nat).length kv
            = mainFrom s mul2 mul3 KeyExpansion (P ++ []) P.length kv)
      ∧ ((∀ x ∈ ([72, 105] : List Nat), x ≠ 0) →
          ∀ (s mul2 mul3 : List Nat) (KeyExpansion : List Nat → List Nat) (kv : List Nat),
            main s mul2 mul3 KeyExpansion ([72, 105] ++ 0 :: []) kv
              = main s mul2 mul3 KeyExpansion (P ++ 0 :: []) kv) :=
  ⟨by decide, zero_padding_ambiguous [72, 105] [] [] (by decide)⟩

/-- C16. The message driver never hands the block cipher a short block: for every plaintext
length `n`, the offsets the block loop visits are `0, 16, 32, ...` below the padded length `L`,
each with `i + 16 ≤ L`, so that every 16-byte read window of the padded buffer and write window
of the output buffer is in bounds; the windows are pairwise disjoint, they cover exactly
`[0, L)`, and the loop runs exactly `L / 16` times.  The block loop of `main` is the sequence
of the calls of `AESEncrypt` at these offsets. -/
theorem block_loop_windows (n : Nat) :
    blockOffsets (paddedLength n) (paddedLength n + 1) 0
        = (List.range (paddedLength n / 16)).map (fun k => 16 * k)
    ∧ (blockOffsets (paddedLength n) (paddedLength n + 1) 0).length = paddedLength n / 16
    ∧ (∀ i ∈ blockOffsets (paddedLength n) (paddedLength n + 1) 0, i + 16 ≤ paddedLength n)
    ∧ (∀ (padded enc : List Nat), padded.length = paddedLength n →
        enc.length = paddedLength n →
        ∀ i ∈ blockOffsets (paddedLength n) (paddedLength n + 1) 0,
          ((padded.drop i).take 16).length = 16 ∧ ((enc.drop i).take 16).length = 16)
    ∧ (blockOffsets (paddedLength n) (paddedLength n + 1) 0).Pairwise (fun i j => i + 16 ≤ j)
    ∧ (∀ x, x < paddedLength n ↔
        ∃ i ∈ blockOffsets (paddedLength n) (paddedLength n + 1) 0, i ≤ x ∧ x < i + 16)
    ∧ (∀ (s mul2 mul3 padded ek enc : List Nat),
        encryptBlocks s mul2 mul3 padded ek (paddedLength n) (paddedLength n + 1) 0 enc
          = (blockOffsets (paddedLength n) (paddedLength n + 1) 0).foldlM
              (fun enc i => (AESEncrypt s mul2 mul3 (padded.drop i) ek (enc.drop i)).map
                (fun out => enc.take i ++ out)) enc) := by
  have hmod := paddedLength_mod n
  have hoff := blockOffsets_eq (paddedLength n) (paddedLength n / 16) (paddedLength n + 1) 0
    (by omega) (by omega)
  have hoff2 : blockOffsets (paddedLength n) (paddedLength n + 1) 0
      = (List.range (paddedLength n / 16)).map (fun k => 16 * k) := by
    rw [hoff]
    apply List.map_congr_left
    intro j _
    omega
  have hmem : ∀ i ∈ blockOffsets (paddedLength n) (paddedLength n + 1) 0,
      i + 16 ≤ paddedLength n := by
    intro i hi
    rw [hoff2] at hi
    obtain ⟨k, hk, rfl⟩ := List.mem_map.mp hi
    have := List.mem_range.mp hk
    omega
  refine ⟨hoff2, by rw [hoff2]; simp, hmem, fun padded enc hp he i hi => ?_, ?_, fun x => ?_,
    fun s mul2 mul3 padded ek enc =>
      encryptBlocks_eq_foldlM s mul2 mul3 padded ek (paddedLength n) (paddedLength n) 0 enc
        (by omega)⟩
  · have := hmem i hi
    simp only [List.length_take, List.length_drop, hp, he]
    omega
  · rw [hoff2, List.pairwise_map]
    have hlt : (List.range (paddedLength n / 16)).Pairwise (fun a b => a < b) :=
      List.pairwise_lt_range _
    exact hlt.imp (fun {a b} hab => by omega)
  · constructor
    · intro hx
      refine ⟨16 * (x / 16), ?_, by omega, by omega⟩
      rw [hoff2]
      exact List.mem_map.mpr ⟨x / 16, List.mem_range.mpr (by omega), rfl⟩
    · rintro ⟨i, hi, _, h2⟩
      have := hmem i hi
      omega

/-- Witness of C16: the plaintext length 17, padded to 32, with the two offsets 0 and 16. -/
theorem block_loop_windows_witness :
    blockOffsets (paddedLength 17) (paddedLength 17 + 1) 0 = [0, 16]
    ∧ (blockOffsets (paddedLength 17) (paddedLength 17 + 1) 0).length = paddedLength 17 / 16
    ∧ (∀ i ∈ blockOffsets (paddedLength 17) (paddedLength 17 + 1) 0,
        i + 16 ≤ paddedLength 17) :=
  ⟨by decide, (block_loop_windows 17).2.1, (block_loop_windows 17).2.2.1⟩

/-- C17: for a block of 16 bytes and an expanded key of 176 bytes (tables of 256 entries, an
output buffer of 16 bytes) `AESEncrypt` returns a value, so no load or store falls outside its
buffer. The run is the initial `AddRoundKey` on the key view at offset `16 * 0`, the nine calls
of `Round` on the views at `16 * (i + 1)`, and `FinalRound` on the view at `16 * 10`; a round
touches the key only in its `AddRoundKey`, which on the view at offset `16 * k` XORs the state
with the key bytes `16 * k .. 16 * k + 15` and fails when the key ends before index
`16 * k + 15`. Every index below 176 lies in the window of exactly one round, the largest index
is 175, and on a key shorter than 176 bytes `AESEncrypt` fails. -/
theorem AESEncrypt_key_reads_in_bounds (s mul2 mul3 m ek out : List Nat) (hm : IsState m)
    (hek : ek.length = 176) (hs : s.length = 256) (h2 : mul2.length = 256)
    (h3 : mul3.length = 256) (ho : out.length = 16) :
    (∃ c, AESEncrypt s mul2 mul3 m ek out = some c ∧ IsState c)
    ∧ AESEncrypt s mul2 mul3 m ek out
        = ((AddRoundKey m (ek.drop (16 * 0))).bind fun st =>
            (forLoop (fun i st => Round s mul2 mul3 st (ek.drop (16 * (i + 1)))) 9 0 st).bind
              fun st => FinalRound s st (ek.drop (16 * 10)))
    ∧ (∀ st key, Round s mul2 mul3 st key
        = (((SubBytes s st).bind ShiftRows).bind (MixColumns mul2 mul3)).bind
            fun x => AddRoundKey x key)
    ∧ (∀ st key, FinalRound s st key
        = ((SubBytes s st).bind ShiftRows).bind fun x => AddRoundKey x key)
    ∧ (∀ k, k ≤ 10 → ∀ st : List Nat, st.length = 16 →
        AddRoundKey st (ek.drop (16 * k))
          = some (List.zipWith (fun x b => (x ^^^ b) % 256) st
              ((List.range 16).map (fun j => ek.getD (16 * k + j) 0))))
    ∧ (∀ k, k ≤ 10 → ∀ key st : List Nat, st.length = 16 → key.length < 16 * k + 16 →
        AddRoundKey st (key.drop (16 * k)) = none)
    ∧ (∀ i, i < 176 → ∃! k, k ≤ 10 ∧ 16 * k ≤ i ∧ i < 16 * k + 16)
    ∧ (∀ k, k ≤ 10 → ∀ j, j < 16 → 16 * k + j < ek.length ∧ 16 * k + j ≤ 175)
    ∧ 16 * 10 + 15 = 175
    ∧ (∀ key : List Nat, key.length < 176 → AESEncrypt s mul2 mul3 m key out = none) := by
  refine ⟨?_, ?_, ?_, ?_, ?_, ?_, ?_, ?_, rfl, ?_⟩
  · rw [AESEncrypt_block s mul2 mul3 m ek out hm ho]
    exact encryptState_total hm (Nat.le_of_eq hs.symm) (Nat.le_of_eq h2.symm)
      (Nat.le_of_eq h3.symm) (Nat.le_of_eq hek.symm)
  · rw [AESEncrypt_block s mul2 mul3 m ek out hm ho, encryptState_rounds]
  · intro st key
    unfold Round
    simp only [Option.bind_eq_bind, Option.bind_assoc]
  · intro st key
    unfold FinalRound
    simp only [Option.bind_eq_bind, Option.bind_assoc]
  · intro k hk st hst
    exact AddRoundKey_window st ek (16 * k) hst (by omega)
  · intro k _ key st hst hlen
    exact AddRoundKey_short hst (by rw [List.length_drop]; omega)
  · intro i hi
    refine ⟨i / 16, ⟨by omega, by omega, by omega⟩, ?_⟩
    rintro k ⟨_, hk1, hk2⟩
    omega
  · intro k hk j hj
    omega
  · intro key hkey
    rw [AESEncrypt_block s mul2 mul3 m key out hm ho]
    cases hr : encryptState s mul2 mul3 key m with
    | none => rfl
    | some c =>
      have := encryptState_some_length hm.length hr
      omega

set_option maxRecDepth 100000 in
theorem AESEncrypt_key_reads_in_bounds_witness :
    ∃ c, AESEncrypt structures.s structures.mul2 structures.mul3
        [0x00, 0x11, 0x22, 0x33, 0x44, 0x55, 0x66, 0x77, 0x88, 0x99, 0xaa, 0xbb, 0xcc, 0xdd,
          0xee, 0xff]
        (structures.KeyExpansion
          [0x00, 0x01, 0x02, 0x03, 0x04, 0x05, 0x06, 0x07, 0x08, 0x09, 0x0a, 0x0b, 0x0c, 0x0d,
            0x0e, 0x0f])
        (List.replicate 16 0) = some c ∧ IsState c :=
  (AESEncrypt_key_reads_in_bounds structures.s structures.mul2 structures.mul3
    [0x00, 0x11, 0x22, 0x33, 0x44, 0x55, 0x66, 0x77, 0x88, 0x99, 0xaa, 0xbb, 0xcc, 0xdd,
      0xee, 0xff]
    (structures.KeyExpansion
      [0x00, 0x01, 0x02, 0x03, 0x04, 0x05, 0x06, 0x07, 0x08, 0x09, 0x0a, 0x0b, 0x0c, 0x0d,
        0x0e, 0x0f])
    (List.replicate 16 0) ⟨by decide, by decide⟩ (by decide) (by decide) (by decide)
    (by decide) (by decide)).1

/-- C18: with the S-box and the multiply-by-2 and multiply-by-3 tables of the source (the
standard ones, by `structures_s_eq`, `structures_mul2_eq`, `structures_mul3_eq`) and an
expanded key of 176 bytes, `AESEncrypt` is injective on 16-byte blocks: two blocks with the same
result are the same block. Every block has a ciphertext block, and every 16-byte block is the
ciphertext of exactly one block, so block encryption is a bijection of the 16-byte blocks. The
result of `AESEncrypt` is the ciphertext block followed by the bytes of the output view after
the sixteenth. -/
theorem AESEncrypt_injective (ek out : List Nat) (hek : ek.length = 176)
    (hekb : ∀ x ∈ ek, x < 256) (ho : 16 ≤ out.length) :
    (∀ m1 m2, IsState m1 → IsState m2 →
      AESEncrypt structures.s structures.mul2 structures.mul3 m1 ek out
        = AESEncrypt structures.s structures.mul2 structures.mul3 m2 ek out → m1 = m2)
    ∧ (∀ m, IsState m → ∃ c, IsState c
        ∧ AESEncrypt structures.s structures.mul2 structures.mul3 m ek out
            = some (c ++ out.drop 16))
    ∧ (∀ c, IsState c → ∃ m, IsState m
        ∧ AESEncrypt structures.s structures.mul2 structures.mul3 m ek out
            = some (c ++ out.drop 16)
        ∧ ∀ m1, IsState m1 →
            AESEncrypt structures.s structures.mul2 structures.mul3 m1 ek out
              = some (c ++ out.drop 16) → m1 = m) := by
  have hk : 176 ≤ ek.length := Nat.le_of_eq hek.symm
  have htot : ∀ m, IsState m → ∃ c,
      encryptState structures.s structures.mul2 structures.mul3 ek m = some c ∧ IsState c :=
    fun m hm => encryptState_total hm (Nat.le_of_eq structures_s_length.symm)
      (Nat.le_of_eq structures_mul2_length.symm) (Nat.le_of_eq structures_mul3_length.symm) hk
  have hinj : ∀ m1 m2, IsState m1 → IsState m2 →
      AESEncrypt structures.s structures.mul2 structures.mul3 m1 ek out
        = AESEncrypt structures.s structures.mul2 structures.mul3 m2 ek out → m1 = m2 := by
    intro m1 m2 h1 h2 h
    obtain ⟨c1, e1, _⟩ := htot m1 h1
    obtain ⟨c2, e2, _⟩ := htot m2 h2
    rw [AESEncrypt_state _ _ _ m1 ek out h1 ho, AESEncrypt_state _ _ _ m2 ek out h2 ho, e1, e2,
      Option.map_some', Option.map_some', Option.some.injEq] at h
    have e : c1 = c2 := List.append_cancel_right h
    exact encryptState_inj hk hekb h1 h2 (by rw [e1, e2, e])
  refine ⟨hinj, ?_, ?_⟩
  · intro m hm
    obtain ⟨c, e, hc⟩ := htot m hm
    exact ⟨c, hc, by rw [AESEncrypt_state _ _ _ m ek out hm ho, e, Option.map_some']⟩
  · intro c hc
    obtain ⟨m, hm, e⟩ := encryptState_surj hk hekb hc
    have em : AESEncrypt structures.s structures.mul2 structures.mul3 m ek out
        = some (c ++ out.drop 16) := by
      rw [AESEncrypt_state _ _ _ m ek out hm ho, e, Option.map_some']
    exact ⟨m, hm, em, fun m1 h1 e1 => hinj m1 m h1 hm (by rw [e1, em])⟩

set_option maxRecDepth 100000 in
theorem AESEncrypt_injective_witness :
    ∃ m, IsState m
      ∧ AESEncrypt structures.s structures.mul2 structures.mul3 m
          (structures.KeyExpansion
            [0x00, 0x01, 0x02, 0x03, 0x04, 0x05, 0x06, 0x07, 0x08, 0x09, 0x0a, 0x0b, 0x0c,
              0x0d, 0x0e, 0x0f])
          (List.replicate 16 0)
        = some ([0x69, 0xc4, 0xe0, 0xd8, 0x6a, 0x7b, 0x04, 0x30, 0xd8, 0xcd, 0xb7, 0x80, 0x70,
            0xb4, 0xc5, 0x5a] ++ (List.replicate 16 0).drop 16)
      ∧ ∀ m1, IsState m1 →
          AESEncrypt structures.s structures.mul2 structures.mul3 m1
            (structures.KeyExpansion
              [0x00, 0x01, 0x02, 0x03, 0x04, 0x05, 0x06, 0x07, 0x08, 0x09, 0x0a, 0x0b, 0x0c,
                0x0d, 0x0e, 0x0f])
            (List.replicate 16 0)
          = some ([0x69, 0xc4, 0xe0, 0xd8, 0x6a, 0x7b, 0x04, 0x30, 0xd8, 0xcd, 0xb7, 0x80,
              0x70, 0xb4, 0xc5, 0x5a] ++ (List.replicate 16 0).drop 16) → m1 = m :=
  (AESEncrypt_injective
    (structures.KeyExpansion
      [0x00, 0x01, 0x02, 0x03, 0x04, 0x05, 0x06, 0x07, 0x08, 0x09, 0x0a, 0x0b, 0x0c, 0x0d,
        0x0e, 0x0f])
    (List.replicate 16 0) (by decide) (by decide) (by decide)).2.2
    [0x69, 0xc4, 0xe0, 0xd8, 0x6a, 0x7b, 0x04, 0x30, 0xd8, 0xcd, 0xb7, 0x80, 0x70, 0xb4, 0xc5,
      0x5a] ⟨by decide, by decide⟩

/-- C19. On the inputs the program can receive, padding is reversible.  The message length is
the value of `strlen`, so the plaintext, the bytes before the first zero byte of the buffer,
holds no zero byte.  For every two plaintexts `p`, `q` of non-zero bytes, `pad(p) = pad(q)`
implies `p = q`: `p` is the run of bytes of `pad(p)` before its first zero byte, all of
`pad(p)` if it has none. -/
theorem padding_reversible_without_zero_byte (p q rest1 rest2 : List Nat)
    (hp : ∀ x ∈ p, x ≠ 0 ∧ x < 256) (hq : ∀ x ∈ q, x ≠ 0 ∧ x < 256) :
    strlen (p ++ 0 :: rest1) = some p.length
    ∧ (∀ (message : List Nat) (n : Nat), strlen message = some n →
        ∀ x ∈ message.take n, x ≠ 0)
    ∧ (∃ P, padMessage (p ++ 0 :: rest1) p.length (paddedLength p.length) = some P
        ∧ P.takeWhile (fun x => x != 0) = p)
    ∧ (padMessage (p ++ 0 :: rest1) p.length (paddedLength p.length)
          = padMessage (q ++ 0 :: rest2) q.length (paddedLength q.length) → p = q) := by
  have hpz : ∀ x ∈ p, x ≠ 0 := fun x hx => (hp x hx).1
  have hqz : ∀ x ∈ q, x ≠ 0 := fun x hx => (hq x hx).1
  have ep := padMessage_bytes p (0 :: rest1) (fun x hx => (hp x hx).2)
  have eq := padMessage_bytes q (0 :: rest2) (fun x hx => (hq x hx).2)
  refine ⟨strlen_append_zero p rest1 hpz, fun message n h => (strlen_spec message n h).2.2,
    ⟨_, ep, takeWhile_append_zeros p _ hpz⟩, fun h => ?_⟩
  rw [ep, eq] at h
  have h2 := congrArg (List.takeWhile (fun x => x != 0)) (Option.some.inj h)
  rw [takeWhile_append_zeros p _ hpz, takeWhile_append_zeros q _ hqz] at h2
  exact h2

/-- Witness of C19: the lines `Hi` and `Ho`. -/
theorem padding_reversible_without_zero_byte_witness :
    ((∀ x ∈ ([72, 105] : List Nat), x ≠ 0 ∧ x < 256)
      ∧ (∀ x ∈ ([72, 111] : List Nat), x ≠ 0 ∧ x < 256))
    ∧ (strlen ([72, 105] ++ 0 :: []) = some ([72, 105] : List Nat).length
      ∧ (∀ (message : List Nat) (n : Nat), strlen message = some n →
          ∀ x ∈ message.take n, x ≠ 0)
      ∧ (∃ P, padMessage ([72, 105] ++ 0 :: []) ([72, 105] : List Nat).length
            (paddedLength ([72, 105] : List Nat).length) = some P
          ∧ P.takeWhile (fun x => x != 0) = [72, 105])
      ∧ (padMessage ([72, 105] ++ 0 :: []) ([72, 105] : List Nat).length
            (paddedLength ([72, 105] : List Nat).length)
          = padMessage ([72, 111] ++ 0 :: []) ([72, 111] : List Nat).length
            (paddedLength ([72, 111] : List Nat).length) → [72, 105] = [72, 111])) :=
  ⟨⟨by decide, by decide⟩,
    padding_reversible_without_zero_byte [72, 105] [72, 111] [] [] (by decide) (by decide)⟩

/-- C20. `SubBytes` and `ShiftRows` commute: for every substitution table `s` and every
16-byte state `S`, `ShiftRows(SubBytes(S)) = SubBytes(ShiftRows(S))`; so `Round`, `FinalRound`
and the rounds of `AESEncrypt` give the same result with the two steps in the other order. -/
theorem SubBytes_ShiftRows_commute (s S : List Nat) (hS : S.length = 16)
    (hSb : ∀ x ∈ S, x < 256) :
    (SubBytes s S).bind ShiftRows = (ShiftRows S).bind (SubBytes s)
    ∧ (s.length = 256 → ∃ T, (SubBytes s S).bind ShiftRows = some T ∧ T.length = 16)
    ∧ (∀ mul2 mul3 key : List Nat,
        Round s mul2 mul3 S key = RoundSwapped s mul2 mul3 S key)
    ∧ (∀ key : List Nat, FinalRound s S key = FinalRoundSwapped s S key)
    ∧ (∀ mul2 mul3 ek out : List Nat, out.length = 16 →
        AESEncrypt s mul2 mul3 S ek out
          = (AddRoundKey S ek).bind fun st =>
              (forLoop (fun i st => RoundSwapped s mul2 mul3 st (ek.drop (16 * (i + 1)))) 9 0
                st).bind fun st => FinalRoundSwapped s st (ek.drop 160)) := by
  have h : IsState S := ⟨hS, hSb⟩
  refine ⟨SubBytes_ShiftRows_comm s h, fun hs => ?_,
    fun mul2 mul3 key => Round_swapped s mul2 mul3 key h,
    fun key => FinalRound_swapped s key h, fun mul2 mul3 ek out ho => ?_⟩
  · have e1 := SubBytes_eq s S hS (h.covered (Nat.le_of_eq hs.symm))
    have i1 := SubBytes_isState hS e1
    have e2 := ShiftRows_eq _ i1.1
    exact ⟨_, by rw [e1, Option.some_bind, e2], (ShiftRows_isState i1.1 e2).1⟩
  · rw [AESEncrypt_block s mul2 mul3 S ek out h ho, encryptState_swapped s mul2 mul3 ek h]

/-- Witness of C20: a state of 16 distinct bytes and the standard S-box. -/
theorem SubBytes_ShiftRows_commute_witness :
    (([0, 17, 34, 51, 68, 85, 102, 119, 136, 153, 170, 187, 204, 221, 238, 255] :
        List Nat).length = 16
      ∧ (∀ x ∈ ([0, 17, 34, 51, 68, 85, 102, 119, 136, 153, 170, 187, 204, 221, 238, 255] :
        List Nat), x < 256))
    ∧ ((SubBytes structures.s
          [0, 17, 34, 51, 68, 85, 102, 119, 136, 153, 170, 187, 204, 221, 238, 255]).bind
          ShiftRows
        = (ShiftRows
            [0, 17, 34, 51, 68, 85, 102, 119, 136, 153, 170, 187, 204, 221, 238, 255]).bind
          (SubBytes structures.s)
      ∧ (structures.s.length = 256 →
          ∃ T, (SubBytes structures.s
              [0, 17, 34, 51, 68, 85, 102, 119, 136, 153, 170, 187, 204, 221, 238, 255]).bind
              ShiftRows = some T ∧ T.length = 16)
      ∧ (∀ mul2 mul3 key : List Nat,
          Round structures.s mul2 mul3
              [0, 17, 34, 51, 68, 85, 102, 119, 136, 153, 170, 187, 204, 221, 238, 255] key
            = RoundSwapped structures.s mul2 mul3
              [0, 17, 34, 51, 68, 85, 102, 119, 136, 153, 170, 187, 204, 221, 238, 255] key)
      ∧ (∀ key : List Nat,
          FinalRound structures.s
              [0, 17, 34, 51, 68, 85, 102, 119, 136, 153, 170, 187, 204, 221, 238, 255] key
            = FinalRoundSwapped structures.s
              [0, 17, 34, 51, 68, 85, 102, 119, 136, 153, 170, 187, 204, 221, 238, 255] key)
      ∧ (∀ mul2 mul3 ek out : List Nat, out.length = 16 →
          AESEncrypt structures.s mul2 mul3
              [0, 17, 34, 51, 68, 85, 102, 119, 136, 153, 170, 187, 204, 221, 238, 255] ek out
            = (AddRoundKey
                [0, 17, 34, 51, 68, 85, 102, 119, 136, 153, 170, 187, 204, 221, 238, 255]
                ek).bind fun st =>
                (forLoop (fun i st =>
                  RoundSwapped structures.s mul2 mul3 st (ek.drop (16 * (i + 1)))) 9 0
                  st).bind fun st => FinalRoundSwapped structures.s st (ek.drop 160))) :=
  ⟨⟨rfl, by decide⟩,
    SubBytes_ShiftRows_commute structures.s
      [0, 17, 34, 51, 68, 85, 102, 119, 136, 153, 170, 187, 204, 221, 238, 255] rfl (by decide)⟩

end CipherLab
